import Mathlib

/-!
# Key remapping controller

A shallow embedding of `src/001_InputRemappingUE/ObsoleteRemappingManager.hpp`
(`FKeyMappingPack`, `URebindSettingController`) and theorems about it.

Conventions of the embedding

* Objects owned by the engine (`UInputMappingContext`, `UInputAction`) are
  represented by their identity, a natural number.  A nullable pointer is an
  `Option`.
* The live input configuration is a `World`: the mapping array of every
  mapping context.  Code that writes `Mapping->Key` becomes a function that
  returns the updated `World`.
* A failed `check(...)`, and an array access outside the bounds (the range
  check of `TArray`), is the result `none`.
* `int32` values are `Int`; array sizes are assumed to fit `int32`, as `TArray`
  guarantees.
-/

namespace Rebind

/-! ## Engine types used by the source -/

/-- Engine name type `FName`, represented by its string. -/
abbrev FName := String

/-- The name `NAME_None`; its string form is "None". -/
def NAME_None : FName := "None"

/-- Engine text type `FText`, represented by its display string. -/
structure FText where
  Display : String
deriving DecidableEq, Repr

namespace FText

/-- The text `FText::GetEmpty()`. -/
def GetEmpty : FText := ⟨""⟩

/-- The test `FText::IsEmpty()`. -/
def IsEmpty (t : FText) : Bool := t.Display.data.isEmpty

/-- The test `FText::IsEmptyOrWhitespace()`. -/
def IsEmptyOrWhitespace (t : FText) : Bool := t.Display.data.all Char.isWhitespace

/-- The comparison `FText::EqualTo`. -/
def EqualTo (a b : FText) : Bool := decide (a = b)

/-- The conversion `FText::FromName`. -/
def FromName (n : FName) : FText := ⟨n⟩

end FText

/-- The comparison `FString::Equals(_, ESearchCase::IgnoreCase)`. -/
def EqualsIgnoreCase (a b : String) : Bool :=
  decide (a.data.map Char.toLower = b.data.map Char.toLower)

/-- The entry of the engine key table for one key (`FKeyDetails`), restricted to
the flags the source reads.  `bIsKeyboardKey` is the result of
`UKismetInputLibrary::Key_IsKeyboardKey`. -/
structure FKeyDetails where
  bIsTouch : Bool
  bIsGesture : Bool
  bIsGamepadKey : Bool
  bIsMouseButton : Bool
  bIsKeyboardKey : Bool
deriving DecidableEq, Repr

/-- Engine key type `FKey`: the key name together with the entry of the engine
key table for that name (`none` when the name is not a registered key).  The
engine compares keys by name and the table entry is a function of the name, so
equality of keys is equality of these records. -/
structure FKey where
  KeyName : FName
  KeyDetails : Option FKeyDetails
deriving DecidableEq, Repr

namespace FKey

/-- The test `FKey::IsValid()`: the name is not `NAME_None` and is registered. -/
def IsValid (k : FKey) : Bool := decide (k.KeyName ≠ NAME_None) && k.KeyDetails.isSome

/-- The test `FKey::IsTouch()`. -/
def IsTouch (k : FKey) : Bool :=
  match k.KeyDetails with
  | some d => d.bIsTouch
  | none => false

/-- The test `FKey::IsGesture()`. -/
def IsGesture (k : FKey) : Bool :=
  match k.KeyDetails with
  | some d => d.bIsGesture
  | none => false

/-- The test `FKey::IsGamepadKey()`. -/
def IsGamepadKey (k : FKey) : Bool :=
  match k.KeyDetails with
  | some d => d.bIsGamepadKey
  | none => false

/-- The test `FKey::IsMouseButton()`. -/
def IsMouseButton (k : FKey) : Bool :=
  match k.KeyDetails with
  | some d => d.bIsMouseButton
  | none => false

/-- The test `UKismetInputLibrary::Key_IsKeyboardKey`. -/
def Key_IsKeyboardKey (k : FKey) : Bool :=
  match k.KeyDetails with
  | some d => d.bIsKeyboardKey
  | none => false

end FKey

/-- Identity of a `UInputMappingContext` object. -/
abbrev UInputMappingContext := Nat

/-- Identity of a `UInputAction` object. -/
abbrev UInputAction := Nat

/-- An element of `FEnhancedActionKeyMapping::Modifiers`, as seen through
`Cast<const UInputModifierCustomData>`: either a `UInputModifierCustomData`
with its `CustomDisplayName`, or anything else (the cast yields null). -/
inductive UInputModifier where
  | CustomData (CustomDisplayName : FText)
  | Other
deriving DecidableEq, Repr

/-- Engine type `FEnhancedActionKeyMapping`, restricted to what the source
reads and writes: `Action`, `Key`, `Modifiers`, the result of
`IsPlayerMappable()` and the result of `GetMappingName()`. -/
structure FEnhancedActionKeyMapping where
  Action : Option UInputAction
  Key : FKey
  Modifiers : List UInputModifier
  bIsPlayerMappable : Bool
  MappingName : FName
deriving DecidableEq, Repr

/-- The live input configuration: `GetMappings()` of every mapping context. -/
abbrev World := UInputMappingContext → List FEnhancedActionKeyMapping

/-- The assignment `Mappings[i].Key = k` on one mapping array. -/
def SetKeyAt : List FEnhancedActionKeyMapping → Nat → FKey → List FEnhancedActionKeyMapping
  | [], _, _ => []
  | m :: ms, 0, k => { m with Key := k } :: ms
  | m :: ms, i + 1, k => m :: SetKeyAt ms i k

/-- The assignment `Context->GetMapping(i).Key = k` on the live configuration. -/
def World.SetKey (w : World) (c : UInputMappingContext) (i : Nat) (k : FKey) : World :=
  Function.update w c (SetKeyAt (w c) i k)

/-- The access `Context->GetMapping(Index)` with the range check of `TArray`. -/
def World.GetMapping (w : World) (c : UInputMappingContext) (Index : Int) :
    Option FEnhancedActionKeyMapping :=
  if Index < 0 then none else (w c)[Index.toNat]?

/-! ## `FKeyMappingPack` -/

/-- Source struct `FKeyMappingPack`. -/
structure FKeyMappingPack where
  MappingContext : Option UInputMappingContext
  MappingAction : Option UInputAction
  DefaultKey : FKey
  CustomKey : FKey
  MappingDisplayName : FText
  MappingIndex : Int
deriving DecidableEq, Repr

namespace FKeyMappingPack

/-- The default constructor `FKeyMappingPack() = default`. -/
def default : FKeyMappingPack :=
  { MappingContext := none, MappingAction := none,
    DefaultKey := ⟨NAME_None, none⟩, CustomKey := ⟨NAME_None, none⟩,
    MappingDisplayName := FText.GetEmpty, MappingIndex := -1 }

/-- Source `FKeyMappingPack::operator==`. -/
def operatorEq (self Other : FKeyMappingPack) : Bool :=
  true
  && decide (Other.MappingContext = self.MappingContext)
  && decide (Other.MappingAction = self.MappingAction)
  && decide (Other.CustomKey = self.CustomKey)
  && Other.MappingDisplayName.EqualTo self.MappingDisplayName
  && decide (Other.MappingIndex = self.MappingIndex)

/-- Source `FKeyMappingPack::operator!=`. -/
def operatorNe (self Other : FKeyMappingPack) : Bool :=
  !(operatorEq self Other)

/-- The private constructor of `FKeyMappingPack` with its six checks. -/
def construct (Context : Option UInputMappingContext) (Action : Option UInputAction)
    (KeyToStore : FKey) (KeyIndex : Int) (MappingName : FText) : Option FKeyMappingPack :=
  let pack : FKeyMappingPack :=
    { MappingContext := Context, MappingAction := Action,
      DefaultKey := KeyToStore, CustomKey := KeyToStore,
      MappingDisplayName := MappingName, MappingIndex := KeyIndex }
  if pack.MappingContext.isNone then none
  else if pack.MappingAction.isNone then none
  else if !pack.DefaultKey.IsValid then none
  else if !pack.CustomKey.IsValid then none
  else if pack.MappingDisplayName.IsEmpty then none
  else if KeyIndex < 0 then none
  else some pack

/-- The loop of `GetMappingDisplayName` over the modifiers: the first
`UInputModifierCustomData` whose name is not empty or whitespace. -/
def FirstCustomDisplayName : List UInputModifier → Option FText
  | [] => none
  | UInputModifier.Other :: rest => FirstCustomDisplayName rest
  | UInputModifier.CustomData NameToReturn :: rest =>
      if !NameToReturn.IsEmptyOrWhitespace then some NameToReturn
      else FirstCustomDisplayName rest

/-- Source `FKeyMappingPack::GetMappingDisplayName`. -/
def GetMappingDisplayName (Mapping : FEnhancedActionKeyMapping) : FText :=
  if !Mapping.bIsPlayerMappable then FText.GetEmpty
  else
    match FirstCustomDisplayName Mapping.Modifiers with
    | some NameToReturn => NameToReturn
    | none => FText.FromName Mapping.MappingName

/-- Source `FKeyMappingPack::ExtractSimilarMapping`.  The outer `Option` is the
range check of `GetMapping`; the inner one is the returned pointer, given as the
index of the mapping in `OtherContext`. -/
def ExtractSimilarMapping (self : FKeyMappingPack) (w : World)
    (OtherContext : UInputMappingContext) : Option (Option Nat) :=
  let bIsWrongContext : Bool :=
    decide (some OtherContext ≠ self.MappingContext)
    || decide (((w OtherContext).length : Int) ≤ self.MappingIndex)
  if bIsWrongContext then some none
  else
    match w.GetMapping OtherContext self.MappingIndex with
    | none => none
    | some MappingUnderThisNumber =>
        if !MappingUnderThisNumber.bIsPlayerMappable then some none
        else
          let bIsPackValid : Bool :=
            true
            && decide (MappingUnderThisNumber.Action = self.MappingAction)
            && (GetMappingDisplayName MappingUnderThisNumber).EqualTo self.MappingDisplayName
          if !bIsPackValid then some none
          else some (some self.MappingIndex.toNat)

end FKeyMappingPack

/-! ## `URebindSettingController` -/

/-- The state the controller works on: its member `StableKeyMappingPacks` and
the live input configuration. -/
structure Controller where
  StableKeyMappingPacks : List FKeyMappingPack
  Live : World

/-- Source `URebindSettingController::IsCorrectControlMode`. -/
def IsCorrectControlMode (RebindPack : FKeyMappingPack) (ControlMode : FText) : Bool :=
  let KeyToSelect := RebindPack.CustomKey
  let ControlModeString := ControlMode.Display
  if KeyToSelect.IsTouch && EqualsIgnoreCase ControlModeString "Touch" then true
  else if KeyToSelect.IsGesture && EqualsIgnoreCase ControlModeString "VR" then true
  else if KeyToSelect.IsGamepadKey && EqualsIgnoreCase ControlModeString "Gamepad" then true
  else
    let bIsKeyboardOrMouse := KeyToSelect.IsMouseButton || KeyToSelect.Key_IsKeyboardKey
    bIsKeyboardOrMouse && EqualsIgnoreCase ControlModeString "KeyboardAndMouse"

/-- The inner loop of `CollectContextsWithMappableKeys`: one copy of
`OneContext` for every player mappable mapping. -/
def EmplaceMappable (OneContext : UInputMappingContext) :
    List FEnhancedActionKeyMapping → List UInputMappingContext
  | [] => []
  | OneMapping :: rest =>
      if !OneMapping.bIsPlayerMappable then EmplaceMappable OneContext rest
      else OneContext :: EmplaceMappable OneContext rest

/-- The outer loop of `CollectContextsWithMappableKeys`. -/
def CollectMappableLoop (w : World) : List UInputMappingContext → List UInputMappingContext
  | [] => []
  | OneContext :: rest => EmplaceMappable OneContext (w OneContext) ++ CollectMappableLoop w rest

/-- Source `URebindSettingController::CollectContextsWithMappableKeys`.
`AllContexts` is the result of `FindAllInputMappingContexts()`. -/
def CollectContextsWithMappableKeys (w : World) (AllContexts : List UInputMappingContext) :
    Option (List UInputMappingContext) :=
  if AllContexts.isEmpty then none
  else
    let CurrentContexts := CollectMappableLoop w AllContexts
    if CurrentContexts.isEmpty then none else some CurrentContexts

/-- The lambda `RemoveObsoletePacksAndResetStoredKeys` of
`RestoreStoredKeysAndRemoveObsoleteMappings`, with the live configuration it
writes to. -/
def RemoveObsoletePacksAndResetStoredKeys (OneStablePack : FKeyMappingPack) :
    List UInputMappingContext → World → Option (Bool × World)
  | [], w => some (false, w)
  | Context :: rest, w =>
      match OneStablePack.ExtractSimilarMapping w Context with
      | none => none
      | some none => RemoveObsoletePacksAndResetStoredKeys OneStablePack rest w
      | some (some i) =>
          match (w Context)[i]? with
          | none => none
          | some Mapping =>
              if !Mapping.bIsPlayerMappable then
                RemoveObsoletePacksAndResetStoredKeys OneStablePack rest w
              else some (true, w.SetKey Context i OneStablePack.CustomKey)

/-- The call `StableKeyMappingPacks.FilterByPredicate(lambda)`: the packs are
visited in order, the lambda writes to the live configuration. -/
def FilterByPredicate (CurrentContexts : List UInputMappingContext) :
    List FKeyMappingPack → World → Option (List FKeyMappingPack × World)
  | [], w => some ([], w)
  | OneStablePack :: rest, w =>
      match RemoveObsoletePacksAndResetStoredKeys OneStablePack CurrentContexts w with
      | none => none
      | some (keep, w1) =>
          match FilterByPredicate CurrentContexts rest w1 with
          | none => none
          | some (kept, w2) => some (if keep then OneStablePack :: kept else kept, w2)

/-- Source `URebindSettingController::RestoreStoredKeysAndRemoveObsoleteMappings`. -/
def RestoreStoredKeysAndRemoveObsoleteMappings (CurrentContexts : List UInputMappingContext)
    (s : Controller) : Option Controller :=
  if s.StableKeyMappingPacks.isEmpty || CurrentContexts.isEmpty then some s
  else
    match FilterByPredicate CurrentContexts s.StableKeyMappingPacks s.Live with
    | none => none
    | some (kept, w) => some { StableKeyMappingPacks := kept, Live := w }

/-- The body of the inner loop of `CollectNewControlSettings` for a player
mappable mapping, up to the construction of `PackToAdd`: the three checks of the
loop and the private constructor. -/
def MakePackToAdd (OneContext : UInputMappingContext) (KeyIndex : Nat)
    (OneMapping : FEnhancedActionKeyMapping) : Option FKeyMappingPack :=
  let DisplayName := FKeyMappingPack.GetMappingDisplayName OneMapping
  if DisplayName.IsEmptyOrWhitespace then none
  else
    match OneMapping.Action with
    | none => none
    | some OneAction =>
        let DefaultKey := OneMapping.Key
        if !DefaultKey.IsValid then none
        else
          FKeyMappingPack.construct (some OneContext) (some OneAction) DefaultKey
            (KeyIndex : Int) DisplayName

/-- The inner loop of `CollectNewControlSettings` over the mappings of
`OneContext`, from index `KeyIndex` on. -/
def CollectNewInContext (OneContext : UInputMappingContext) :
    List FEnhancedActionKeyMapping → Nat → List FKeyMappingPack → Option (List FKeyMappingPack)
  | [], _, Packs => some Packs
  | OneMapping :: rest, KeyIndex, Packs =>
      if !OneMapping.bIsPlayerMappable then
        CollectNewInContext OneContext rest (KeyIndex + 1) Packs
      else
        match MakePackToAdd OneContext KeyIndex OneMapping with
        | none => none
        | some PackToAdd =>
            if Packs.any (fun Pack => Pack.operatorEq PackToAdd) then
              CollectNewInContext OneContext rest (KeyIndex + 1) Packs
            else
              CollectNewInContext OneContext rest (KeyIndex + 1) (Packs ++ [PackToAdd])

/-- Source `URebindSettingController::CollectNewControlSettings`, on the store. -/
def CollectNewControlSettings (w : World) :
    List UInputMappingContext → List FKeyMappingPack → Option (List FKeyMappingPack)
  | [], Packs => some Packs
  | OneContext :: rest, Packs =>
      match CollectNewInContext OneContext (w OneContext) 0 Packs with
      | none => none
      | some Packs1 => CollectNewControlSettings w rest Packs1

/-- Source `URebindSettingController::RecalculatePlayerMappingSettings`.
`bShipping` is the build flag `UE_BUILD_SHIPPING`; `AllContexts` is the result
of `FindAllInputMappingContexts()`. -/
def RecalculatePlayerMappingSettings (bShipping : Bool)
    (AllContexts : List UInputMappingContext) (s : Controller) : Option Controller :=
  let s0 : Controller :=
    if !bShipping then { s with StableKeyMappingPacks := [] } else s
  match CollectContextsWithMappableKeys s0.Live AllContexts with
  | none => none
  | some CurrentContexts =>
      match RestoreStoredKeysAndRemoveObsoleteMappings CurrentContexts s0 with
      | none => none
      | some s1 =>
          match CollectNewControlSettings s1.Live CurrentContexts s1.StableKeyMappingPacks with
          | none => none
          | some Packs => some { StableKeyMappingPacks := Packs, Live := s1.Live }

/-- Source `URebindSettingController::UpdateKeyInContextByIndex`. -/
def UpdateKeyInContextByIndex (w : World) (MappingContext : Option UInputMappingContext)
    (MappingIndex : Int) (KeyToSet : FKey) : Option World :=
  match MappingContext with
  | none => none
  | some Context =>
      if !decide (((w Context).length : Int) > MappingIndex) then none
      else
        match w.GetMapping Context MappingIndex with
        | none => none
        | some _ => some (w.SetKey Context MappingIndex.toNat KeyToSet)

/-- The loop of `UpdateCustomKeyInPackAndSettings` over the store: the first
pack equal to `PackParam` gets the key, then the loop breaks. -/
def UpdateFirstEqual (PackParam : FKeyMappingPack) (KeyToSet : FKey) :
    List FKeyMappingPack → List FKeyMappingPack
  | [] => []
  | StablePack :: rest =>
      if StablePack.operatorNe PackParam then
        StablePack :: UpdateFirstEqual PackParam KeyToSet rest
      else { StablePack with CustomKey := KeyToSet } :: rest

/-- Source `URebindSettingController::UpdateCustomKeyInPackAndSettings` for a
pack handle held by the caller: the new store and the new handle. -/
def UpdateCustomKeyInPackAndSettings (Packs : List FKeyMappingPack)
    (PackParam : FKeyMappingPack) (KeyToSet : FKey) :
    List FKeyMappingPack × FKeyMappingPack :=
  (UpdateFirstEqual PackParam KeyToSet Packs, { PackParam with CustomKey := KeyToSet })

/-- Source `URebindSettingController::RemapControlKey`: the new controller
state and the new value of the handle `PackParam`. -/
def RemapControlKey (s : Controller) (PackParam : FKeyMappingPack) (KeyToSet : FKey) :
    Option (Controller × FKeyMappingPack) :=
  match UpdateKeyInContextByIndex s.Live PackParam.MappingContext PackParam.MappingIndex
      KeyToSet with
  | none => none
  | some w =>
      let r := UpdateCustomKeyInPackAndSettings s.StableKeyMappingPacks PackParam KeyToSet
      some ({ StableKeyMappingPacks := r.1, Live := w }, r.2)

/-- Source `URebindSettingController::RestoreDefaultKey`. -/
def RestoreDefaultKey (s : Controller) (PackParam : FKeyMappingPack) :
    Option (Controller × FKeyMappingPack) :=
  match UpdateKeyInContextByIndex s.Live PackParam.MappingContext PackParam.MappingIndex
      PackParam.DefaultKey with
  | none => none
  | some w =>
      let r := UpdateCustomKeyInPackAndSettings s.StableKeyMappingPacks PackParam
        PackParam.DefaultKey
      some ({ StableKeyMappingPacks := r.1, Live := w }, r.2)

/-- Source `URebindSettingController::IsCustomKeySetForThisPack`. -/
def IsCustomKeySetForThisPack (Pack : FKeyMappingPack) : Bool :=
  decide (Pack.DefaultKey ≠ Pack.CustomKey)

/-- Source `URebindSettingController::UnpackRebindPack`: the pair
`(ActionName, PackedKey)`. -/
def UnpackRebindPack (Pack : FKeyMappingPack) : Option (FText × FKey) :=
  if !Pack.CustomKey.IsValid then none
  else if Pack.MappingDisplayName.IsEmptyOrWhitespace then none
  else some (Pack.MappingDisplayName, Pack.CustomKey)

/-- The loop of `GetMappingPacksForControlMode`, with the packs collected so
far. -/
def CollectPacksForMode (ControlMode : FText) :
    List FKeyMappingPack → List FKeyMappingPack → List FKeyMappingPack
  | [], ReturnPacks => ReturnPacks
  | Pack :: rest, ReturnPacks =>
      if ReturnPacks.any (fun q => q.operatorEq Pack) || !IsCorrectControlMode Pack ControlMode then
        CollectPacksForMode ControlMode rest ReturnPacks
      else CollectPacksForMode ControlMode rest (ReturnPacks ++ [Pack])

/-- Source `URebindSettingController::GetMappingPacksForControlMode`. -/
def GetMappingPacksForControlMode (Packs : List FKeyMappingPack) (ControlMode : FText) :
    Option (List FKeyMappingPack) :=
  if Packs.isEmpty then none
  else
    let ReturnPacks := CollectPacksForMode ControlMode Packs []
    if ReturnPacks.isEmpty then none else some ReturnPacks

/-! ## Notions used to state the properties -/

/-- The pack resolves to a live entry of context `c`: `c` is the context of the
pack, `c` has more than `MappingIndex` entries, and the entry at `MappingIndex`
is player mappable with the action and the resolved display name of the pack. -/
def FKeyMappingPack.ResolvesIn (p : FKeyMappingPack) (w : World)
    (c : UInputMappingContext) : Bool :=
  decide (p.MappingContext = some c) && decide (p.MappingIndex < ((w c).length : Int)) &&
    match w.GetMapping c p.MappingIndex with
    | none => false
    | some m =>
        m.bIsPlayerMappable && decide (m.Action = p.MappingAction)
          && decide (FKeyMappingPack.GetMappingDisplayName m = p.MappingDisplayName)

/-- The write of the custom key of the pack into the live entry at the position
of the pack. -/
def FKeyMappingPack.WriteBack (p : FKeyMappingPack) (w : World) : World :=
  match p.MappingContext with
  | none => w
  | some c => w.SetKey c p.MappingIndex.toNat p.CustomKey

/-- The verdict of the pruning lambda for a pack over a list of contexts:
`none` when the range check fires, otherwise whether the pack is kept. -/
def KeepVerdict (p : FKeyMappingPack) (w : World) : List UInputMappingContext → Option Bool
  | [] => some false
  | c :: rest =>
      if p.MappingContext = some c ∧ p.MappingIndex < 0 then none
      else if p.ResolvesIn w c then some true
      else KeepVerdict p w rest

/-- Every player mappable mapping of `ms` (the mapping at position `j` has index
`i + j`) passes the checks of discovery and has an equal pack in `Packs`. -/
def Covered (c : UInputMappingContext) (ms : List FEnhancedActionKeyMapping) (i : Nat)
    (Packs : List FKeyMappingPack) : Prop :=
  ∀ j m, ms[j]? = some m → m.bIsPlayerMappable = true →
    ∃ n, MakePackToAdd c (i + j) m = some n ∧ Packs.any (fun q => q.operatorEq n) = true

/-- The key bound in the live entry at the position of the pack, if any. -/
def FKeyMappingPack.LiveKey (p : FKeyMappingPack) (w : World) : Option FKey :=
  match p.MappingContext with
  | none => none
  | some c => (w.GetMapping c p.MappingIndex).map (fun m => m.Key)

/-- The write-backs of a list of packs, in order. -/
def WriteBackAll (qs : List FKeyMappingPack) (w : World) : World :=
  qs.foldl (fun w1 q => q.WriteBack w1) w

/-- Two packs track the same live entry. -/
def FKeyMappingPack.SameSlot (p q : FKeyMappingPack) : Prop :=
  p.MappingContext = q.MappingContext ∧ p.MappingIndex.toNat = q.MappingIndex.toNat

/-- The invariants of a pack: the six checks of the private constructor (non-null
context and action, valid default and custom key, non-empty display name,
index at least 0). -/
def FKeyMappingPack.Invariants (p : FKeyMappingPack) : Bool :=
  p.MappingContext.isSome && p.MappingAction.isSome && p.DefaultKey.IsValid
    && p.CustomKey.IsValid && !p.MappingDisplayName.IsEmpty && decide (0 ≤ p.MappingIndex)

/-- A sequence of `RemapControlKey` calls on one pack handle, one per key. -/
def RemapSequence : Controller → FKeyMappingPack → List FKey →
    Option (Controller × FKeyMappingPack)
  | s, p, [] => some (s, p)
  | s, p, K :: Ks =>
      match RemapControlKey s p K with
      | none => none
      | some r => RemapSequence r.1 r.2 Ks

/-- The pack appears, up to `operator==`, in the result of
`GetMappingPacksForControlMode`; it appears in no result when the call raises. -/
def AppearsForMode (Packs : List FKeyMappingPack) (ControlMode : FText)
    (p : FKeyMappingPack) : Bool :=
  match GetMappingPacksForControlMode Packs ControlMode with
  | none => false
  | some r => r.any (fun q => q.operatorEq p)

/-- The four control modes, by the names `IsCorrectControlMode` compares with. -/
def ControlModes : List FText := [⟨"KeyboardAndMouse"⟩, ⟨"Gamepad"⟩, ⟨"Touch"⟩, ⟨"VR"⟩]

/-- The number of device classes of a key among the four that
`IsCorrectControlMode` tests: keyboard or mouse, gamepad, touch, gesture. -/
def DeviceClassCount (k : FKey) : Nat :=
  (if k.IsMouseButton || k.Key_IsKeyboardKey then 1 else 0) + (if k.IsGamepadKey then 1 else 0)
    + (if k.IsTouch then 1 else 0) + (if k.IsGesture then 1 else 0)

/-- The controller states that arise from an empty store by calls of
`RecalculatePlayerMappingSettings`, `RemapControlKey` and `RestoreDefaultKey`
(with arbitrary handles and keys); between calls the engine may replace the live
configuration. -/
inductive Reachable (bShipping : Bool) : Controller → Prop
  | start (w : World) : Reachable bShipping ⟨[], w⟩
  | reload (s : Controller) (w : World) :
      Reachable bShipping s → Reachable bShipping ⟨s.StableKeyMappingPacks, w⟩
  | reconcile (s s2 : Controller) (AllContexts : List UInputMappingContext) :
      Reachable bShipping s →
      RecalculatePlayerMappingSettings bShipping AllContexts s = some s2 →
      Reachable bShipping s2
  | remap (s s2 : Controller) (p p2 : FKeyMappingPack) (K : FKey) :
      Reachable bShipping s → RemapControlKey s p K = some (s2, p2) → Reachable bShipping s2
  | restore (s s2 : Controller) (p p2 : FKeyMappingPack) :
      Reachable bShipping s → RestoreDefaultKey s p = some (s2, p2) → Reachable bShipping s2

/-- The display name as the resolution rule words it: for a player mappable
mapping, the name of the first `UInputModifierCustomData` among the modifiers
whose name is not empty or whitespace, and the mapping name when there is none;
the empty text for a mapping that is not player mappable. -/
def ResolveDisplayName (m : FEnhancedActionKeyMapping) : FText :=
  if m.bIsPlayerMappable then
    match (m.Modifiers.filterMap (fun md =>
        match md with
        | UInputModifier.CustomData n => some n
        | UInputModifier.Other => none)).find? (fun n => !n.IsEmptyOrWhitespace) with
    | some n => n
    | none => FText.FromName m.MappingName
  else FText.GetEmpty

/-- The live slot a pack tracks: its context and its position. -/
def FKeyMappingPack.Slot (p : FKeyMappingPack) : Option UInputMappingContext × Int :=
  (p.MappingContext, p.MappingIndex)

/-- No two packs of the store share the same context and position. -/
def SlotsDistinct (Packs : List FKeyMappingPack) : Prop :=
  (Packs.map FKeyMappingPack.Slot).Nodup

/-- The phases of `RecalculatePlayerMappingSettings` that follow the discovery of
the valid contexts: prune-and-restore, then discover-new, on one list of
contexts. -/
def ReconcilePhases (CurrentContexts : List UInputMappingContext) (s : Controller) :
    Option Controller :=
  match RestoreStoredKeysAndRemoveObsoleteMappings CurrentContexts s with
  | none => none
  | some s1 =>
      match CollectNewControlSettings s1.Live CurrentContexts s1.StableKeyMappingPacks with
      | none => none
      | some Packs => some { StableKeyMappingPacks := Packs, Live := s1.Live }

/-- A list of contexts without the occurrences of contexts that are in `seen` or
occur earlier in the list. -/
def RemoveRepeatedAux (seen : List UInputMappingContext) :
    List UInputMappingContext → List UInputMappingContext
  | [] => []
  | c :: rest =>
      if c ∈ seen then RemoveRepeatedAux seen rest
      else c :: RemoveRepeatedAux (c :: seen) rest

/-- A list of contexts with repeated contexts removed, first occurrences kept. -/
def RemoveRepeated (L : List UInputMappingContext) : List UInputMappingContext :=
  RemoveRepeatedAux [] L

/-! ## Concrete data used in examples -/

/-- The keyboard key `SpaceBar`. -/
def KeySpace : FKey := ⟨"SpaceBar", some ⟨false, false, false, false, true⟩⟩

/-- The keyboard key `E`. -/
def KeyE : FKey := ⟨"E", some ⟨false, false, false, false, true⟩⟩

/-- The keyboard key `F`. -/
def KeyF : FKey := ⟨"F", some ⟨false, false, false, false, true⟩⟩

/-- The key `EKeys::Invalid`, named `NAME_None`. -/
def KeyInvalid : FKey := ⟨NAME_None, none⟩

/-- A player mappable mapping of action 7 named "Jump", bound to `k`. -/
def JumpMapping (k : FKey) : FEnhancedActionKeyMapping :=
  { Action := some 7, Key := k, Modifiers := [], bIsPlayerMappable := true, MappingName := "Jump" }

/-- A live configuration where context 1 has the single mapping `JumpMapping k`
and every other context is empty. -/
def JumpWorld (k : FKey) : World := fun c => if c = 1 then [JumpMapping k] else []

/-- The pack tracking the mapping of `JumpWorld`. -/
def JumpPack (d k : FKey) : FKeyMappingPack :=
  { MappingContext := some 1, MappingAction := some 7, DefaultKey := d, CustomKey := k,
    MappingDisplayName := ⟨"Jump"⟩, MappingIndex := 0 }

/-- A pack of a removed action 9 at the position of the "Jump" mapping. -/
def StalePack : FKeyMappingPack :=
  { MappingContext := some 1, MappingAction := some 9, DefaultKey := KeySpace, CustomKey := KeyE,
    MappingDisplayName := ⟨"Crouch"⟩, MappingIndex := 0 }

/-- A pack for the "Jump" entry whose display name is a single space. -/
def BlankPack : FKeyMappingPack :=
  { MappingContext := some 1, MappingAction := some 7, DefaultKey := KeySpace,
    CustomKey := KeySpace, MappingDisplayName := ⟨" "⟩, MappingIndex := 0 }

/-- A mapping of action 8 named "Pause" that is not player mappable, bound to `k`. -/
def FixedMapping (k : FKey) : FEnhancedActionKeyMapping :=
  { Action := some 8, Key := k, Modifiers := [], bIsPlayerMappable := false,
    MappingName := "Pause" }

/-- A live configuration where context 1 has the single mapping `FixedMapping k`
and every other context is empty. -/
def FixedWorld (k : FKey) : World := fun c => if c = 1 then [FixedMapping k] else []

/-- A player mappable mapping named "Jump" whose action pointer is null. -/
def NoActionMapping (k : FKey) : FEnhancedActionKeyMapping :=
  { Action := none, Key := k, Modifiers := [], bIsPlayerMappable := true, MappingName := "Jump" }

/-- A live configuration where context 1 has the single mapping `NoActionMapping k`
and every other context is empty. -/
def NoActionWorld (k : FKey) : World := fun c => if c = 1 then [NoActionMapping k] else []

/-- A player mappable mapping of action 9 named "Crouch", bound to `k`. -/
def CrouchMapping (k : FKey) : FEnhancedActionKeyMapping :=
  { Action := some 9, Key := k, Modifiers := [], bIsPlayerMappable := true,
    MappingName := "Crouch" }

/-- The live configuration after the reload of the reorder scenario: context 1
has "Crouch" at position 0, "Pause" at position 1 and "Jump", bound to
`SpaceBar`, at position 2. -/
def ReorderWorld : World :=
  fun c => if c = 1 then [CrouchMapping KeyF, FixedMapping KeyF, JumpMapping KeySpace] else []

/-- The pack that discovery creates for "Crouch" at position 0 of `ReorderWorld`. -/
def CrouchPack : FKeyMappingPack :=
  { MappingContext := some 1, MappingAction := some 9, DefaultKey := KeyF, CustomKey := KeyF,
    MappingDisplayName := ⟨"Crouch"⟩, MappingIndex := 0 }

/-- The pack that discovery creates for "Jump" at position 2 of `ReorderWorld`. -/
def MovedJumpPack : FKeyMappingPack :=
  { MappingContext := some 1, MappingAction := some 7, DefaultKey := KeySpace,
    CustomKey := KeySpace, MappingDisplayName := ⟨"Jump"⟩, MappingIndex := 2 }

/-- A player mappable mapping named "Jump" with two display-name modifiers: the
first supplies a single space, the second supplies "Leap". -/
def BlankModifierMapping : FEnhancedActionKeyMapping :=
  { Action := some 7, Key := KeySpace,
    Modifiers := [UInputModifier.CustomData ⟨" "⟩, UInputModifier.CustomData ⟨"Leap"⟩],
    bIsPlayerMappable := true, MappingName := "Jump" }

/-- A live configuration where context 1 has two player mappable mappings, "Jump"
bound to `SpaceBar` and "Crouch" bound to `F`, and every other context is empty. -/
def TwoEntryWorld : World :=
  fun c => if c = 1 then [JumpMapping KeySpace, CrouchMapping KeyF] else []

/-- The pack that discovery creates for "Crouch" at position 1 of `TwoEntryWorld`. -/
def SecondCrouchPack : FKeyMappingPack :=
  { MappingContext := some 1, MappingAction := some 9, DefaultKey := KeyF, CustomKey := KeyF,
    MappingDisplayName := ⟨"Crouch"⟩, MappingIndex := 1 }

/-- The live configuration before the reload of the reorder scenario, with two
bindings of "Jump": context 1 has "Jump" at position 0, "Pause" at position 1
and "Jump" again at position 2, both bound to `SpaceBar`. -/
def DoubleJumpWorld : World :=
  fun c =>
    if c = 1 then [JumpMapping KeySpace, FixedMapping KeyF, JumpMapping KeySpace] else []

/-- A live configuration with two contexts: context 1 has the "Jump" mapping bound
to `SpaceBar`, context 2 has the "Crouch" mapping bound to `F`. -/
def TwoContextWorld : World :=
  fun c =>
    if c = 1 then [JumpMapping KeySpace] else if c = 2 then [CrouchMapping KeyF] else []

/-- The pack that discovery creates for "Crouch" at position 0 of context 2 of
`TwoContextWorld`. -/
def OtherCrouchPack : FKeyMappingPack :=
  { MappingContext := some 2, MappingAction := some 9, DefaultKey := KeyF, CustomKey := KeyF,
    MappingDisplayName := ⟨"Crouch"⟩, MappingIndex := 0 }

/-! ## The live configuration under key writes -/

theorem SetKeyAt_length (ms : List FEnhancedActionKeyMapping) (i : Nat) (k : FKey) :
    (SetKeyAt ms i k).length = ms.length := by
  induction ms generalizing i with
  | nil => simp [SetKeyAt]
  | cons m ms ih =>
    cases i with
    | zero => simp [SetKeyAt]
    | succ i => simp [SetKeyAt, ih]

theorem getElem?_SetKeyAt (ms : List FEnhancedActionKeyMapping) (i j : Nat) (k : FKey) :
    (SetKeyAt ms i k)[j]? =
      (ms[j]?).map (fun m => if j = i then { m with Key := k } else m) := by
  induction ms generalizing i j with
  | nil => simp [SetKeyAt]
  | cons m ms ih =>
    cases i with
    | zero =>
      cases j with
      | zero => simp [SetKeyAt]
      | succ j => simp [SetKeyAt]
    | succ i =>
      cases j with
      | zero => simp [SetKeyAt]
      | succ j => simp [SetKeyAt, ih]

theorem SetKeyAt_overwrite (ms : List FEnhancedActionKeyMapping) (i : Nat) (k k2 : FKey) :
    SetKeyAt (SetKeyAt ms i k) i k2 = SetKeyAt ms i k2 := by
  apply List.ext_getElem?
  intro j
  simp only [getElem?_SetKeyAt]
  cases ms[j]? with
  | none => rfl
  | some m => by_cases h : j = i <;> simp [h]

theorem SetKeyAt_comm (ms : List FEnhancedActionKeyMapping) (i i2 : Nat) (k k2 : FKey)
    (h : i ≠ i2) :
    SetKeyAt (SetKeyAt ms i k) i2 k2 = SetKeyAt (SetKeyAt ms i2 k2) i k := by
  apply List.ext_getElem?
  intro j
  simp only [getElem?_SetKeyAt]
  cases ms[j]? with
  | none => rfl
  | some m =>
    by_cases h1 : j = i
    · have h2 : j ≠ i2 := fun e => h (h1.symm.trans e)
      simp [h1, h2, h]
    · by_cases h2 : j = i2
      · have h3 : i2 ≠ i := fun e => h e.symm
        subst h2
        simp [h3]
      · simp [h1, h2]

theorem SetKeyAt_self (ms : List FEnhancedActionKeyMapping) (i : Nat) (m : FEnhancedActionKeyMapping)
    (h : ms[i]? = some m) : SetKeyAt ms i m.Key = ms := by
  apply List.ext_getElem?
  intro j
  simp only [getElem?_SetKeyAt]
  by_cases h1 : j = i
  · subst h1
    simp [h]
  · cases ms[j]? <;> simp [h1]

theorem EmplaceMappable_SetKeyAt (c : UInputMappingContext) (ms : List FEnhancedActionKeyMapping)
    (i : Nat) (k : FKey) :
    EmplaceMappable c (SetKeyAt ms i k) = EmplaceMappable c ms := by
  induction ms generalizing i with
  | nil => simp [SetKeyAt]
  | cons m ms ih =>
    cases i with
    | zero => simp [SetKeyAt, EmplaceMappable]
    | succ i => simp [SetKeyAt, EmplaceMappable, ih]

theorem SetKey_apply (w : World) (c c2 : UInputMappingContext) (i : Nat) (k : FKey) :
    (w.SetKey c i k) c2 = if c2 = c then SetKeyAt (w c) i k else w c2 := by
  unfold World.SetKey
  by_cases h : c2 = c
  · subst h; simp
  · simp [Function.update_noteq h, h]

theorem SetKey_overwrite (w : World) (c : UInputMappingContext) (i : Nat) (k k2 : FKey) :
    (w.SetKey c i k).SetKey c i k2 = w.SetKey c i k2 := by
  funext c2
  simp only [SetKey_apply]
  by_cases h : c2 = c <;> simp [h, SetKeyAt_overwrite]

theorem SetKey_comm (w : World) (c c2 : UInputMappingContext) (i i2 : Nat) (k k2 : FKey)
    (h : c ≠ c2 ∨ i ≠ i2) :
    (w.SetKey c i k).SetKey c2 i2 k2 = (w.SetKey c2 i2 k2).SetKey c i k := by
  funext x
  simp only [SetKey_apply]
  by_cases hc : c = c2
  · subst hc
    have hi : i ≠ i2 := by
      rcases h with h | h
      · exact absurd rfl h
      · exact h
    by_cases hx : x = c
    · simp [hx, SetKeyAt_comm _ _ _ _ _ hi]
    · simp [hx]
  · have hc2 : c2 ≠ c := fun e => hc e.symm
    by_cases hx : x = c
    · subst hx; simp [hc, hc2]
    · by_cases hx2 : x = c2
      · subst hx2; simp [hc, hc2]
      · simp [hx, hx2]

theorem SetKey_self (w : World) (c : UInputMappingContext) (i : Nat)
    (m : FEnhancedActionKeyMapping) (h : (w c)[i]? = some m) : w.SetKey c i m.Key = w := by
  funext x
  simp only [SetKey_apply]
  by_cases hx : x = c
  · subst hx; simp [SetKeyAt_self _ _ _ h]
  · simp [hx]

/-! ## Write-backs of packs -/

theorem WriteBack_sameSlot (p q : FKeyMappingPack) (w : World) (h : p.SameSlot q) :
    q.WriteBack (p.WriteBack w) = q.WriteBack w := by
  obtain ⟨hc, hi⟩ := h
  unfold FKeyMappingPack.WriteBack
  rw [hc]
  cases hq : q.MappingContext with
  | none => rfl
  | some c =>
    simp only []
    rw [hi]
    exact SetKey_overwrite _ _ _ _ _

theorem WriteBack_comm (p q : FKeyMappingPack) (w : World) (h : ¬ p.SameSlot q) :
    q.WriteBack (p.WriteBack w) = p.WriteBack (q.WriteBack w) := by
  unfold FKeyMappingPack.WriteBack
  cases hp : p.MappingContext with
  | none => rfl
  | some c =>
    cases hq : q.MappingContext with
    | none => rfl
    | some c2 =>
      simp only []
      apply SetKey_comm
      by_cases hc : c = c2
      · right
        intro hi
        apply h
        exact ⟨by rw [hp, hq, hc], hi⟩
      · left; exact hc

theorem WriteBackAll_nil (w : World) : WriteBackAll [] w = w := rfl

theorem WriteBackAll_cons (q : FKeyMappingPack) (qs : List FKeyMappingPack) (w : World) :
    WriteBackAll (q :: qs) w = WriteBackAll qs (q.WriteBack w) := rfl

theorem WriteBackAll_append (qs rs : List FKeyMappingPack) (w : World) :
    WriteBackAll (qs ++ rs) w = WriteBackAll rs (WriteBackAll qs w) := by
  simp [WriteBackAll, List.foldl_append]

/-- A write-back that is repeated at the end hides the earlier one. -/
theorem WriteBack_WriteBackAll_WriteBack (p : FKeyMappingPack) (qs : List FKeyMappingPack)
    (w : World) :
    p.WriteBack (WriteBackAll qs (p.WriteBack w)) = p.WriteBack (WriteBackAll qs w) := by
  induction qs generalizing w with
  | nil => simp [WriteBackAll_nil, WriteBack_sameSlot p p w ⟨rfl, rfl⟩]
  | cons q qs ih =>
    simp only [WriteBackAll_cons]
    by_cases h : p.SameSlot q
    · rw [WriteBack_sameSlot p q w h]
    · rw [WriteBack_comm p q w h, ih]

/-- Writing back a list of packs twice is the same as writing it back once. -/
theorem WriteBackAll_idem (qs : List FKeyMappingPack) (w : World) :
    WriteBackAll qs (WriteBackAll qs w) = WriteBackAll qs w := by
  induction qs using List.reverseRecOn generalizing w with
  | nil => rfl
  | append_singleton qs p ih =>
    have e1 : ∀ v, WriteBackAll (qs ++ [p]) v = p.WriteBack (WriteBackAll qs v) := by
      intro v
      rw [WriteBackAll_append]
      rfl
    rw [e1, e1, WriteBack_WriteBackAll_WriteBack, ih]

theorem GetMappingDisplayName_key (m : FEnhancedActionKeyMapping) (k : FKey) :
    FKeyMappingPack.GetMappingDisplayName { m with Key := k } =
      FKeyMappingPack.GetMappingDisplayName m := rfl

theorem ResolvesIn_SetKey (p : FKeyMappingPack) (w : World) (c c2 : UInputMappingContext)
    (i : Nat) (k : FKey) :
    p.ResolvesIn (w.SetKey c i k) c2 = p.ResolvesIn w c2 := by
  unfold FKeyMappingPack.ResolvesIn World.GetMapping
  simp only [SetKey_apply]
  by_cases hc : c2 = c
  · subst hc
    simp only [if_true, SetKeyAt_length, getElem?_SetKeyAt]
    by_cases hneg : p.MappingIndex < 0
    · simp [hneg]
    · simp only [hneg, if_false]
      cases (w c2)[p.MappingIndex.toNat]? with
      | none => rfl
      | some m =>
        by_cases hi : p.MappingIndex.toNat = i <;> simp [hi, FKeyMappingPack.GetMappingDisplayName]
  · simp [hc]

theorem ResolvesIn_WriteBack (p q : FKeyMappingPack) (w : World) (c : UInputMappingContext) :
    p.ResolvesIn (q.WriteBack w) c = p.ResolvesIn w c := by
  unfold FKeyMappingPack.WriteBack
  cases q.MappingContext with
  | none => rfl
  | some c2 => exact ResolvesIn_SetKey _ _ _ _ _ _

theorem KeepVerdict_WriteBack (p q : FKeyMappingPack) (w : World)
    (L : List UInputMappingContext) :
    KeepVerdict p (q.WriteBack w) L = KeepVerdict p w L := by
  induction L with
  | nil => rfl
  | cons c rest ih => simp [KeepVerdict, ResolvesIn_WriteBack, ih]

theorem KeepVerdict_WriteBackAll (p : FKeyMappingPack) (qs : List FKeyMappingPack) (w : World)
    (L : List UInputMappingContext) :
    KeepVerdict p (WriteBackAll qs w) L = KeepVerdict p w L := by
  induction qs generalizing w with
  | nil => rfl
  | cons q qs ih => rw [WriteBackAll_cons, ih, KeepVerdict_WriteBack]

theorem CollectMappableLoop_SetKey (w : World) (c : UInputMappingContext) (i : Nat) (k : FKey)
    (all : List UInputMappingContext) :
    CollectMappableLoop (w.SetKey c i k) all = CollectMappableLoop w all := by
  induction all with
  | nil => rfl
  | cons c2 rest ih =>
    simp only [CollectMappableLoop, ih, SetKey_apply]
    by_cases h : c2 = c
    · subst h; simp [EmplaceMappable_SetKeyAt]
    · simp [h]

theorem CollectMappableLoop_WriteBack (q : FKeyMappingPack) (w : World)
    (all : List UInputMappingContext) :
    CollectMappableLoop (q.WriteBack w) all = CollectMappableLoop w all := by
  unfold FKeyMappingPack.WriteBack
  cases q.MappingContext with
  | none => rfl
  | some c => exact CollectMappableLoop_SetKey _ _ _ _ _

theorem CollectMappableLoop_WriteBackAll (qs : List FKeyMappingPack) (w : World)
    (all : List UInputMappingContext) :
    CollectMappableLoop (WriteBackAll qs w) all = CollectMappableLoop w all := by
  induction qs generalizing w with
  | nil => rfl
  | cons q qs ih => rw [WriteBackAll_cons, ih, CollectMappableLoop_WriteBack]

/-! ## The pruning lambda and the filter -/

theorem ExtractSimilarMapping_eq (p : FKeyMappingPack) (w : World) (c : UInputMappingContext) :
    p.ExtractSimilarMapping w c =
      if p.MappingContext = some c ∧ p.MappingIndex < 0 then none
      else if p.ResolvesIn w c then some (some p.MappingIndex.toNat) else some none := by
  unfold FKeyMappingPack.ExtractSimilarMapping FKeyMappingPack.ResolvesIn World.GetMapping
  by_cases hctx : p.MappingContext = some c
  · have hctx2 : some c = p.MappingContext := hctx.symm
    by_cases hneg : p.MappingIndex < 0
    · have hlen : ¬ (((w c).length : Int) ≤ p.MappingIndex) := by omega
      simp [hctx2, hneg, hlen]
    · by_cases hlen : ((w c).length : Int) ≤ p.MappingIndex
      · have hlt : ¬ (p.MappingIndex < ((w c).length : Int)) := by omega
        simp [hctx2, hneg, hlen, hlt]
      · have hlt : p.MappingIndex < ((w c).length : Int) := by omega
        have hin : p.MappingIndex.toNat < (w c).length := by omega
        simp only [hctx2, hneg, hlen, hlt, ne_eq, not_true_eq_false, decide_False, Bool.or_self,
          Bool.false_eq_true, if_false, List.getElem?_eq_getElem hin, decide_True, Bool.and_self,
          Bool.true_and, and_false]
        cases hm : ((w c)[p.MappingIndex.toNat]).bIsPlayerMappable with
        | false => simp
        | true =>
          by_cases ha : ((w c)[p.MappingIndex.toNat]).Action = p.MappingAction
          · by_cases hn : FKeyMappingPack.GetMappingDisplayName ((w c)[p.MappingIndex.toNat])
                = p.MappingDisplayName
            · simp [ha, hn, FText.EqualTo]
            · simp [ha, hn, FText.EqualTo]
          · simp [ha]
  · have hctx2 : ¬ (some c = p.MappingContext) := fun e => hctx e.symm
    simp [hctx, hctx2]

theorem ResolvesIn_spec (p : FKeyMappingPack) (w : World) (c : UInputMappingContext)
    (h : p.ResolvesIn w c = true) :
    p.MappingContext = some c ∧ 0 ≤ p.MappingIndex ∧ p.MappingIndex.toNat < (w c).length ∧
      ∃ m, (w c)[p.MappingIndex.toNat]? = some m ∧ m.bIsPlayerMappable = true ∧
        m.Action = p.MappingAction ∧
        FKeyMappingPack.GetMappingDisplayName m = p.MappingDisplayName := by
  unfold FKeyMappingPack.ResolvesIn World.GetMapping at h
  by_cases hneg : p.MappingIndex < 0
  · simp [hneg] at h
  · simp only [hneg, if_false, Bool.and_eq_true, decide_eq_true_eq] at h
    obtain ⟨⟨hc, hlt⟩, hm⟩ := h
    refine ⟨hc, by omega, by omega, ?_⟩
    cases hg : (w c)[p.MappingIndex.toNat]? with
    | none => simp [hg] at hm
    | some m =>
      simp only [hg, Bool.and_eq_true, decide_eq_true_eq] at hm
      exact ⟨m, rfl, hm.1.1, hm.1.2, hm.2⟩

theorem RemoveObsolete_eq (p : FKeyMappingPack) (L : List UInputMappingContext) (w : World) :
    RemoveObsoletePacksAndResetStoredKeys p L w =
      (KeepVerdict p w L).map (fun b => (b, if b then p.WriteBack w else w)) := by
  induction L with
  | nil => rfl
  | cons c rest ih =>
    unfold RemoveObsoletePacksAndResetStoredKeys KeepVerdict
    rw [ExtractSimilarMapping_eq]
    by_cases hcrash : p.MappingContext = some c ∧ p.MappingIndex < 0
    · simp [hcrash]
    · simp only [hcrash, if_false]
      cases hres : p.ResolvesIn w c with
      | false => simpa using ih
      | true =>
        obtain ⟨hc, _, _, m, hm, hmap, _, _⟩ := ResolvesIn_spec p w c hres
        simp [hm, hmap, FKeyMappingPack.WriteBack, hc]

/-- The packs the filter keeps. -/
theorem FilterByPredicate_eq (L : List UInputMappingContext) (S : List FKeyMappingPack)
    (w : World) (h : ∀ p ∈ S, (KeepVerdict p w L).isSome = true) :
    FilterByPredicate L S w =
      some (S.filter (fun p => KeepVerdict p w L == some true),
        WriteBackAll (S.filter (fun p => KeepVerdict p w L == some true)) w) := by
  induction S generalizing w with
  | nil => rfl
  | cons p rest ih =>
    unfold FilterByPredicate
    rw [RemoveObsolete_eq]
    have hp := h p (List.mem_cons_self _ _)
    cases hv : KeepVerdict p w L with
    | none => simp [hv] at hp
    | some b =>
      cases b with
      | false =>
        have hrest : ∀ q ∈ rest, (KeepVerdict q w L).isSome = true :=
          fun q hq => h q (List.mem_cons_of_mem _ hq)
        simp [ih w hrest, hv]
      | true =>
        have hrest : ∀ q ∈ rest, (KeepVerdict q (p.WriteBack w) L).isSome = true := by
          intro q hq
          rw [KeepVerdict_WriteBack]
          exact h q (List.mem_cons_of_mem _ hq)
        simp [ih _ hrest, hv, KeepVerdict_WriteBack, WriteBackAll_cons]

/-- The filter fails exactly when the range check fires for some pack. -/
theorem FilterByPredicate_isSome (L : List UInputMappingContext) (S : List FKeyMappingPack)
    (w : World) (r : List FKeyMappingPack × World) (h : FilterByPredicate L S w = some r) :
    ∀ p ∈ S, (KeepVerdict p w L).isSome = true := by
  induction S generalizing w r with
  | nil => intro p hp; cases hp
  | cons q rest ih =>
    unfold FilterByPredicate at h
    rw [RemoveObsolete_eq] at h
    cases hv : KeepVerdict q w L with
    | none => simp [hv] at h
    | some b =>
      simp only [hv, Option.map_some'] at h
      cases hf : FilterByPredicate L rest (if b = true then q.WriteBack w else w) with
      | none => simp [hf] at h
      | some r2 =>
        intro p hp
        rcases List.mem_cons.mp hp with rfl | hp
        · simp [hv]
        · have := ih _ r2 hf p hp
          cases b with
          | false => simpa using this
          | true => simpa [KeepVerdict_WriteBack] using this

/-! ## Discovery of new packs -/

theorem operatorEq_refl (p : FKeyMappingPack) : p.operatorEq p = true := by
  simp [FKeyMappingPack.operatorEq, FText.EqualTo]

theorem Covered_append (c : UInputMappingContext) (ms : List FEnhancedActionKeyMapping) (i : Nat)
    (S N : List FKeyMappingPack) (h : Covered c ms i S) : Covered c ms i (S ++ N) := by
  intro j m hj hm
  obtain ⟨n, hn, hany⟩ := h j m hj hm
  refine ⟨n, hn, ?_⟩
  simp only [List.any_append, hany, Bool.true_or]

theorem Covered_cons_iff (c : UInputMappingContext) (m : FEnhancedActionKeyMapping)
    (ms : List FEnhancedActionKeyMapping) (i : Nat) (S : List FKeyMappingPack) :
    Covered c (m :: ms) i S ↔
      (m.bIsPlayerMappable = true →
        ∃ n, MakePackToAdd c i m = some n ∧ S.any (fun q => q.operatorEq n) = true) ∧
      Covered c ms (i + 1) S := by
  constructor
  · intro h
    refine ⟨fun hm => by simpa using h 0 m (by simp) hm, ?_⟩
    intro j m2 hj hm2
    have := h (j + 1) m2 (by simpa using hj) hm2
    rwa [show i + (j + 1) = i + 1 + j by omega] at this
  · rintro ⟨h0, hrest⟩ j m2 hj hm2
    cases j with
    | zero =>
      simp only [List.getElem?_cons_zero, Option.some.injEq] at hj
      subst hj
      simpa using h0 hm2
    | succ j =>
      have := hrest j m2 (by simpa using hj) hm2
      rwa [show i + 1 + j = i + (j + 1) by omega] at this

/-- Discovery in one context adds nothing when every mapping is covered. -/
theorem CollectNewInContext_fix (c : UInputMappingContext) (ms : List FEnhancedActionKeyMapping)
    (i : Nat) (S : List FKeyMappingPack) (h : Covered c ms i S) :
    CollectNewInContext c ms i S = some S := by
  induction ms generalizing i with
  | nil => rfl
  | cons m ms ih =>
    obtain ⟨h0, hrest⟩ := (Covered_cons_iff c m ms i S).mp h
    unfold CollectNewInContext
    cases hm : m.bIsPlayerMappable with
    | false => simpa using ih (i + 1) hrest
    | true =>
      obtain ⟨n, hn, hany⟩ := h0 hm
      simp [hn, hany, ih (i + 1) hrest]

/-- What discovery in one context produces: the old store followed by new packs,
each made from a player mappable mapping, and every mapping is then covered. -/
theorem CollectNewInContext_post (c : UInputMappingContext)
    (ms : List FEnhancedActionKeyMapping) (i : Nat) (S S2 : List FKeyMappingPack)
    (h : CollectNewInContext c ms i S = some S2) :
    Covered c ms i S2 ∧ ∃ N, S2 = S ++ N ∧
      ∀ n ∈ N, ∃ j m, ms[j]? = some m ∧ m.bIsPlayerMappable = true ∧
        MakePackToAdd c (i + j) m = some n := by
  induction ms generalizing i S with
  | nil =>
    simp only [CollectNewInContext, Option.some.injEq] at h
    subst h
    exact ⟨fun j m hj => by simp at hj, [], by simp, fun n hn => by cases hn⟩
  | cons m ms ih =>
    unfold CollectNewInContext at h
    cases hm : m.bIsPlayerMappable with
    | false =>
      simp only [hm, Bool.not_false, if_true] at h
      obtain ⟨hcov, N, hN, hnew⟩ := ih (i + 1) S h
      refine ⟨(Covered_cons_iff c m ms i S2).mpr ⟨fun hm2 => by simp [hm] at hm2, hcov⟩,
        N, hN, ?_⟩
      intro n hn
      obtain ⟨j, m2, hj, hm2, hmk⟩ := hnew n hn
      exact ⟨j + 1, m2, by simpa using hj, hm2, by
        rwa [show i + (j + 1) = i + 1 + j by omega]⟩
    | true =>
      simp only [hm, Bool.not_true, Bool.false_eq_true, if_false] at h
      cases hmk : MakePackToAdd c i m with
      | none => simp [hmk] at h
      | some n0 =>
        simp only [hmk] at h
        cases hany : S.any (fun q => q.operatorEq n0) with
        | true =>
          simp only [hany, if_true] at h
          obtain ⟨hcov, N, hN, hnew⟩ := ih (i + 1) S h
          refine ⟨(Covered_cons_iff c m ms i S2).mpr ⟨fun _ => ⟨n0, hmk, ?_⟩, hcov⟩, N, hN, ?_⟩
          · rw [hN, List.any_append, hany, Bool.true_or]
          · intro n hn
            obtain ⟨j, m2, hj, hm2, hmk2⟩ := hnew n hn
            exact ⟨j + 1, m2, by simpa using hj, hm2, by
              rwa [show i + (j + 1) = i + 1 + j by omega]⟩
        | false =>
          simp only [hany, Bool.false_eq_true, if_false] at h
          obtain ⟨hcov, N, hN, hnew⟩ := ih (i + 1) (S ++ [n0]) h
          refine ⟨(Covered_cons_iff c m ms i S2).mpr ⟨fun _ => ⟨n0, hmk, ?_⟩, hcov⟩,
            n0 :: N, by simp [hN], ?_⟩
          · rw [hN]
            simp [operatorEq_refl]
          · intro n hn
            rcases List.mem_cons.mp hn with rfl | hn
            · exact ⟨0, m, by simp, hm, by simpa using hmk⟩
            · obtain ⟨j, m2, hj, hm2, hmk2⟩ := hnew n hn
              exact ⟨j + 1, m2, by simpa using hj, hm2, by
                rwa [show i + (j + 1) = i + 1 + j by omega]⟩

/-- Discovery over the contexts adds nothing when every mapping is covered. -/
theorem CollectNewControlSettings_fix (w : World) (L : List UInputMappingContext)
    (S : List FKeyMappingPack) (h : ∀ c ∈ L, Covered c (w c) 0 S) :
    CollectNewControlSettings w L S = some S := by
  induction L with
  | nil => rfl
  | cons c rest ih =>
    unfold CollectNewControlSettings
    rw [CollectNewInContext_fix c (w c) 0 S (h c (List.mem_cons_self _ _))]
    exact ih (fun c2 hc2 => h c2 (List.mem_cons_of_mem _ hc2))

/-- What discovery over the contexts produces. -/
theorem CollectNewControlSettings_post (w : World) (L : List UInputMappingContext)
    (S S2 : List FKeyMappingPack) (h : CollectNewControlSettings w L S = some S2) :
    (∀ c ∈ L, Covered c (w c) 0 S2) ∧ ∃ N, S2 = S ++ N ∧
      ∀ n ∈ N, ∃ c ∈ L, ∃ j m, (w c)[j]? = some m ∧ m.bIsPlayerMappable = true ∧
        MakePackToAdd c j m = some n := by
  induction L generalizing S with
  | nil =>
    simp only [CollectNewControlSettings, Option.some.injEq] at h
    subst h
    exact ⟨fun c hc => (by cases hc), [], by simp, fun n hn => (by cases hn)⟩
  | cons c rest ih =>
    unfold CollectNewControlSettings at h
    cases h1 : CollectNewInContext c (w c) 0 S with
    | none => simp [h1] at h
    | some S1 =>
      simp only [h1] at h
      obtain ⟨hcov1, N1, hN1, hnew1⟩ := CollectNewInContext_post c (w c) 0 S S1 h1
      obtain ⟨hcov2, N2, hN2, hnew2⟩ := ih S1 h
      refine ⟨?_, N1 ++ N2, by simp [hN2, hN1], ?_⟩
      · intro c2 hc2
        rcases List.mem_cons.mp hc2 with rfl | hc2
        · rw [hN2]; exact Covered_append _ _ _ _ _ hcov1
        · exact hcov2 c2 hc2
      · intro n hn
        rcases List.mem_append.mp hn with hn | hn
        · obtain ⟨j, m, hj, hm, hmk⟩ := hnew1 n hn
          exact ⟨c, List.mem_cons_self _ _, j, m, hj, hm, by simpa using hmk⟩
        · obtain ⟨c2, hc2, j, m, hj, hm, hmk⟩ := hnew2 n hn
          exact ⟨c2, List.mem_cons_of_mem _ hc2, j, m, hj, hm, hmk⟩

theorem MakePackToAdd_spec (c : UInputMappingContext) (j : Nat) (m : FEnhancedActionKeyMapping)
    (n : FKeyMappingPack) (h : MakePackToAdd c j m = some n) :
    n = { MappingContext := some c, MappingAction := m.Action, DefaultKey := m.Key,
          CustomKey := m.Key,
          MappingDisplayName := FKeyMappingPack.GetMappingDisplayName m,
          MappingIndex := (j : Int) } ∧
      m.Key.IsValid = true ∧ m.Action.isSome = true ∧
      (FKeyMappingPack.GetMappingDisplayName m).IsEmptyOrWhitespace = false ∧
      (FKeyMappingPack.GetMappingDisplayName m).IsEmpty = false := by
  unfold MakePackToAdd at h
  cases hws : (FKeyMappingPack.GetMappingDisplayName m).IsEmptyOrWhitespace with
  | true => simp [hws] at h
  | false =>
    simp only [hws, Bool.false_eq_true, if_false] at h
    cases ha : m.Action with
    | none => simp [ha] at h
    | some a =>
      simp only [ha] at h
      cases hv : m.Key.IsValid with
      | false => simp [hv] at h
      | true =>
        simp only [hv, Bool.not_true, Bool.false_eq_true, if_false] at h
        unfold FKeyMappingPack.construct at h
        cases he : (FKeyMappingPack.GetMappingDisplayName m).IsEmpty with
        | true => simp [he] at h
        | false =>
          have hj : ¬ ((j : Int) < 0) := by omega
          simp only [Option.isNone_some, Bool.false_eq_true, if_false, hv, Bool.not_true, he,
            hj, Option.some.injEq] at h
          exact ⟨h.symm, rfl, rfl, rfl, rfl⟩

theorem KeepVerdict_of_ResolvesIn (p : FKeyMappingPack) (w : World)
    (L : List UInputMappingContext) (c : UInputMappingContext) (hc : c ∈ L)
    (h : p.ResolvesIn w c = true) : KeepVerdict p w L = some true := by
  have hnn : ¬ (p.MappingIndex < 0) := by
    have := (ResolvesIn_spec p w c h).2.1
    omega
  induction L with
  | nil => cases hc
  | cons c2 rest ih =>
    unfold KeepVerdict
    simp only [hnn, and_false, if_false]
    cases h2 : p.ResolvesIn w c2 with
    | true => simp
    | false =>
      simp only [Bool.false_eq_true, if_false]
      rcases List.mem_cons.mp hc with rfl | hc
      · rw [h] at h2; cases h2
      · exact ih hc

theorem KeepVerdict_true_iff (p : FKeyMappingPack) (w : World) (L : List UInputMappingContext) :
    KeepVerdict p w L = some true → ∃ c ∈ L, p.ResolvesIn w c = true := by
  induction L with
  | nil => intro h; simp [KeepVerdict] at h
  | cons c rest ih =>
    intro h
    unfold KeepVerdict at h
    by_cases hcr : p.MappingContext = some c ∧ p.MappingIndex < 0
    · simp [hcr] at h
    · simp only [hcr, if_false] at h
      cases hr : p.ResolvesIn w c with
      | true => exact ⟨c, List.mem_cons_self _ _, hr⟩
      | false =>
        simp only [hr, Bool.false_eq_true, if_false] at h
        obtain ⟨c2, hc2, h2⟩ := ih h
        exact ⟨c2, List.mem_cons_of_mem _ hc2, h2⟩

/-- A pack made by discovery resolves to the mapping it was made from, and
writing it back changes nothing. -/
theorem MakePackToAdd_resolves (w : World) (c : UInputMappingContext) (j : Nat)
    (m : FEnhancedActionKeyMapping) (n : FKeyMappingPack) (hj : (w c)[j]? = some m)
    (hm : m.bIsPlayerMappable = true) (h : MakePackToAdd c j m = some n) :
    n.ResolvesIn w c = true ∧ n.WriteBack w = w := by
  obtain ⟨rfl, _, _, _, _⟩ := MakePackToAdd_spec c j m n h
  have hlt : j < (w c).length := by
    rcases List.getElem?_eq_some.mp hj with ⟨hlt, _⟩
    exact hlt
  constructor
  · unfold FKeyMappingPack.ResolvesIn World.GetMapping
    have hnn : ¬ ((j : Int) < 0) := by omega
    simp [hnn, hj, hm, hlt]
  · unfold FKeyMappingPack.WriteBack
    simp only [Int.toNat_ofNat]
    exact SetKey_self w c j m hj

theorem WriteBackAll_fix (N : List FKeyMappingPack) (w : World)
    (h : ∀ n ∈ N, n.WriteBack w = w) : WriteBackAll N w = w := by
  induction N with
  | nil => rfl
  | cons n N ih =>
    rw [WriteBackAll_cons, h n (List.mem_cons_self _ _)]
    exact ih (fun q hq => h q (List.mem_cons_of_mem _ hq))

/-- What the prune-and-restore phase produces on a non-empty list of contexts. -/
theorem Restore_post (L : List UInputMappingContext) (s sR : Controller) (hL : L ≠ [])
    (h : RestoreStoredKeysAndRemoveObsoleteMappings L s = some sR) :
    (∀ p ∈ s.StableKeyMappingPacks, (KeepVerdict p s.Live L).isSome = true) ∧
    sR.StableKeyMappingPacks =
      s.StableKeyMappingPacks.filter (fun p => KeepVerdict p s.Live L == some true) ∧
    sR.Live = WriteBackAll sR.StableKeyMappingPacks s.Live := by
  unfold RestoreStoredKeysAndRemoveObsoleteMappings at h
  cases hS : s.StableKeyMappingPacks with
  | nil =>
    simp only [hS, List.isEmpty_nil, Bool.true_or, if_true, Option.some.injEq] at h
    subst h
    simp [hS, WriteBackAll_nil]
  | cons p rest =>
    have hLe : L.isEmpty = false := by
      cases L with
      | nil => exact absurd rfl hL
      | cons _ _ => rfl
    simp only [hS, List.isEmpty_cons, hLe, Bool.or_self, Bool.false_eq_true, if_false] at h
    cases hf : FilterByPredicate L (p :: rest) s.Live with
    | none => simp [hf] at h
    | some r =>
      have hsome := FilterByPredicate_isSome L (p :: rest) s.Live r hf
      have hr := hf
      rw [FilterByPredicate_eq L (p :: rest) s.Live hsome] at hr
      simp only [hf, Option.some.injEq] at h
      simp only [Option.some.injEq] at hr
      subst h
      subst hr
      exact ⟨hsome, rfl, rfl⟩

/-- The prune-and-restore phase changes nothing when every pack is kept and all
custom keys are already written back. -/
theorem Restore_fix (L : List UInputMappingContext) (s : Controller)
    (hk : ∀ p ∈ s.StableKeyMappingPacks, KeepVerdict p s.Live L = some true)
    (hw : WriteBackAll s.StableKeyMappingPacks s.Live = s.Live) :
    RestoreStoredKeysAndRemoveObsoleteMappings L s = some s := by
  unfold RestoreStoredKeysAndRemoveObsoleteMappings
  by_cases he : (s.StableKeyMappingPacks.isEmpty || L.isEmpty) = true
  · simp [he]
  · simp only [he, Bool.false_eq_true, if_false]
    have hsome : ∀ p ∈ s.StableKeyMappingPacks, (KeepVerdict p s.Live L).isSome = true := by
      intro p hp; rw [hk p hp]; rfl
    have hfil : s.StableKeyMappingPacks.filter (fun p => KeepVerdict p s.Live L == some true)
        = s.StableKeyMappingPacks := by
      apply List.filter_eq_self.mpr
      intro p hp
      rw [hk p hp]; rfl
    rw [FilterByPredicate_eq L _ _ hsome, hfil, hw]

theorem CollectContexts_spec (w : World) (all L : List UInputMappingContext)
    (h : CollectContextsWithMappableKeys w all = some L) :
    L = CollectMappableLoop w all ∧ L ≠ [] ∧ all ≠ [] := by
  unfold CollectContextsWithMappableKeys at h
  cases hall : all with
  | nil => simp [hall] at h
  | cons a rest =>
    simp only [hall, List.isEmpty_cons, Bool.false_eq_true, if_false] at h
    cases hL : CollectMappableLoop w (a :: rest) with
    | nil => simp [hL] at h
    | cons c cs =>
      simp only [hL, List.isEmpty_cons, Bool.false_eq_true, if_false, Option.some.injEq] at h
      subst h
      simp

theorem CollectContexts_WriteBackAll (qs : List FKeyMappingPack) (w : World)
    (all : List UInputMappingContext) :
    CollectContextsWithMappableKeys (WriteBackAll qs w) all =
      CollectContextsWithMappableKeys w all := by
  unfold CollectContextsWithMappableKeys
  rw [CollectMappableLoop_WriteBackAll]

/-- In a shipping build a successful reconciliation is a fixed point. -/
theorem Recalculate_shipping_fix (all : List UInputMappingContext) (s s1 : Controller)
    (h : RecalculatePlayerMappingSettings true all s = some s1) :
    RecalculatePlayerMappingSettings true all s1 = some s1 := by
  unfold RecalculatePlayerMappingSettings at h
  simp only [Bool.not_true, Bool.false_eq_true, if_false] at h
  cases hL : CollectContextsWithMappableKeys s.Live all with
  | none => simp [hL] at h
  | some L =>
    simp only [hL] at h
    obtain ⟨_, hLne, _⟩ := CollectContexts_spec _ _ _ hL
    cases hR : RestoreStoredKeysAndRemoveObsoleteMappings L s with
    | none => simp [hR] at h
    | some sR =>
      simp only [hR] at h
      obtain ⟨_, hkept, hlive⟩ := Restore_post L s sR hLne hR
      cases hC : CollectNewControlSettings sR.Live L sR.StableKeyMappingPacks with
      | none => simp [hC] at h
      | some S1 =>
        simp only [hC, Option.some.injEq] at h
        subst h
        obtain ⟨hcov, N, hN, hnew⟩ := CollectNewControlSettings_post _ _ _ _ hC
        -- the second run
        have hL2 : CollectContextsWithMappableKeys sR.Live all = some L := by
          rw [hlive, CollectContexts_WriteBackAll, hL]
        have hkeep : ∀ p ∈ S1, KeepVerdict p sR.Live L = some true := by
          intro p hp
          rw [hN] at hp
          rcases List.mem_append.mp hp with hp | hp
          · rw [hlive, KeepVerdict_WriteBackAll]
            rw [hkept] at hp
            have := (List.mem_filter.mp hp).2
            simpa using this
          · obtain ⟨c, hc, j, m, hj, hm, hmk⟩ := hnew p hp
            exact KeepVerdict_of_ResolvesIn p _ L c hc
              (MakePackToAdd_resolves _ c j m p hj hm hmk).1
        have hwb : WriteBackAll S1 sR.Live = sR.Live := by
          rw [hN, WriteBackAll_append]
          have h1 : WriteBackAll sR.StableKeyMappingPacks sR.Live = sR.Live := by
            conv_lhs => rw [hlive]
            rw [WriteBackAll_idem, ← hlive]
          rw [h1]
          apply WriteBackAll_fix
          intro n hn
          obtain ⟨c, _, j, m, hj, hm, hmk⟩ := hnew n hn
          exact (MakePackToAdd_resolves _ c j m n hj hm hmk).2
        unfold RecalculatePlayerMappingSettings
        simp only [Bool.not_true, Bool.false_eq_true, if_false, hL2]
        rw [Restore_fix L ⟨S1, sR.Live⟩ hkeep hwb]
        simp only []
        rw [CollectNewControlSettings_fix _ _ _ hcov]

/-- In a build that is not a shipping build the result of reconciliation depends
on the live configuration only, which it does not change. -/
theorem Recalculate_nonshipping_fix (all : List UInputMappingContext) (s s1 : Controller)
    (h : RecalculatePlayerMappingSettings false all s = some s1) :
    RecalculatePlayerMappingSettings false all s1 = some s1 := by
  have hlive : s1.Live = s.Live := by
    unfold RecalculatePlayerMappingSettings at h
    simp only [Bool.not_false, if_true] at h
    cases hL : CollectContextsWithMappableKeys s.Live all with
    | none => simp [hL] at h
    | some L =>
      simp only [hL, RestoreStoredKeysAndRemoveObsoleteMappings, List.isEmpty_nil, Bool.true_or,
        if_true] at h
      cases hC : CollectNewControlSettings s.Live L [] with
      | none => simp [hC] at h
      | some S1 =>
        simp only [hC, Option.some.injEq] at h
        subst h
        rfl
  rw [← h]
  unfold RecalculatePlayerMappingSettings
  simp only [Bool.not_false, if_true, hlive]

/-- C1 (idempotent reconciliation): whenever `RecalculatePlayerMappingSettings`
succeeds, in either build, running it again on the resulting store and live
configuration succeeds and returns exactly the same store (same packs, same
order, same default and custom keys) and the same live configuration. -/
theorem Reconcile_idempotent (bShipping : Bool) (AllContexts : List UInputMappingContext)
    (s s1 : Controller)
    (h : RecalculatePlayerMappingSettings bShipping AllContexts s = some s1) :
    RecalculatePlayerMappingSettings bShipping AllContexts s1 = some s1 := by
  cases bShipping with
  | true => exact Recalculate_shipping_fix AllContexts s s1 h
  | false => exact Recalculate_nonshipping_fix AllContexts s s1 h

/-- Witness of C1: a stored pack with custom key `E` on a live entry bound to
`SpaceBar`; reconciliation restores `E` and is then a fixed point. -/
theorem Reconcile_idempotent_witness :
    RecalculatePlayerMappingSettings true [1]
        ⟨[JumpPack KeySpace KeyE], JumpWorld KeySpace⟩ =
      some ⟨[JumpPack KeySpace KeyE], (JumpWorld KeySpace).SetKey 1 0 KeyE⟩ ∧
    RecalculatePlayerMappingSettings true [1]
        ⟨[JumpPack KeySpace KeyE], (JumpWorld KeySpace).SetKey 1 0 KeyE⟩ =
      some ⟨[JumpPack KeySpace KeyE], (JumpWorld KeySpace).SetKey 1 0 KeyE⟩ :=
  ⟨rfl, Reconcile_idempotent true [1] ⟨[JumpPack KeySpace KeyE], JumpWorld KeySpace⟩ _ rfl⟩

/-! ## Pruning -/

theorem ResolvesIn_WriteBackAll (p : FKeyMappingPack) (qs : List FKeyMappingPack) (w : World)
    (c : UInputMappingContext) :
    p.ResolvesIn (WriteBackAll qs w) c = p.ResolvesIn w c := by
  induction qs generalizing w with
  | nil => rfl
  | cons q qs ih => rw [WriteBackAll_cons, ih, ResolvesIn_WriteBack]

theorem operatorEq_iff (a b : FKeyMappingPack) :
    a.operatorEq b = true ↔
      a.MappingContext = b.MappingContext ∧ a.MappingAction = b.MappingAction ∧
      a.CustomKey = b.CustomKey ∧ a.MappingDisplayName = b.MappingDisplayName ∧
      a.MappingIndex = b.MappingIndex := by
  unfold FKeyMappingPack.operatorEq FText.EqualTo
  simp only [Bool.true_and, Bool.and_eq_true, decide_eq_true_eq]
  constructor
  · rintro ⟨⟨⟨⟨h1, h2⟩, h3⟩, h4⟩, h5⟩
    exact ⟨h1.symm, h2.symm, h3.symm, h4.symm, h5.symm⟩
  · rintro ⟨h1, h2, h3, h4, h5⟩
    exact ⟨⟨⟨⟨h1.symm, h2.symm⟩, h3.symm⟩, h4.symm⟩, h5.symm⟩

theorem ResolvesIn_congr (a b : FKeyMappingPack) (w : World) (c : UInputMappingContext)
    (h : a.operatorEq b = true) : a.ResolvesIn w c = b.ResolvesIn w c := by
  obtain ⟨h1, h2, _, h4, h5⟩ := (operatorEq_iff a b).mp h
  unfold FKeyMappingPack.ResolvesIn
  rw [h1, h2, h4, h5]

theorem mem_EmplaceMappable (c x : UInputMappingContext) (ms : List FEnhancedActionKeyMapping)
    (h : x ∈ EmplaceMappable c ms) : x = c := by
  induction ms with
  | nil => cases h
  | cons m ms ih =>
    unfold EmplaceMappable at h
    cases hm : m.bIsPlayerMappable with
    | false => simp only [hm, Bool.not_false, if_true] at h; exact ih h
    | true =>
      simp only [hm, Bool.not_true, Bool.false_eq_true, if_false, List.mem_cons] at h
      rcases h with h | h
      · exact h
      · exact ih h

theorem mem_CollectMappableLoop (w : World) (all : List UInputMappingContext)
    (x : UInputMappingContext) (h : x ∈ CollectMappableLoop w all) : x ∈ all := by
  induction all with
  | nil => cases h
  | cons c rest ih =>
    unfold CollectMappableLoop at h
    rcases List.mem_append.mp h with h | h
    · rw [mem_EmplaceMappable c x _ h]; exact List.mem_cons_self _ _
    · exact List.mem_cons_of_mem _ (ih h)

/-- Every pack of the store after a successful reconciliation resolves to a live
entry of a supplied context, in the live configuration before the call. -/
theorem Recalculate_packs_resolve (bShipping : Bool) (all : List UInputMappingContext)
    (s s1 : Controller) (h : RecalculatePlayerMappingSettings bShipping all s = some s1) :
    ∀ q ∈ s1.StableKeyMappingPacks, ∃ c ∈ all, q.ResolvesIn s.Live c = true := by
  unfold RecalculatePlayerMappingSettings at h
  generalize hs0 : (if (!bShipping) = true then
    ({ s with StableKeyMappingPacks := [] } : Controller) else s) = s0 at h
  have hlive0 : s0.Live = s.Live := by
    subst hs0
    cases bShipping <;> rfl
  cases hL : CollectContextsWithMappableKeys s0.Live all with
  | none => simp [hL] at h
  | some L =>
    simp only [hL] at h
    obtain ⟨hLeq, hLne, _⟩ := CollectContexts_spec _ _ _ hL
    have hsub : ∀ c ∈ L, c ∈ all := fun c hc => by
      rw [hLeq] at hc
      exact mem_CollectMappableLoop _ _ _ hc
    cases hR : RestoreStoredKeysAndRemoveObsoleteMappings L s0 with
    | none => simp [hR] at h
    | some sR =>
      simp only [hR] at h
      obtain ⟨_, hkept, hlive⟩ := Restore_post L s0 sR hLne hR
      cases hC : CollectNewControlSettings sR.Live L sR.StableKeyMappingPacks with
      | none => simp [hC] at h
      | some S1 =>
        simp only [hC, Option.some.injEq] at h
        subst h
        obtain ⟨_, N, hN, hnew⟩ := CollectNewControlSettings_post _ _ _ _ hC
        intro q hq
        simp only [hN] at hq
        rcases List.mem_append.mp hq with hq | hq
        · rw [hkept] at hq
          have hv := (List.mem_filter.mp hq).2
          obtain ⟨c, hc, hres⟩ := KeepVerdict_true_iff q _ L (by simpa using hv)
          exact ⟨c, hsub c hc, by rw [← hlive0]; exact hres⟩
        · obtain ⟨c, hc, j, m, hj, hm, hmk⟩ := hnew q hq
          refine ⟨c, hsub c hc, ?_⟩
          have := (MakePackToAdd_resolves _ c j m q hj hm hmk).1
          rw [hlive, ResolvesIn_WriteBackAll, hlive0] at this
          exact this

/-- C2 (prune correctness): if a stored pack `p` resolves in no supplied context
(no supplied context is the context of `p` with more than `p.MappingIndex`
entries and a player mappable entry at that index with the action and the
resolved display name of `p`), then after a successful reconciliation no pack of
the store is equal to `p`. -/
theorem Prune_correct (bShipping : Bool) (AllContexts : List UInputMappingContext)
    (s s1 : Controller) (p : FKeyMappingPack) (_hp : p ∈ s.StableKeyMappingPacks)
    (hno : ∀ c ∈ AllContexts, p.ResolvesIn s.Live c = false)
    (h : RecalculatePlayerMappingSettings bShipping AllContexts s = some s1) :
    ∀ q ∈ s1.StableKeyMappingPacks, q.operatorEq p = false := by
  intro q hq
  obtain ⟨c, hc, hres⟩ := Recalculate_packs_resolve bShipping AllContexts s s1 h q hq
  cases he : q.operatorEq p with
  | false => rfl
  | true =>
    rw [ResolvesIn_congr q p _ _ he, hno c hc] at hres
    cases hres

/-- Witness of C2: the stale pack of a removed action is pruned, and the pack that
discovery adds for the entry is not equal to it. -/
theorem Prune_correct_witness :
    StalePack ∈ [StalePack] ∧
    (∀ c ∈ [1], StalePack.ResolvesIn (JumpWorld KeySpace) c = false) ∧
    RecalculatePlayerMappingSettings true [1] ⟨[StalePack], JumpWorld KeySpace⟩ =
      some ⟨[JumpPack KeySpace KeySpace], JumpWorld KeySpace⟩ ∧
    ∀ q ∈ [JumpPack KeySpace KeySpace], q.operatorEq StalePack = false :=
  ⟨by simp, by decide, rfl,
    Prune_correct true [1] ⟨[StalePack], JumpWorld KeySpace⟩
      ⟨[JumpPack KeySpace KeySpace], JumpWorld KeySpace⟩ StalePack (by simp) (by decide) rfl⟩

/-! ## Restore propagation -/

theorem WriteBack_length (q : FKeyMappingPack) (w : World) (c : UInputMappingContext) :
    ((q.WriteBack w) c).length = (w c).length := by
  unfold FKeyMappingPack.WriteBack
  cases q.MappingContext with
  | none => rfl
  | some c2 =>
    simp only [SetKey_apply]
    by_cases h : c = c2
    · subst h; simp [SetKeyAt_length]
    · simp [h]

theorem WriteBackAll_length (qs : List FKeyMappingPack) (w : World) (c : UInputMappingContext) :
    ((WriteBackAll qs w) c).length = (w c).length := by
  induction qs generalizing w with
  | nil => rfl
  | cons q qs ih => rw [WriteBackAll_cons, ih, WriteBack_length]

theorem LiveKey_WriteBack_self (p : FKeyMappingPack) (w : World) (c : UInputMappingContext)
    (hc : p.MappingContext = some c) (h0 : 0 ≤ p.MappingIndex)
    (hlt : p.MappingIndex.toNat < (w c).length) :
    p.LiveKey (p.WriteBack w) = some p.CustomKey := by
  unfold FKeyMappingPack.LiveKey FKeyMappingPack.WriteBack World.GetMapping
  have hneg : ¬ (p.MappingIndex < 0) := by omega
  simp [hc, hneg, SetKey_apply, getElem?_SetKeyAt, List.getElem?_eq_getElem hlt]

theorem LiveKey_WriteBack_other (p q : FKeyMappingPack) (w : World) (h : ¬ q.SameSlot p) :
    p.LiveKey (q.WriteBack w) = p.LiveKey w := by
  unfold FKeyMappingPack.LiveKey FKeyMappingPack.WriteBack World.GetMapping
  cases hp : p.MappingContext with
  | none => rfl
  | some c =>
    cases hq : q.MappingContext with
    | none => rfl
    | some c2 =>
      simp only [SetKey_apply]
      by_cases hneg : p.MappingIndex < 0
      · simp [hneg]
      · simp only [hneg, if_false]
        by_cases hcc : c = c2
        · subst hcc
          have hi : p.MappingIndex.toNat ≠ q.MappingIndex.toNat := by
            intro e
            exact h ⟨by rw [hp, hq], e.symm⟩
          simp only [if_true, getElem?_SetKeyAt, hi, if_false]
          cases (w c)[p.MappingIndex.toNat]? <;> rfl
        · simp [hcc]

theorem LiveKey_WriteBackAll_other (p : FKeyMappingPack) (B : List FKeyMappingPack) (w : World)
    (h : ∀ q ∈ B, ¬ q.SameSlot p) : p.LiveKey (WriteBackAll B w) = p.LiveKey w := by
  induction B generalizing w with
  | nil => rfl
  | cons q B ih =>
    rw [WriteBackAll_cons, ih _ (fun r hr => h r (List.mem_cons_of_mem _ hr)),
      LiveKey_WriteBack_other p q w (h q (List.mem_cons_self _ _))]

/-- After the prune-and-restore phase on a non-empty list of contexts, a
surviving pack that is not followed in the store by another surviving pack for
the same context and position has its custom key bound in the live entry at its
position. -/
theorem LiveKey_of_last_survivor (CurrentContexts : List UInputMappingContext)
    (s sR : Controller)
    (A B : List FKeyMappingPack) (p : FKeyMappingPack) (hL : CurrentContexts ≠ [])
    (h : RestoreStoredKeysAndRemoveObsoleteMappings CurrentContexts s = some sR)
    (hdec : sR.StableKeyMappingPacks = A ++ p :: B)
    (hlast : ∀ q ∈ B, ¬ q.SameSlot p) :
    p.LiveKey sR.Live = some p.CustomKey := by
  obtain ⟨_, hkept, hlive⟩ := Restore_post CurrentContexts s sR hL h
  have hp : p ∈ sR.StableKeyMappingPacks := by rw [hdec]; simp
  rw [hkept] at hp
  have hv := (List.mem_filter.mp hp).2
  obtain ⟨c, _, hres⟩ := KeepVerdict_true_iff p _ CurrentContexts (by simpa using hv)
  obtain ⟨hc, h0, hlt, _⟩ := ResolvesIn_spec p _ c hres
  rw [hlive, hdec, WriteBackAll_append, WriteBackAll_cons, LiveKey_WriteBackAll_other _ _ _ hlast]
  apply LiveKey_WriteBack_self p _ c hc h0
  rw [WriteBackAll_length]
  exact hlt

/-! ## Remapping and restoring the default key -/

theorem RestoreDefaultKey_eq (s : Controller) (p : FKeyMappingPack) :
    RestoreDefaultKey s p = RemapControlKey s p p.DefaultKey := rfl

theorem UpdateKeyInContextByIndex_some (w : World) (c : UInputMappingContext) (i : Int)
    (K : FKey) (h0 : 0 ≤ i) (hlt : i < ((w c).length : Int)) :
    UpdateKeyInContextByIndex w (some c) i K = some (w.SetKey c i.toNat K) := by
  unfold UpdateKeyInContextByIndex World.GetMapping
  have hneg : ¬ (i < 0) := by omega
  have hin : i.toNat < (w c).length := by omega
  simp [hneg, hlt, List.getElem?_eq_getElem hin]

theorem RemapControlKey_some (s : Controller) (p : FKeyMappingPack) (c : UInputMappingContext)
    (K : FKey) (hc : p.MappingContext = some c) (h0 : 0 ≤ p.MappingIndex)
    (hlt : p.MappingIndex < ((s.Live c).length : Int)) :
    RemapControlKey s p K =
      some (⟨UpdateFirstEqual p K s.StableKeyMappingPacks,
              s.Live.SetKey c p.MappingIndex.toNat K⟩, { p with CustomKey := K }) := by
  have hu := UpdateKeyInContextByIndex_some s.Live c p.MappingIndex K h0 hlt
  rw [← hc] at hu
  unfold RemapControlKey
  rw [hu]
  rfl

theorem SetKey_length (w : World) (c c2 : UInputMappingContext) (i : Nat) (K : FKey) :
    ((w.SetKey c i K) c2).length = (w c2).length := by
  simp only [SetKey_apply]
  by_cases h : c2 = c
  · subst h; simp [SetKeyAt_length]
  · simp [h]

theorem LiveKey_SetKey_self (p : FKeyMappingPack) (w : World) (c : UInputMappingContext)
    (K : FKey) (hc : p.MappingContext = some c) (h0 : 0 ≤ p.MappingIndex)
    (hlt : p.MappingIndex < ((w c).length : Int)) :
    p.LiveKey (w.SetKey c p.MappingIndex.toNat K) = some K := by
  unfold FKeyMappingPack.LiveKey World.GetMapping
  have hneg : ¬ (p.MappingIndex < 0) := by omega
  have hin : p.MappingIndex.toNat < (w c).length := by omega
  simp [hc, hneg, SetKey_apply, getElem?_SetKeyAt, List.getElem?_eq_getElem hin]

/-- A sequence of remaps on an in-bounds pack succeeds and keeps the context, the
index and the default key of the handle, and the size of its context. -/
theorem RemapSequence_some (Ks : List FKey) (s : Controller) (p : FKeyMappingPack)
    (c : UInputMappingContext) (hc : p.MappingContext = some c) (h0 : 0 ≤ p.MappingIndex)
    (hlt : p.MappingIndex < ((s.Live c).length : Int)) :
    ∃ s2 p2, RemapSequence s p Ks = some (s2, p2) ∧ p2.MappingContext = some c ∧
      p2.MappingIndex = p.MappingIndex ∧ p2.DefaultKey = p.DefaultKey ∧
      p2.MappingDisplayName = p.MappingDisplayName ∧
      (s2.Live c).length = (s.Live c).length := by
  induction Ks generalizing s p with
  | nil => exact ⟨s, p, rfl, hc, rfl, rfl, rfl, rfl⟩
  | cons K Ks ih =>
    unfold RemapSequence
    rw [RemapControlKey_some s p c K hc h0 hlt]
    simp only []
    obtain ⟨s2, p2, h2, hc2, hi2, hd2, hn2, hl2⟩ :=
      ih ⟨UpdateFirstEqual p K s.StableKeyMappingPacks, s.Live.SetKey c p.MappingIndex.toNat K⟩
        { p with CustomKey := K } hc h0 (by simp only [SetKey_length]; exact hlt)
    refine ⟨s2, p2, h2, hc2, hi2, hd2, hn2, ?_⟩
    rw [hl2]
    exact SetKey_length _ _ _ _ _

/-- C4 as amended (remap round-trip): for a pack whose position is within its
context, (1) when the key `K` is valid and the display name of the pack is not
empty or whitespace, `RemapControlKey` succeeds and `UnpackRebindPack` on the
handle then yields the display name and `K`; and (2) whatever the display name
and the keys are, after any sequence of remaps `RestoreDefaultKey` succeeds,
makes the custom key of the handle equal to its own `DefaultKey` and binds the
live entry at its position to that key. -/
theorem Remap_roundtrip (s : Controller) (p : FKeyMappingPack) (c : UInputMappingContext)
    (K : FKey) (Ks : List FKey) (hc : p.MappingContext = some c) (h0 : 0 ≤ p.MappingIndex)
    (hlt : p.MappingIndex < ((s.Live c).length : Int)) :
    (K.IsValid = true → p.MappingDisplayName.IsEmptyOrWhitespace = false →
      ∃ s2 p2, RemapControlKey s p K = some (s2, p2) ∧
        UnpackRebindPack p2 = some (p.MappingDisplayName, K)) ∧
    (∃ s2 p2, RemapSequence s p Ks = some (s2, p2) ∧
      ∃ s3 p3, RestoreDefaultKey s2 p2 = some (s3, p3) ∧
        p3.CustomKey = p3.DefaultKey ∧ p3.DefaultKey = p.DefaultKey ∧
        p3.LiveKey s3.Live = some p.DefaultKey) := by
  constructor
  · intro hK hname
    refine ⟨_, _, RemapControlKey_some s p c K hc h0 hlt, ?_⟩
    simp [UnpackRebindPack, hK, hname]
  · obtain ⟨s2, p2, h2, hc2, hi2, hd2, _, hl2⟩ := RemapSequence_some Ks s p c hc h0 hlt
    have h02 : 0 ≤ p2.MappingIndex := by rw [hi2]; exact h0
    have hlt2 : p2.MappingIndex < ((s2.Live c).length : Int) := by rw [hi2, hl2]; exact hlt
    refine ⟨s2, p2, h2,
      ⟨UpdateFirstEqual p2 p2.DefaultKey s2.StableKeyMappingPacks,
        s2.Live.SetKey c p2.MappingIndex.toNat p2.DefaultKey⟩,
      { p2 with CustomKey := p2.DefaultKey }, ?_, rfl, hd2, ?_⟩
    · rw [RestoreDefaultKey_eq]
      exact RemapControlKey_some s2 p2 c p2.DefaultKey hc2 h02 hlt2
    · rw [← hd2]
      exact LiveKey_SetKey_self { p2 with CustomKey := p2.DefaultKey } s2.Live c p2.DefaultKey
        hc2 h02 hlt2

/-- Witness of C4 as amended: the "Jump" pack remapped to `E`, and restored after
the remaps to `E` and `F`; and the pack whose display name is a single space,
restored after the same remaps (including a remap to the invalid key). -/
theorem Remap_roundtrip_witness :
    ((∃ s2 p2, RemapControlKey ⟨[JumpPack KeySpace KeySpace], JumpWorld KeySpace⟩
        (JumpPack KeySpace KeySpace) KeyE = some (s2, p2) ∧
      UnpackRebindPack p2 = some (⟨"Jump"⟩, KeyE)) ∧
    (∃ s2 p2, RemapSequence ⟨[JumpPack KeySpace KeySpace], JumpWorld KeySpace⟩
        (JumpPack KeySpace KeySpace) [KeyE, KeyF] = some (s2, p2) ∧
      ∃ s3 p3, RestoreDefaultKey s2 p2 = some (s3, p3) ∧
        p3.CustomKey = p3.DefaultKey ∧ p3.DefaultKey = KeySpace ∧
        p3.LiveKey s3.Live = some KeySpace)) ∧
    (∃ s2 p2, RemapSequence ⟨[BlankPack], JumpWorld KeySpace⟩
        BlankPack [KeyE, KeyInvalid, KeyF] = some (s2, p2) ∧
      ∃ s3 p3, RestoreDefaultKey s2 p2 = some (s3, p3) ∧
        p3.CustomKey = p3.DefaultKey ∧ p3.DefaultKey = KeySpace ∧
        p3.LiveKey s3.Live = some KeySpace) :=
  have h1 := Remap_roundtrip ⟨[JumpPack KeySpace KeySpace], JumpWorld KeySpace⟩
    (JumpPack KeySpace KeySpace) 1 KeyE [KeyE, KeyF] rfl (by decide) (by decide)
  have h2 := Remap_roundtrip ⟨[BlankPack], JumpWorld KeySpace⟩
    BlankPack 1 KeyE [KeyE, KeyInvalid, KeyF] rfl (by decide) (by decide)
  ⟨⟨h1.1 (by decide) (by decide), h1.2⟩, h2.2⟩

/-- C4 as stated fails: a pack whose display name is a single space satisfies the
pack invariants (the name is not empty) and its position is within its context,
the key `E` is valid and the remap succeeds, but `UnpackRebindPack` on the
handle raises, because it rejects a name that is empty or whitespace. -/
theorem Remap_roundtrip_counterexample :
    BlankPack.Invariants = true ∧ BlankPack.MappingContext = some 1 ∧
    0 ≤ BlankPack.MappingIndex ∧
    BlankPack.MappingIndex < (((JumpWorld KeySpace) 1).length : Int) ∧
    KeyE.IsValid = true ∧
    (RemapControlKey ⟨[BlankPack], JumpWorld KeySpace⟩ BlankPack KeyE).map
      (fun r => (r.2, UnpackRebindPack r.2)) =
      some ({ BlankPack with CustomKey := KeyE }, none) := by
  refine ⟨by decide, by decide, by decide, by decide, by decide, by decide⟩

/-! ## Packs for a control mode -/

theorem IsCorrectControlMode_congr (q p : FKeyMappingPack) (m : FText)
    (h : q.operatorEq p = true) : IsCorrectControlMode q m = IsCorrectControlMode p m := by
  obtain ⟨_, _, hk, _, _⟩ := (operatorEq_iff q p).mp h
  unfold IsCorrectControlMode
  rw [hk]

theorem mem_CollectPacksForMode (m : FText) (S R : List FKeyMappingPack) (q : FKeyMappingPack)
    (h : q ∈ CollectPacksForMode m S R) :
    q ∈ R ∨ (q ∈ S ∧ IsCorrectControlMode q m = true) := by
  induction S generalizing R with
  | nil => exact Or.inl h
  | cons p rest ih =>
    unfold CollectPacksForMode at h
    split at h
    · rcases ih R h with h1 | ⟨h1, h2⟩
      · exact Or.inl h1
      · exact Or.inr ⟨List.mem_cons_of_mem _ h1, h2⟩
    · rename_i hcond
      rcases ih _ h with h1 | ⟨h1, h2⟩
      · rcases List.mem_append.mp h1 with h1 | h1
        · exact Or.inl h1
        · simp only [List.mem_singleton] at h1
          subst h1
          refine Or.inr ⟨List.mem_cons_self _ _, ?_⟩
          simp only [Bool.or_eq_true, Bool.not_eq_true', not_or, Bool.not_eq_false] at hcond
          exact hcond.2
      · exact Or.inr ⟨List.mem_cons_of_mem _ h1, h2⟩

theorem any_CollectPacksForMode_of_any (m : FText) (S R : List FKeyMappingPack)
    (p : FKeyMappingPack) (h : R.any (fun q => q.operatorEq p) = true) :
    (CollectPacksForMode m S R).any (fun q => q.operatorEq p) = true := by
  induction S generalizing R with
  | nil => exact h
  | cons x rest ih =>
    unfold CollectPacksForMode
    split
    · exact ih R h
    · apply ih
      rw [List.any_append, h, Bool.true_or]

theorem any_CollectPacksForMode (m : FText) (S R : List FKeyMappingPack) (p : FKeyMappingPack)
    (hp : p ∈ S) (hm : IsCorrectControlMode p m = true) :
    (CollectPacksForMode m S R).any (fun q => q.operatorEq p) = true := by
  induction S generalizing R with
  | nil => cases hp
  | cons x rest ih =>
    rcases List.mem_cons.mp hp with rfl | hp
    · unfold CollectPacksForMode
      cases hany : R.any (fun q => q.operatorEq p) with
      | true =>
        simp only [Bool.true_or, if_true]
        exact any_CollectPacksForMode_of_any m rest R p hany
      | false =>
        simp only [hm, Bool.not_true, Bool.or_self, Bool.false_eq_true, if_false]
        apply any_CollectPacksForMode_of_any
        simp [operatorEq_refl]
    · unfold CollectPacksForMode
      split
      · exact ih R hp
      · exact ih _ hp

/-- A stored pack appears in the result for a mode exactly when
`IsCorrectControlMode` accepts it for that mode. -/
theorem AppearsForMode_eq (Packs : List FKeyMappingPack) (m : FText) (p : FKeyMappingPack)
    (hp : p ∈ Packs) : AppearsForMode Packs m p = IsCorrectControlMode p m := by
  have hne : Packs.isEmpty = false := by
    cases Packs with
    | nil => cases hp
    | cons _ _ => rfl
  cases hm : IsCorrectControlMode p m with
  | true =>
    have hany := any_CollectPacksForMode m Packs [] p hp hm
    have hne2 : (CollectPacksForMode m Packs []).isEmpty = false := by
      cases hr : CollectPacksForMode m Packs [] with
      | nil => rw [hr] at hany; cases hany
      | cons _ _ => rfl
    simp [AppearsForMode, GetMappingPacksForControlMode, hne, hne2, hany]
  | false =>
    unfold AppearsForMode GetMappingPacksForControlMode
    simp only [hne, Bool.false_eq_true, if_false]
    split
    · rfl
    · rename_i r hr
      split at hr
      · cases hr
      · simp only [Option.some.injEq] at hr
        subst hr
        cases hany : (CollectPacksForMode m Packs []).any (fun q => q.operatorEq p) with
        | false => rfl
        | true =>
          obtain ⟨q, hq, hqp⟩ := List.any_eq_true.mp hany
          rcases mem_CollectPacksForMode m Packs [] q hq with h1 | ⟨_, h2⟩
          · cases h1
          · rw [IsCorrectControlMode_congr q p m hqp, hm] at h2
            cases h2

theorem IsCorrectControlMode_modes (p : FKeyMappingPack) :
    IsCorrectControlMode p ⟨"KeyboardAndMouse"⟩ =
        (p.CustomKey.IsMouseButton || p.CustomKey.Key_IsKeyboardKey) ∧
    IsCorrectControlMode p ⟨"Gamepad"⟩ = p.CustomKey.IsGamepadKey ∧
    IsCorrectControlMode p ⟨"Touch"⟩ = p.CustomKey.IsTouch ∧
    IsCorrectControlMode p ⟨"VR"⟩ = p.CustomKey.IsGesture := by
  unfold IsCorrectControlMode
  refine ⟨?_, ?_, ?_, ?_⟩
  · have h1 : EqualsIgnoreCase "KeyboardAndMouse" "Touch" = false := by decide
    have h2 : EqualsIgnoreCase "KeyboardAndMouse" "VR" = false := by decide
    have h3 : EqualsIgnoreCase "KeyboardAndMouse" "Gamepad" = false := by decide
    have h4 : EqualsIgnoreCase "KeyboardAndMouse" "KeyboardAndMouse" = true := by decide
    simp [h1, h2, h3, h4]
  · have h1 : EqualsIgnoreCase "Gamepad" "Touch" = false := by decide
    have h2 : EqualsIgnoreCase "Gamepad" "VR" = false := by decide
    have h3 : EqualsIgnoreCase "Gamepad" "Gamepad" = true := by decide
    have h4 : EqualsIgnoreCase "Gamepad" "KeyboardAndMouse" = false := by decide
    simp [h1, h2, h3, h4]
  · have h1 : EqualsIgnoreCase "Touch" "Touch" = true := by decide
    have h2 : EqualsIgnoreCase "Touch" "VR" = false := by decide
    have h3 : EqualsIgnoreCase "Touch" "Gamepad" = false := by decide
    have h4 : EqualsIgnoreCase "Touch" "KeyboardAndMouse" = false := by decide
    simp [h1, h2, h3, h4]
  · have h1 : EqualsIgnoreCase "VR" "Touch" = false := by decide
    have h2 : EqualsIgnoreCase "VR" "VR" = true := by decide
    have h3 : EqualsIgnoreCase "VR" "Gamepad" = false := by decide
    have h4 : EqualsIgnoreCase "VR" "KeyboardAndMouse" = false := by decide
    simp [h1, h2, h3, h4]

/-- C5 as amended (mode partition): a stored pack appears (up to pack equality) in
`GetMappingPacksForControlMode` for a mode exactly when `IsCorrectControlMode`
accepts its custom key for that mode, and the number of the four modes in whose
result it appears is the number of device classes of its custom key; so it
appears in exactly one mode exactly when the key has exactly one device class. -/
theorem Mode_partition (Packs : List FKeyMappingPack) (ControlMode : FText)
    (p : FKeyMappingPack) (hp : p ∈ Packs) :
    (AppearsForMode Packs ControlMode p = true ↔ IsCorrectControlMode p ControlMode = true) ∧
    (ControlModes.filter (fun m => AppearsForMode Packs m p)).length =
      DeviceClassCount p.CustomKey := by
  constructor
  · rw [AppearsForMode_eq Packs ControlMode p hp]
  · obtain ⟨h1, h2, h3, h4⟩ := IsCorrectControlMode_modes p
    simp only [ControlModes, List.filter, AppearsForMode_eq Packs _ p hp, h1, h2, h3, h4,
      DeviceClassCount]
    cases p.CustomKey.IsMouseButton <;> cases p.CustomKey.Key_IsKeyboardKey <;>
      cases p.CustomKey.IsGamepadKey <;> cases p.CustomKey.IsTouch <;>
      cases p.CustomKey.IsGesture <;> rfl

/-- Witness of C5 as amended: a keyboard pack in a store of one pack. -/
theorem Mode_partition_witness :
    (AppearsForMode [JumpPack KeySpace KeyE] ⟨"keyboardandmouse"⟩ (JumpPack KeySpace KeyE) = true
      ↔ IsCorrectControlMode (JumpPack KeySpace KeyE) ⟨"keyboardandmouse"⟩ = true) ∧
    (ControlModes.filter
      (fun m => AppearsForMode [JumpPack KeySpace KeyE] m (JumpPack KeySpace KeyE))).length =
      DeviceClassCount (JumpPack KeySpace KeyE).CustomKey :=
  Mode_partition [JumpPack KeySpace KeyE] ⟨"keyboardandmouse"⟩ (JumpPack KeySpace KeyE)
    (by simp)

/-- C5 as stated fails: in a non-empty store, a pack whose custom key is the
invalid key (which has no device class) appears in the result of none of the
four modes, not of exactly one. -/
theorem Mode_partition_counterexample :
    [JumpPack KeySpace KeyInvalid].isEmpty = false ∧
    ∀ m ∈ ControlModes,
      AppearsForMode [JumpPack KeySpace KeyInvalid] m (JumpPack KeySpace KeyInvalid) = false := by
  decide

/-! ## The single-entry scenario -/

/-- C6 (single-entry scenario), in either build: from an empty store and a context
whose only entry is the player mappable "Jump" mapping bound to `SpaceBar`,
reconciliation leaves exactly the pack of that entry with default and custom key
`SpaceBar`; remapping it to `E` binds the entry to `E` and sets the custom key of
the stored pack to `E`; a second reconciliation leaves exactly one pack, for the
same entry and with custom key `E`; restoring the default through the handle
then sets the custom key of the stored pack and of the handle to `SpaceBar` and
binds the entry to `SpaceBar`. -/
theorem Single_entry_scenario (bShipping : Bool) :
    ∃ s1, RecalculatePlayerMappingSettings bShipping [1] ⟨[], JumpWorld KeySpace⟩ = some s1 ∧
      s1.StableKeyMappingPacks = [JumpPack KeySpace KeySpace] ∧
      ∃ s2 p2, RemapControlKey s1 (JumpPack KeySpace KeySpace) KeyE = some (s2, p2) ∧
        s2.Live 1 = [JumpMapping KeyE] ∧
        s2.StableKeyMappingPacks = [JumpPack KeySpace KeyE] ∧
        p2 = JumpPack KeySpace KeyE ∧
        ∃ s3, RecalculatePlayerMappingSettings bShipping [1] s2 = some s3 ∧
          s3.StableKeyMappingPacks =
            [JumpPack (if bShipping then KeySpace else KeyE) KeyE] ∧
          s3.Live 1 = [JumpMapping KeyE] ∧
          ∃ s4 p4, RestoreDefaultKey s3 p2 = some (s4, p4) ∧
            s4.StableKeyMappingPacks =
              [JumpPack (if bShipping then KeySpace else KeyE) KeySpace] ∧
            p4 = JumpPack KeySpace KeySpace ∧
            s4.Live 1 = [JumpMapping KeySpace] := by
  cases bShipping with
  | true =>
    exact ⟨_, rfl, rfl, _, _, rfl, rfl, rfl, rfl, _, rfl, rfl, rfl, _, _, rfl, rfl, rfl, rfl⟩
  | false =>
    exact ⟨_, rfl, rfl, _, _, rfl, rfl, rfl, rfl, _, rfl, rfl, rfl, _, _, rfl, rfl, rfl, rfl⟩

/-! ## Pack equality -/

/-- C7 (pack equality): `operator==` holds exactly when context, action, custom
key, display name and index are equal; the default key of either operand does
not affect the result; and `operator!=` is the negation of `operator==`. -/
theorem Pack_equality (a b : FKeyMappingPack) (d : FKey) :
    (a.operatorEq b = true ↔
      a.MappingContext = b.MappingContext ∧ a.MappingAction = b.MappingAction ∧
      a.CustomKey = b.CustomKey ∧ a.MappingDisplayName = b.MappingDisplayName ∧
      a.MappingIndex = b.MappingIndex) ∧
    FKeyMappingPack.operatorEq { a with DefaultKey := d } b = a.operatorEq b ∧
    a.operatorEq { b with DefaultKey := d } = a.operatorEq b ∧
    a.operatorEq { a with DefaultKey := d } = true ∧
    a.operatorNe b = !(a.operatorEq b) :=
  ⟨operatorEq_iff a b, rfl, rfl, operatorEq_refl a, rfl⟩

/-! ## The live write of remap and restore -/

theorem getElem?_SetKey (w : World) (c c2 : UInputMappingContext) (n j : Nat) (K : FKey) :
    ((w.SetKey c n K) c2)[j]? =
      ((w c2)[j]?).map (fun m => if c2 = c ∧ j = n then { m with Key := K } else m) := by
  simp only [SetKey_apply]
  by_cases hc : c2 = c
  · subst hc
    simp only [if_true, getElem?_SetKeyAt, true_and]
  · simp only [hc, if_false, false_and]
    cases (w c2)[j]? <;> rfl

theorem UpdateKeyInContextByIndex_eq (w : World) (c : UInputMappingContext) (i : Int)
    (K : FKey) :
    UpdateKeyInContextByIndex w (some c) i K =
      if 0 ≤ i ∧ i < ((w c).length : Int) then some (w.SetKey c i.toNat K) else none := by
  by_cases h : 0 ≤ i ∧ i < ((w c).length : Int)
  · rw [UpdateKeyInContextByIndex_some w c i K h.1 h.2, if_pos h]
  · rw [if_neg h]
    unfold UpdateKeyInContextByIndex World.GetMapping
    by_cases hlt : i < ((w c).length : Int)
    · have hneg : i < 0 := by
        by_contra hn
        exact h ⟨by omega, hlt⟩
      simp [hneg]
    · simp [hlt]

/-- C8 as amended (live write contract): `UpdateKeyInContextByIndex` fails when
the context is null or the index is outside the bounds of the mapping array of
the context, and writes nothing then; otherwise it succeeds, whether or not the
entry is player mappable, and overwrites the bound key of exactly that entry:
every other entry, every other field and every other context is unchanged. -/
theorem Live_write_contract (w : World) (c : UInputMappingContext) (i : Int) (K : FKey) :
    UpdateKeyInContextByIndex w none i K = none ∧
    UpdateKeyInContextByIndex w (some c) i K =
      (if 0 ≤ i ∧ i < ((w c).length : Int) then some (w.SetKey c i.toNat K) else none) ∧
    ∀ (c2 : UInputMappingContext) (j : Nat),
      ((w.SetKey c i.toNat K) c2)[j]? =
        ((w c2)[j]?).map (fun m => if c2 = c ∧ j = i.toNat then { m with Key := K } else m) :=
  ⟨rfl, UpdateKeyInContextByIndex_eq w c i K, fun c2 j => getElem?_SetKey w c c2 i.toNat j K⟩

/-- C8 as stated fails: the entry at position 0 of context 1 is not player
mappable, yet the write of `E` succeeds and overwrites its key, directly and
through `RemapControlKey`. -/
theorem Live_write_contract_counterexample :
    (FixedMapping KeySpace).bIsPlayerMappable = false ∧
    (FixedWorld KeySpace) 1 = [FixedMapping KeySpace] ∧
    (UpdateKeyInContextByIndex (FixedWorld KeySpace) (some 1) 0 KeyE).map (fun w => w 1) =
      some [FixedMapping KeyE] ∧
    (RemapControlKey ⟨[], FixedWorld KeySpace⟩ (JumpPack KeySpace KeySpace) KeyE).map
      (fun r => r.1.Live 1) = some [FixedMapping KeyE] := by
  refine ⟨rfl, rfl, by decide, by decide⟩

/-! ## Invariants of the stored packs that remapping keeps -/

/-- Where the packs of the store come from after a successful reconciliation:
from the store before, or from discovery on a player mappable mapping. -/
theorem Recalculate_packs_origin (bShipping : Bool) (all : List UInputMappingContext)
    (s s1 : Controller) (h : RecalculatePlayerMappingSettings bShipping all s = some s1) :
    ∀ q ∈ s1.StableKeyMappingPacks, q ∈ s.StableKeyMappingPacks ∨
      ∃ c j m, MakePackToAdd c j m = some q := by
  unfold RecalculatePlayerMappingSettings at h
  generalize hs0 : (if (!bShipping) = true then
    ({ s with StableKeyMappingPacks := [] } : Controller) else s) = s0 at h
  have hsub : ∀ q ∈ s0.StableKeyMappingPacks, q ∈ s.StableKeyMappingPacks := by
    subst hs0
    cases bShipping with
    | true => intro q hq; exact hq
    | false => intro q hq; cases hq
  cases hL : CollectContextsWithMappableKeys s0.Live all with
  | none => simp [hL] at h
  | some L =>
    simp only [hL] at h
    obtain ⟨_, hLne, _⟩ := CollectContexts_spec _ _ _ hL
    cases hR : RestoreStoredKeysAndRemoveObsoleteMappings L s0 with
    | none => simp [hR] at h
    | some sR =>
      simp only [hR] at h
      obtain ⟨_, hkept, _⟩ := Restore_post L s0 sR hLne hR
      cases hC : CollectNewControlSettings sR.Live L sR.StableKeyMappingPacks with
      | none => simp [hC] at h
      | some S1 =>
        simp only [hC, Option.some.injEq] at h
        subst h
        obtain ⟨_, N, hN, hnew⟩ := CollectNewControlSettings_post _ _ _ _ hC
        intro q hq
        simp only [hN] at hq
        rcases List.mem_append.mp hq with hq | hq
        · rw [hkept] at hq
          exact Or.inl (hsub q (List.mem_filter.mp hq).1)
        · obtain ⟨c, _, j, m, _, _, hmk⟩ := hnew q hq
          exact Or.inr ⟨c, j, m, hmk⟩

theorem mem_UpdateFirstEqual (p : FKeyMappingPack) (K : FKey) (S : List FKeyMappingPack)
    (q : FKeyMappingPack) (h : q ∈ UpdateFirstEqual p K S) :
    ∃ q0 ∈ S, q = q0 ∨ q = { q0 with CustomKey := K } := by
  induction S with
  | nil => cases h
  | cons x rest ih =>
    unfold UpdateFirstEqual at h
    split at h
    · rcases List.mem_cons.mp h with h | h
      · exact ⟨x, List.mem_cons_self _ _, Or.inl h⟩
      · obtain ⟨q0, hq0, hq⟩ := ih h
        exact ⟨q0, List.mem_cons_of_mem _ hq0, hq⟩
    · rcases List.mem_cons.mp h with h | h
      · exact ⟨x, List.mem_cons_self _ _, Or.inr h⟩
      · exact ⟨q, List.mem_cons_of_mem _ h, Or.inl rfl⟩

theorem RemapControlKey_packs (s s2 : Controller) (p p2 : FKeyMappingPack) (K : FKey)
    (h : RemapControlKey s p K = some (s2, p2)) :
    s2.StableKeyMappingPacks = UpdateFirstEqual p K s.StableKeyMappingPacks := by
  unfold RemapControlKey at h
  cases hu : UpdateKeyInContextByIndex s.Live p.MappingContext p.MappingIndex K with
  | none => simp [hu] at h
  | some w =>
    simp only [hu, UpdateCustomKeyInPackAndSettings, Option.some.injEq, Prod.mk.injEq] at h
    rw [← h.1]

/-- Starting from an empty store, every stored pack keeps a non-null context and
action, a valid default key, a display name that is not empty or whitespace and
a non-negative index, whatever handles and keys are passed to remap and restore. -/
theorem Reachable_invariants (bShipping : Bool) (s : Controller)
    (h : Reachable bShipping s) :
    ∀ q ∈ s.StableKeyMappingPacks,
      q.MappingContext.isSome = true ∧ q.MappingAction.isSome = true ∧
      q.DefaultKey.IsValid = true ∧ q.MappingDisplayName.IsEmptyOrWhitespace = false ∧
      q.MappingDisplayName.IsEmpty = false ∧ 0 ≤ q.MappingIndex := by
  have hremap : ∀ (s s2 : Controller) (p p2 : FKeyMappingPack) (K : FKey),
      (∀ q ∈ s.StableKeyMappingPacks,
        q.MappingContext.isSome = true ∧ q.MappingAction.isSome = true ∧
        q.DefaultKey.IsValid = true ∧ q.MappingDisplayName.IsEmptyOrWhitespace = false ∧
        q.MappingDisplayName.IsEmpty = false ∧ 0 ≤ q.MappingIndex) →
      RemapControlKey s p K = some (s2, p2) →
      ∀ q ∈ s2.StableKeyMappingPacks,
        q.MappingContext.isSome = true ∧ q.MappingAction.isSome = true ∧
        q.DefaultKey.IsValid = true ∧ q.MappingDisplayName.IsEmptyOrWhitespace = false ∧
        q.MappingDisplayName.IsEmpty = false ∧ 0 ≤ q.MappingIndex := by
    intro s s2 p p2 K ih hr q hq
    rw [RemapControlKey_packs s s2 p p2 K hr] at hq
    obtain ⟨q0, hq0, hq | hq⟩ := mem_UpdateFirstEqual p K _ q hq
    · subst hq; exact ih q hq0
    · subst hq; exact ih q0 hq0
  induction h with
  | start w => intro q hq; cases hq
  | reload s w _ ih => exact ih
  | reconcile s s2 all _ hr ih =>
    intro q hq
    rcases Recalculate_packs_origin bShipping all s s2 hr q hq with hq | ⟨c, j, m, hmk⟩
    · exact ih q hq
    · obtain ⟨rfl, hv, ha, hws, he⟩ := MakePackToAdd_spec c j m q hmk
      exact ⟨rfl, ha, hv, hws, he, by simp⟩
  | remap s s2 p p2 K _ hr ih => exact hremap s s2 p p2 K ih hr
  | restore s s2 p p2 _ hr ih => exact hremap s s2 p p2 p.DefaultKey ih hr

/-- C9, the code at the failing input: from an empty store, reconciliation
creates the pack of the "Jump" entry; `RemapControlKey` with the invalid key
succeeds and leaves a stored pack whose custom key is not valid, on which
`UnpackRebindPack` raises.  The state is reached from the empty store by these
two calls. -/
theorem Pack_invariants_broken (bShipping : Bool) :
    ∃ s1, RecalculatePlayerMappingSettings bShipping [1] ⟨[], JumpWorld KeySpace⟩ = some s1 ∧
      s1.StableKeyMappingPacks = [JumpPack KeySpace KeySpace] ∧
      ∃ s2 p2, RemapControlKey s1 (JumpPack KeySpace KeySpace) KeyInvalid = some (s2, p2) ∧
        Reachable bShipping s2 ∧
        s2.StableKeyMappingPacks = [JumpPack KeySpace KeyInvalid] ∧
        (JumpPack KeySpace KeyInvalid).CustomKey.IsValid = false ∧
        (JumpPack KeySpace KeyInvalid).Invariants = false ∧
        UnpackRebindPack (JumpPack KeySpace KeyInvalid) = none := by
  cases bShipping with
  | true =>
    exact ⟨_, rfl, rfl, _, _, rfl,
      Reachable.remap _ _ (JumpPack KeySpace KeySpace) _ KeyInvalid
        (Reachable.reconcile ⟨[], JumpWorld KeySpace⟩ _ [1] (Reachable.start _) rfl) rfl,
      rfl, by decide, by decide, by decide⟩
  | false =>
    exact ⟨_, rfl, rfl, _, _, rfl,
      Reachable.remap _ _ (JumpPack KeySpace KeySpace) _ KeyInvalid
        (Reachable.reconcile ⟨[], JumpWorld KeySpace⟩ _ [1] (Reachable.start _) rfl) rfl,
      rfl, by decide, by decide, by decide⟩

/-! ## Live configuration and store under remap -/

theorem UpdateFirstEqual_of_none (p : FKeyMappingPack) (K : FKey) (S : List FKeyMappingPack)
    (h : ∀ q ∈ S, q.operatorEq p = false) : UpdateFirstEqual p K S = S := by
  induction S with
  | nil => rfl
  | cons q rest ih =>
    unfold UpdateFirstEqual
    simp only [FKeyMappingPack.operatorNe, h q (List.mem_cons_self _ _), Bool.not_false, if_true]
    rw [ih (fun r hr => h r (List.mem_cons_of_mem _ hr))]

theorem UpdateFirstEqual_first (p : FKeyMappingPack) (K : FKey) (A B : List FKeyMappingPack)
    (q : FKeyMappingPack) (hA : ∀ a ∈ A, a.operatorEq p = false) (hq : q.operatorEq p = true) :
    UpdateFirstEqual p K (A ++ q :: B) = A ++ { q with CustomKey := K } :: B := by
  induction A with
  | nil => simp [UpdateFirstEqual, FKeyMappingPack.operatorNe, hq]
  | cons a rest ih =>
    have e : UpdateFirstEqual p K (a :: (rest ++ q :: B)) =
        a :: UpdateFirstEqual p K (rest ++ q :: B) := by
      simp [UpdateFirstEqual, FKeyMappingPack.operatorNe, hA a (List.mem_cons_self _ _)]
    rw [List.cons_append, e, ih (fun r hr => hA r (List.mem_cons_of_mem _ hr)),
      List.cons_append]

theorem UpdateKeyInContextByIndex_inv (w w2 : World) (ctx : Option UInputMappingContext)
    (i : Int) (K : FKey) (h : UpdateKeyInContextByIndex w ctx i K = some w2) :
    ∃ c, ctx = some c ∧ 0 ≤ i ∧ i < ((w c).length : Int) ∧ w2 = w.SetKey c i.toNat K := by
  cases ctx with
  | none => cases h
  | some c =>
    rw [UpdateKeyInContextByIndex_eq] at h
    by_cases hb : 0 ≤ i ∧ i < ((w c).length : Int)
    · rw [if_pos hb] at h
      exact ⟨c, rfl, hb.1, hb.2, (Option.some.inj h).symm⟩
    · rw [if_neg hb] at h
      cases h

/-- C10 as amended (live and store under remap): `RestoreDefaultKey` is
`RemapControlKey` with the default key of the handle; a successful
`RemapControlKey` binds the live entry at the position of the handle to the new
key and sets the custom key of the handle; the first stored pack equal to the
handle (pack equality, which compares the custom key) gets the new key in the
same call and then agrees with the live entry; when no stored pack is equal to
the handle the store is left unchanged although the live entry is written. -/
theorem Live_and_store (s s2 : Controller) (p p2 : FKeyMappingPack) (K : FKey)
    (h : RemapControlKey s p K = some (s2, p2)) :
    RestoreDefaultKey s p = RemapControlKey s p p.DefaultKey ∧
    p2 = { p with CustomKey := K } ∧ p2.LiveKey s2.Live = some K ∧
    (∀ A q B, s.StableKeyMappingPacks = A ++ q :: B → (∀ a ∈ A, a.operatorEq p = false) →
      q.operatorEq p = true →
      s2.StableKeyMappingPacks = A ++ { q with CustomKey := K } :: B ∧
      FKeyMappingPack.LiveKey { q with CustomKey := K } s2.Live = some K) ∧
    ((∀ q ∈ s.StableKeyMappingPacks, q.operatorEq p = false) →
      s2.StableKeyMappingPacks = s.StableKeyMappingPacks) := by
  unfold RemapControlKey at h
  cases hu : UpdateKeyInContextByIndex s.Live p.MappingContext p.MappingIndex K with
  | none => simp [hu] at h
  | some w =>
    simp only [hu, UpdateCustomKeyInPackAndSettings, Option.some.injEq, Prod.mk.injEq] at h
    obtain ⟨hs2, hp2⟩ := h
    subst hs2
    subst hp2
    obtain ⟨c, hc, h0, hlt, hw⟩ := UpdateKeyInContextByIndex_inv _ _ _ _ _ hu
    subst hw
    have hlive : FKeyMappingPack.LiveKey { p with CustomKey := K }
        (s.Live.SetKey c p.MappingIndex.toNat K) = some K :=
      LiveKey_SetKey_self { p with CustomKey := K } s.Live c K hc h0 hlt
    refine ⟨rfl, rfl, hlive, ?_, ?_⟩
    · intro A q B hdec hA hq
      refine ⟨?_, ?_⟩
      · simp only [hdec]
        exact UpdateFirstEqual_first p K A B q hA hq
      · obtain ⟨h1, _, _, _, h5⟩ := (operatorEq_iff q p).mp hq
        have hc2 : q.MappingContext = some c := by rw [h1]; exact hc
        have h0q : 0 ≤ q.MappingIndex := by rw [h5]; exact h0
        have hltq : q.MappingIndex < ((s.Live c).length : Int) := by rw [h5]; exact hlt
        show FKeyMappingPack.LiveKey { q with CustomKey := K }
          (s.Live.SetKey c p.MappingIndex.toNat K) = some K
        rw [← h5]
        exact LiveKey_SetKey_self { q with CustomKey := K } s.Live c K hc2 h0q hltq
    · intro hnone
      exact UpdateFirstEqual_of_none p K _ hnone

/-- Witness of C10 as amended: the handle is equal to the stored pack. -/
theorem Live_and_store_witness :
    RestoreDefaultKey ⟨[JumpPack KeySpace KeySpace], JumpWorld KeySpace⟩
        (JumpPack KeySpace KeySpace) =
      RemapControlKey ⟨[JumpPack KeySpace KeySpace], JumpWorld KeySpace⟩
        (JumpPack KeySpace KeySpace) (JumpPack KeySpace KeySpace).DefaultKey ∧
    JumpPack KeySpace KeyE = { JumpPack KeySpace KeySpace with CustomKey := KeyE } ∧
    (JumpPack KeySpace KeyE).LiveKey ((JumpWorld KeySpace).SetKey 1 0 KeyE) = some KeyE ∧
    (∀ A q B, [JumpPack KeySpace KeySpace] = A ++ q :: B →
      (∀ a ∈ A, a.operatorEq (JumpPack KeySpace KeySpace) = false) →
      q.operatorEq (JumpPack KeySpace KeySpace) = true →
      [JumpPack KeySpace KeyE] = A ++ { q with CustomKey := KeyE } :: B ∧
      FKeyMappingPack.LiveKey { q with CustomKey := KeyE }
        ((JumpWorld KeySpace).SetKey 1 0 KeyE) = some KeyE) ∧
    ((∀ q ∈ [JumpPack KeySpace KeySpace], q.operatorEq (JumpPack KeySpace KeySpace) = false) →
      [JumpPack KeySpace KeyE] = [JumpPack KeySpace KeySpace]) :=
  Live_and_store ⟨[JumpPack KeySpace KeySpace], JumpWorld KeySpace⟩
    ⟨[JumpPack KeySpace KeyE], (JumpWorld KeySpace).SetKey 1 0 KeyE⟩
    (JumpPack KeySpace KeySpace) (JumpPack KeySpace KeyE) KeyE rfl

/-- C10 as stated fails: after a remap to `E` through one copy of the handle, a
remap to `F` through another copy, whose custom key is still `SpaceBar`, binds
the live entry to `F` and leaves the store unchanged: the stored pack of the
entry keeps custom key `E`. -/
theorem Live_and_store_counterexample :
    ∃ s2 p2, RemapControlKey ⟨[JumpPack KeySpace KeySpace], JumpWorld KeySpace⟩
        (JumpPack KeySpace KeySpace) KeyE = some (s2, p2) ∧
      s2.StableKeyMappingPacks = [JumpPack KeySpace KeyE] ∧ s2.Live 1 = [JumpMapping KeyE] ∧
      ∃ s3 p3, RemapControlKey s2 (JumpPack KeySpace KeySpace) KeyF = some (s3, p3) ∧
        s3.StableKeyMappingPacks = [JumpPack KeySpace KeyE] ∧
        s3.Live 1 = [JumpMapping KeyF] ∧ KeyE ≠ KeyF :=
  ⟨_, _, rfl, rfl, rfl, _, _, rfl, rfl, rfl, by decide⟩

/-! ## Failure and deduplication of the mode query -/

theorem CollectPacksForMode_shape (m : FText) (S R : List FKeyMappingPack) :
    ∃ N, CollectPacksForMode m S R = R ++ N ∧ N.Sublist S ∧
      (R.Pairwise (fun a b => a.operatorEq b = false) →
        (R ++ N).Pairwise (fun a b => a.operatorEq b = false)) := by
  induction S generalizing R with
  | nil => exact ⟨[], by simp [CollectPacksForMode], List.Sublist.refl _, by simp⟩
  | cons p rest ih =>
    unfold CollectPacksForMode
    split
    · obtain ⟨N, hN, hsub, hpw⟩ := ih R
      exact ⟨N, hN, List.Sublist.cons _ hsub, hpw⟩
    · rename_i hcond
      simp only [Bool.or_eq_true, Bool.not_eq_true', not_or, Bool.not_eq_false] at hcond
      obtain ⟨N, hN, hsub, hpw⟩ := ih (R ++ [p])
      refine ⟨p :: N, by simp [hN], List.Sublist.cons₂ _ hsub, ?_⟩
      intro hR
      have hRp : (R ++ [p]).Pairwise (fun a b => a.operatorEq b = false) := by
        rw [List.pairwise_append]
        refine ⟨hR, List.pairwise_singleton _ _, ?_⟩
        intro a ha b hb
        simp only [List.mem_singleton] at hb
        subst hb
        have hany := hcond.1
        cases hab : a.operatorEq b with
        | false => rfl
        | true =>
          have : R.any (fun q => q.operatorEq b) = true := List.any_eq_true.mpr ⟨a, ha, hab⟩
          rw [this] at hany
          exact absurd hany (by simp)
      have := hpw hRp
      simpa using this

theorem GetMappingPacksForControlMode_none_iff (Packs : List FKeyMappingPack) (m : FText) :
    GetMappingPacksForControlMode Packs m = none ↔
      Packs = [] ∨ ∀ p ∈ Packs, IsCorrectControlMode p m = false := by
  unfold GetMappingPacksForControlMode
  constructor
  · intro h
    cases hP : Packs with
    | nil => exact Or.inl rfl
    | cons x rest =>
      right
      rw [hP] at h
      simp only [List.isEmpty_cons, Bool.false_eq_true, if_false] at h
      intro p hp
      cases hm : IsCorrectControlMode p m with
      | false => rfl
      | true =>
        have hany := any_CollectPacksForMode m (x :: rest) [] p hp hm
        cases hr : CollectPacksForMode m (x :: rest) [] with
        | nil => rw [hr] at hany; cases hany
        | cons _ _ => rw [hr] at h; simp at h
  · rintro (h | h)
    · simp [h]
    · cases hP : Packs with
      | nil => simp
      | cons x rest =>
        simp only [List.isEmpty_cons, Bool.false_eq_true, if_false]
        cases hr : CollectPacksForMode m (x :: rest) [] with
        | nil => simp
        | cons q qs =>
          exfalso
          have hq : q ∈ CollectPacksForMode m (x :: rest) [] := by rw [hr]; simp
          rcases mem_CollectPacksForMode m _ [] q hq with h1 | ⟨h1, h2⟩
          · cases h1
          · rw [← hP] at h1
            rw [h q h1] at h2
            cases h2

/-- C11 (failure and deduplication of the mode query): the call raises exactly
when the store is empty or no stored pack is accepted for the mode; otherwise
the result is not empty, is a sub-list of the store in store order, holds no two
equal packs, holds only packs accepted for the mode, and every stored pack
accepted for the mode is equal to a pack of the result.  The store is an input
of the function only (the member function is `const`), so it is unchanged. -/
theorem Packs_for_mode (Packs : List FKeyMappingPack) (ControlMode : FText) :
    (GetMappingPacksForControlMode Packs ControlMode = none ↔
      Packs = [] ∨ ∀ p ∈ Packs, IsCorrectControlMode p ControlMode = false) ∧
    ∀ r, GetMappingPacksForControlMode Packs ControlMode = some r →
      r ≠ [] ∧ r.Sublist Packs ∧ r.Pairwise (fun a b => a.operatorEq b = false) ∧
      (∀ q ∈ r, IsCorrectControlMode q ControlMode = true) ∧
      (∀ p ∈ Packs, IsCorrectControlMode p ControlMode = true →
        r.any (fun q => q.operatorEq p) = true) := by
  refine ⟨GetMappingPacksForControlMode_none_iff Packs ControlMode, ?_⟩
  intro r hr
  unfold GetMappingPacksForControlMode at hr
  split at hr
  · cases hr
  · simp only [] at hr
    split at hr
    · cases hr
    · rename_i hne
      simp only [Option.some.injEq] at hr
      obtain ⟨N, hN, hsub, hpw⟩ := CollectPacksForMode_shape ControlMode Packs []
      simp only [List.nil_append] at hN hpw
      have hrN : r = N := by rw [← hr, hN]
      refine ⟨?_, ?_, ?_, ?_, ?_⟩
      · intro he
        rw [← hr] at he
        rw [he] at hne
        exact hne rfl
      · rw [hrN]; exact hsub
      · rw [hrN]; exact hpw List.Pairwise.nil
      · intro q hq
        rw [← hr] at hq
        rcases mem_CollectPacksForMode ControlMode Packs [] q hq with h1 | ⟨_, h2⟩
        · cases h1
        · exact h2
      · intro p hp hm
        rw [← hr]
        exact any_CollectPacksForMode ControlMode Packs [] p hp hm

/-- Witness of C11: a store with two equal keyboard packs (only their default keys
differ) and a pack with the invalid key; the keyboard query returns the first
keyboard pack only, and the touch query raises. -/
theorem Packs_for_mode_witness :
    GetMappingPacksForControlMode
        [JumpPack KeySpace KeyE, JumpPack KeyF KeyE, JumpPack KeySpace KeyInvalid]
        ⟨"KeyboardAndMouse"⟩ = some [JumpPack KeySpace KeyE] ∧
    GetMappingPacksForControlMode
        [JumpPack KeySpace KeyE, JumpPack KeyF KeyE, JumpPack KeySpace KeyInvalid]
        ⟨"Touch"⟩ = none ∧
    ([JumpPack KeySpace KeyE] ≠ [] ∧
      [JumpPack KeySpace KeyE].Sublist
        [JumpPack KeySpace KeyE, JumpPack KeyF KeyE, JumpPack KeySpace KeyInvalid] ∧
      [JumpPack KeySpace KeyE].Pairwise (fun a b => a.operatorEq b = false) ∧
      (∀ q ∈ [JumpPack KeySpace KeyE], IsCorrectControlMode q ⟨"KeyboardAndMouse"⟩ = true) ∧
      (∀ p ∈ [JumpPack KeySpace KeyE, JumpPack KeyF KeyE, JumpPack KeySpace KeyInvalid],
        IsCorrectControlMode p ⟨"KeyboardAndMouse"⟩ = true →
        [JumpPack KeySpace KeyE].any (fun q => q.operatorEq p) = true)) :=
  ⟨by decide, by decide,
    (Packs_for_mode [JumpPack KeySpace KeyE, JumpPack KeyF KeyE, JumpPack KeySpace KeyInvalid]
      ⟨"KeyboardAndMouse"⟩).2 [JumpPack KeySpace KeyE] (by decide)⟩

/-! ## Discovery of the valid contexts -/

theorem mem_EmplaceMappable_iff (c x : UInputMappingContext)
    (ms : List FEnhancedActionKeyMapping) :
    x ∈ EmplaceMappable c ms ↔ x = c ∧ ∃ m ∈ ms, m.bIsPlayerMappable = true := by
  induction ms with
  | nil => simp [EmplaceMappable]
  | cons m ms ih =>
    unfold EmplaceMappable
    cases hm : m.bIsPlayerMappable with
    | false =>
      simp only [Bool.not_false, if_true, ih, List.mem_cons, exists_eq_or_imp, hm,
        Bool.false_eq_true, false_or]
    | true =>
      simp only [Bool.not_true, Bool.false_eq_true, if_false, List.mem_cons, ih,
        exists_eq_or_imp, hm, true_or, and_true]
      constructor
      · rintro (h | h)
        · exact h
        · exact h.1
      · intro h
        exact Or.inl h

theorem mem_CollectMappableLoop_iff (w : World) (all : List UInputMappingContext)
    (x : UInputMappingContext) :
    x ∈ CollectMappableLoop w all ↔ x ∈ all ∧ ∃ m ∈ w x, m.bIsPlayerMappable = true := by
  induction all with
  | nil => simp [CollectMappableLoop]
  | cons c rest ih =>
    unfold CollectMappableLoop
    rw [List.mem_append, mem_EmplaceMappable_iff, ih, List.mem_cons]
    constructor
    · rintro (⟨rfl, h⟩ | ⟨h1, h2⟩)
      · exact ⟨Or.inl rfl, h⟩
      · exact ⟨Or.inr h1, h2⟩
    · rintro ⟨h1 | h1, h2⟩
      · subst h1; exact Or.inl ⟨rfl, h2⟩
      · exact Or.inr ⟨h1, h2⟩

theorem CollectContexts_none_iff (w : World) (all : List UInputMappingContext) :
    CollectContextsWithMappableKeys w all = none ↔
      all = [] ∨ ∀ c ∈ all, ∀ m ∈ w c, m.bIsPlayerMappable = false := by
  unfold CollectContextsWithMappableKeys
  cases hall : all with
  | nil => simp
  | cons a rest =>
    simp only [List.isEmpty_cons, Bool.false_eq_true, if_false, false_or, reduceCtorEq]
    rw [← hall]
    cases hL : CollectMappableLoop w all with
    | nil =>
      simp only [List.isEmpty_nil, if_true, true_iff]
      intro c hc m hm
      cases hmm : m.bIsPlayerMappable with
      | false => rfl
      | true =>
        have : c ∈ CollectMappableLoop w all :=
          (mem_CollectMappableLoop_iff w all c).mpr ⟨hc, m, hm, hmm⟩
        rw [hL] at this
        cases this
    | cons x xs =>
      simp only [List.isEmpty_cons, Bool.false_eq_true, if_false, reduceCtorEq, false_iff]
      intro h
      have hx : x ∈ CollectMappableLoop w all := by rw [hL]; simp
      obtain ⟨hxa, m, hm, hmm⟩ := (mem_CollectMappableLoop_iff w all x).mp hx
      rw [h x hxa m hm] at hmm
      cases hmm

theorem Recalculate_none_of_CollectContexts (bShipping : Bool)
    (all : List UInputMappingContext) (s : Controller)
    (h : CollectContextsWithMappableKeys s.Live all = none) :
    RecalculatePlayerMappingSettings bShipping all s = none := by
  unfold RecalculatePlayerMappingSettings
  cases bShipping <;> simp [h]

/-- C12 as amended (valid-context discovery): a context is in the valid-context
list exactly when it was discovered and has at least one player mappable entry;
`CollectContextsWithMappableKeys` raises exactly when no context was discovered
or no discovered context has a player mappable entry, and otherwise returns that
list; and whenever it raises, reconciliation raises in either build. -/
theorem Valid_context_discovery (w : World) (AllContexts : List UInputMappingContext)
    (Packs : List FKeyMappingPack) (bShipping : Bool) :
    (∀ c, c ∈ CollectMappableLoop w AllContexts ↔
      c ∈ AllContexts ∧ ∃ m ∈ w c, m.bIsPlayerMappable = true) ∧
    (CollectContextsWithMappableKeys w AllContexts = none ↔
      AllContexts = [] ∨ ∀ c ∈ AllContexts, ∀ m ∈ w c, m.bIsPlayerMappable = false) ∧
    (∀ L, CollectContextsWithMappableKeys w AllContexts = some L →
      L = CollectMappableLoop w AllContexts) ∧
    (CollectContextsWithMappableKeys w AllContexts = none →
      RecalculatePlayerMappingSettings bShipping AllContexts ⟨Packs, w⟩ = none) :=
  ⟨mem_CollectMappableLoop_iff w AllContexts, CollectContexts_none_iff w AllContexts,
    fun L h => (CollectContexts_spec w AllContexts L h).1,
    Recalculate_none_of_CollectContexts bShipping AllContexts ⟨Packs, w⟩⟩

/-- C12 as stated fails for reconciliation: context 1 is discovered and its only
entry is player mappable, so `CollectContextsWithMappableKeys` succeeds, yet
reconciliation raises in either build, at the check of the action pointer in
`CollectNewControlSettings`. -/
theorem Valid_context_discovery_counterexample :
    (NoActionWorld KeySpace) 1 = [NoActionMapping KeySpace] ∧
    (NoActionMapping KeySpace).bIsPlayerMappable = true ∧
    CollectContextsWithMappableKeys (NoActionWorld KeySpace) [1] = some [1] ∧
    (RecalculatePlayerMappingSettings true [1] ⟨[], NoActionWorld KeySpace⟩).isNone = true ∧
    (RecalculatePlayerMappingSettings false [1] ⟨[], NoActionWorld KeySpace⟩).isNone = true := by
  refine ⟨rfl, rfl, by decide, by decide, by decide⟩

/-! ## The packs that pruning keeps -/

theorem ResolvesIn_nonneg (p : FKeyMappingPack) (w : World) (c : UInputMappingContext)
    (h : p.MappingIndex < 0) : p.ResolvesIn w c = false := by
  cases hr : p.ResolvesIn w c with
  | false => rfl
  | true =>
    have := (ResolvesIn_spec p w c hr).2.1
    omega

theorem KeepVerdict_some (p : FKeyMappingPack) (w : World) (L : List UInputMappingContext)
    (b : Bool) (h : KeepVerdict p w L = some b) : b = L.any (fun c => p.ResolvesIn w c) := by
  induction L with
  | nil =>
    simp only [KeepVerdict, Option.some.injEq] at h
    simp [← h]
  | cons c rest ih =>
    unfold KeepVerdict at h
    split at h
    · cases h
    · cases hr : p.ResolvesIn w c with
      | true =>
        simp only [hr, if_true, Option.some.injEq] at h
        simp [← h, hr]
      | false =>
        simp only [hr, Bool.false_eq_true, if_false] at h
        simp [ih h, hr]

theorem KeepVerdict_none_iff (p : FKeyMappingPack) (w : World)
    (L : List UInputMappingContext) :
    KeepVerdict p w L = none ↔ p.MappingIndex < 0 ∧ ∃ c ∈ L, p.MappingContext = some c := by
  induction L with
  | nil => simp [KeepVerdict]
  | cons c rest ih =>
    unfold KeepVerdict
    by_cases hcr : p.MappingContext = some c ∧ p.MappingIndex < 0
    · rw [if_pos hcr]
      exact iff_of_true rfl ⟨hcr.2, c, List.mem_cons_self _ _, hcr.1⟩
    · simp only [hcr, if_false]
      cases hr : p.ResolvesIn w c with
      | true =>
        simp only [if_true, reduceCtorEq, false_iff, not_and, not_exists]
        intro hneg
        rw [ResolvesIn_nonneg p w c hneg] at hr
        cases hr
      | false =>
        simp only [Bool.false_eq_true, if_false, ih, List.mem_cons, exists_eq_or_imp]
        constructor
        · rintro ⟨h1, h2⟩
          exact ⟨h1, Or.inr h2⟩
        · rintro ⟨h1, h2 | h2⟩
          · exact absurd ⟨h2, h1⟩ hcr
          · exact ⟨h1, h2⟩

theorem FilterByPredicate_none_iff (L : List UInputMappingContext) (S : List FKeyMappingPack)
    (w : World) :
    FilterByPredicate L S w = none ↔ ∃ p ∈ S, KeepVerdict p w L = none := by
  constructor
  · intro h
    by_contra hno
    have hsome : ∀ p ∈ S, (KeepVerdict p w L).isSome = true := by
      intro p hp
      cases hv : KeepVerdict p w L with
      | none => exact absurd ⟨p, hp, hv⟩ hno
      | some _ => rfl
    rw [FilterByPredicate_eq L S w hsome] at h
    cases h
  · rintro ⟨p, hp, hv⟩
    cases hf : FilterByPredicate L S w with
    | none => rfl
    | some r =>
      have := FilterByPredicate_isSome L S w r hf p hp
      rw [hv] at this
      cases this

theorem Restore_none_iff (L : List UInputMappingContext) (s : Controller) :
    RestoreStoredKeysAndRemoveObsoleteMappings L s = none ↔
      ∃ p ∈ s.StableKeyMappingPacks, p.MappingIndex < 0 ∧ ∃ c ∈ L, p.MappingContext = some c := by
  unfold RestoreStoredKeysAndRemoveObsoleteMappings
  by_cases he : (s.StableKeyMappingPacks.isEmpty || L.isEmpty) = true
  · simp only [he, if_true, reduceCtorEq, false_iff, not_exists, not_and]
    intro p hp _ c hc _
    simp only [Bool.or_eq_true, List.isEmpty_iff] at he
    rcases he with he | he
    · rw [he] at hp; cases hp
    · rw [he] at hc; cases hc
  · simp only [he, Bool.false_eq_true, if_false]
    have key : FilterByPredicate L s.StableKeyMappingPacks s.Live = none ↔
        ∃ p ∈ s.StableKeyMappingPacks, p.MappingIndex < 0 ∧
          ∃ c ∈ L, p.MappingContext = some c := by
      rw [FilterByPredicate_none_iff]
      constructor
      · rintro ⟨p, hp, hv⟩
        exact ⟨p, hp, (KeepVerdict_none_iff p s.Live L).mp hv⟩
      · rintro ⟨p, hp, hv⟩
        exact ⟨p, hp, (KeepVerdict_none_iff p s.Live L).mpr hv⟩
    rw [← key]
    cases FilterByPredicate L s.StableKeyMappingPacks s.Live with
    | none => simp
    | some r => simp

theorem Restore_filter (L : List UInputMappingContext) (s sR : Controller) (hL : L ≠ [])
    (h : RestoreStoredKeysAndRemoveObsoleteMappings L s = some sR) :
    sR.StableKeyMappingPacks =
      s.StableKeyMappingPacks.filter (fun p => L.any (fun c => p.ResolvesIn s.Live c)) := by
  obtain ⟨hsome, hkept, _⟩ := Restore_post L s sR hL h
  rw [hkept]
  apply List.filter_congr
  intro p hp
  cases hv : KeepVerdict p s.Live L with
  | none =>
    have := hsome p hp
    rw [hv] at this
    cases this
  | some b =>
    rw [← KeepVerdict_some p s.Live L b hv]
    cases b <;> rfl

/-- C14 (prune keeps exactly the matching packs, in order): on the valid-context
list, which is never empty, the prune-and-restore phase raises only when a
stored pack with a negative index has its context in the list; otherwise the
store becomes the sub-list, in the original order and with the packs unchanged,
of exactly those packs that resolve in some context of the list, and the live
configuration is the old one after the custom key of every kept pack, in store
order, was written into the entry at the index of the pack in its context. -/
theorem Prune_keeps_matching (CurrentContexts : List UInputMappingContext) (s : Controller)
    (hL : CurrentContexts ≠ []) :
    (RestoreStoredKeysAndRemoveObsoleteMappings CurrentContexts s = none ↔
      ∃ p ∈ s.StableKeyMappingPacks, p.MappingIndex < 0 ∧
        ∃ c ∈ CurrentContexts, p.MappingContext = some c) ∧
    ∀ sR, RestoreStoredKeysAndRemoveObsoleteMappings CurrentContexts s = some sR →
      sR.StableKeyMappingPacks =
        s.StableKeyMappingPacks.filter
          (fun p => CurrentContexts.any (fun c => p.ResolvesIn s.Live c)) ∧
      sR.StableKeyMappingPacks.Sublist s.StableKeyMappingPacks ∧
      sR.Live = WriteBackAll sR.StableKeyMappingPacks s.Live ∧
      ∀ p ∈ sR.StableKeyMappingPacks, ∀ w : World, ∃ c ∈ CurrentContexts,
        p.MappingContext = some c ∧
        p.WriteBack w = w.SetKey c p.MappingIndex.toNat p.CustomKey := by
  refine ⟨Restore_none_iff CurrentContexts s, ?_⟩
  intro sR h
  have hf := Restore_filter CurrentContexts s sR hL h
  refine ⟨hf, ?_, (Restore_post CurrentContexts s sR hL h).2.2, ?_⟩
  · rw [hf]; exact List.filter_sublist _
  · intro p hp w
    rw [hf] at hp
    obtain ⟨c, hc, hres⟩ := List.any_eq_true.mp (List.mem_filter.mp hp).2
    have hctx := (ResolvesIn_spec p s.Live c hres).1
    exact ⟨c, hc, hctx, by simp [FKeyMappingPack.WriteBack, hctx]⟩

/-- Witness of C14: the stale pack is dropped, the "Jump" pack is kept and its
custom key `E` is written into the live entry. -/
theorem Prune_keeps_matching_witness :
    RestoreStoredKeysAndRemoveObsoleteMappings [1]
        ⟨[StalePack, JumpPack KeySpace KeyE], JumpWorld KeySpace⟩ =
      some ⟨[JumpPack KeySpace KeyE], (JumpWorld KeySpace).SetKey 1 0 KeyE⟩ ∧
    [JumpPack KeySpace KeyE] =
      [StalePack, JumpPack KeySpace KeyE].filter
        (fun p => [1].any (fun c => p.ResolvesIn (JumpWorld KeySpace) c)) ∧
    (JumpWorld KeySpace).SetKey 1 0 KeyE =
      WriteBackAll [JumpPack KeySpace KeyE] (JumpWorld KeySpace) :=
  have h := (Prune_keeps_matching [1]
    ⟨[StalePack, JumpPack KeySpace KeyE], JumpWorld KeySpace⟩ (by simp)).2
    ⟨[JumpPack KeySpace KeyE], (JumpWorld KeySpace).SetKey 1 0 KeyE⟩ rfl
  ⟨rfl, h.1, h.2.2.1⟩

/-! ## What reconciliation produces -/

theorem CollectNewInContext_fresh (c : UInputMappingContext)
    (ms : List FEnhancedActionKeyMapping) (i : Nat) (S S2 : List FKeyMappingPack)
    (h : CollectNewInContext c ms i S = some S2) :
    ∃ N, S2 = S ++ N ∧ N.Pairwise (fun a b => a.operatorEq b = false) ∧
      ∀ q ∈ S, ∀ n ∈ N, q.operatorEq n = false := by
  induction ms generalizing i S with
  | nil =>
    simp only [CollectNewInContext, Option.some.injEq] at h
    subst h
    exact ⟨[], by simp, List.Pairwise.nil, fun q _ n hn => (by cases hn)⟩
  | cons m ms ih =>
    unfold CollectNewInContext at h
    cases hm : m.bIsPlayerMappable with
    | false =>
      simp only [hm, Bool.not_false, if_true] at h
      exact ih (i + 1) S h
    | true =>
      simp only [hm, Bool.not_true, Bool.false_eq_true, if_false] at h
      cases hmk : MakePackToAdd c i m with
      | none => simp [hmk] at h
      | some n0 =>
        simp only [hmk] at h
        cases hany : S.any (fun q => q.operatorEq n0) with
        | true =>
          simp only [hany, if_true] at h
          exact ih (i + 1) S h
        | false =>
          simp only [hany, Bool.false_eq_true, if_false] at h
          obtain ⟨N, hN, hpw, hcross⟩ := ih (i + 1) (S ++ [n0]) h
          refine ⟨n0 :: N, by simp [hN], ?_, ?_⟩
          · rw [List.pairwise_cons]
            exact ⟨fun n hn => hcross n0 (by simp) n hn, hpw⟩
          · intro q hq n hn
            rcases List.mem_cons.mp hn with rfl | hn
            · cases hqn : q.operatorEq n with
              | false => rfl
              | true =>
                have : S.any (fun q => q.operatorEq n) = true :=
                  List.any_eq_true.mpr ⟨q, hq, hqn⟩
                rw [this] at hany
                cases hany
            · exact hcross q (by simp [hq]) n hn

theorem CollectNewControlSettings_fresh (w : World) (L : List UInputMappingContext)
    (S S2 : List FKeyMappingPack) (h : CollectNewControlSettings w L S = some S2) :
    ∃ N, S2 = S ++ N ∧ N.Pairwise (fun a b => a.operatorEq b = false) ∧
      ∀ q ∈ S, ∀ n ∈ N, q.operatorEq n = false := by
  induction L generalizing S with
  | nil =>
    simp only [CollectNewControlSettings, Option.some.injEq] at h
    subst h
    exact ⟨[], by simp, List.Pairwise.nil, fun q _ n hn => (by cases hn)⟩
  | cons c rest ih =>
    unfold CollectNewControlSettings at h
    cases h1 : CollectNewInContext c (w c) 0 S with
    | none => simp [h1] at h
    | some S1 =>
      simp only [h1] at h
      obtain ⟨N1, hN1, hpw1, hcross1⟩ := CollectNewInContext_fresh c (w c) 0 S S1 h1
      obtain ⟨N2, hN2, hpw2, hcross2⟩ := ih S1 h
      refine ⟨N1 ++ N2, by simp [hN2, hN1], ?_, ?_⟩
      · rw [List.pairwise_append]
        exact ⟨hpw1, hpw2, fun a ha b hb => hcross2 a (by simp [hN1, ha]) b hb⟩
      · intro q hq n hn
        rcases List.mem_append.mp hn with hn | hn
        · exact hcross1 q hq n hn
        · exact hcross2 q (by simp [hN1, hq]) n hn

/-- The result of a successful reconciliation: the valid contexts, the packs
kept from the old store, the packs added by discovery, and the live
configuration. -/
theorem Recalculate_decomp (bShipping : Bool) (all : List UInputMappingContext)
    (s s1 : Controller) (h : RecalculatePlayerMappingSettings bShipping all s = some s1) :
    ∃ L kept N, CollectContextsWithMappableKeys s.Live all = some L ∧
      kept = (if bShipping then s.StableKeyMappingPacks else []).filter
        (fun p => L.any (fun c => p.ResolvesIn s.Live c)) ∧
      s1.StableKeyMappingPacks = kept ++ N ∧ s1.Live = WriteBackAll kept s.Live ∧
      (∀ c ∈ L, Covered c (s1.Live c) 0 s1.StableKeyMappingPacks) ∧
      (∀ n ∈ N, ∃ c ∈ L, ∃ j m, (s1.Live c)[j]? = some m ∧ m.bIsPlayerMappable = true ∧
        MakePackToAdd c j m = some n) ∧
      N.Pairwise (fun a b => a.operatorEq b = false) ∧
      ∀ q ∈ kept, ∀ n ∈ N, q.operatorEq n = false := by
  unfold RecalculatePlayerMappingSettings at h
  generalize hs0 : (if (!bShipping) = true then
    ({ s with StableKeyMappingPacks := [] } : Controller) else s) = s0 at h
  have hlive0 : s0.Live = s.Live := by
    subst hs0
    cases bShipping <;> rfl
  have hpacks0 : s0.StableKeyMappingPacks =
      (if bShipping then s.StableKeyMappingPacks else []) := by
    subst hs0
    cases bShipping <;> rfl
  cases hL : CollectContextsWithMappableKeys s0.Live all with
  | none => simp [hL] at h
  | some L =>
    simp only [hL] at h
    obtain ⟨_, hLne, _⟩ := CollectContexts_spec _ _ _ hL
    cases hR : RestoreStoredKeysAndRemoveObsoleteMappings L s0 with
    | none => simp [hR] at h
    | some sR =>
      simp only [hR] at h
      have hf := Restore_filter L s0 sR hLne hR
      obtain ⟨_, _, hlive⟩ := Restore_post L s0 sR hLne hR
      cases hC : CollectNewControlSettings sR.Live L sR.StableKeyMappingPacks with
      | none => simp [hC] at h
      | some S1 =>
        simp only [hC, Option.some.injEq] at h
        subst h
        obtain ⟨hcov, N, hN, hnew⟩ := CollectNewControlSettings_post _ _ _ _ hC
        obtain ⟨N2, hN2, hpw, hcross⟩ := CollectNewControlSettings_fresh _ _ _ _ hC
        have hNN : N2 = N := List.append_cancel_left (hN2.symm.trans hN)
        subst hNN
        refine ⟨L, sR.StableKeyMappingPacks, N2, by rw [← hlive0]; exact hL, ?_, hN, ?_,
          hcov, hnew, hpw, hcross⟩
        · rw [hf, hpacks0, hlive0]
        · show sR.Live = _
          rw [hlive, hlive0]

/-! ## Completeness of discovery -/

theorem LiveKey_of_getElem? (p : FKeyMappingPack) (w : World) (c : UInputMappingContext)
    (j : Nat) (m : FEnhancedActionKeyMapping) (hc : p.MappingContext = some c)
    (hi : p.MappingIndex = (j : Int)) (hj : (w c)[j]? = some m) :
    p.LiveKey w = some m.Key := by
  unfold FKeyMappingPack.LiveKey World.GetMapping
  have hneg : ¬ ((j : Int) < 0) := by omega
  simp [hc, hi, hneg, hj]

/-- C15 (discovery completeness): after a successful reconciliation, every
player mappable entry of every supplied context has a stored pack with that
context, index, action and resolved display name whose custom key is the key
bound in the entry; the store is the kept packs of the old store followed by
the packs created by discovery; each created pack has default key and custom
key equal to the key bound in its entry; and a created pack is equal to no kept
pack and to no pack created before it. -/
theorem Discovery_complete (bShipping : Bool) (AllContexts : List UInputMappingContext)
    (s s1 : Controller)
    (h : RecalculatePlayerMappingSettings bShipping AllContexts s = some s1) :
    (∀ C ∈ AllContexts, ∀ (i : Nat) (m : FEnhancedActionKeyMapping),
      (s1.Live C)[i]? = some m → m.bIsPlayerMappable = true →
      ∃ q ∈ s1.StableKeyMappingPacks, q.MappingContext = some C ∧ q.MappingIndex = (i : Int) ∧
        q.MappingAction = m.Action ∧
        q.MappingDisplayName = FKeyMappingPack.GetMappingDisplayName m ∧
        q.CustomKey = m.Key) ∧
    ∃ kept N, s1.StableKeyMappingPacks = kept ++ N ∧
      kept.Sublist s.StableKeyMappingPacks ∧
      (∀ n ∈ N, n.DefaultKey = n.CustomKey ∧ n.LiveKey s1.Live = some n.CustomKey) ∧
      N.Pairwise (fun a b => a.operatorEq b = false) ∧
      ∀ q ∈ kept, ∀ n ∈ N, q.operatorEq n = false := by
  obtain ⟨L, kept, N, hL, hkept, hS1, hlive, hcov, hnew, hpw, hcross⟩ :=
    Recalculate_decomp bShipping AllContexts s s1 h
  constructor
  · intro C hC i m hi hm
    have hLeq := (CollectContexts_spec _ _ _ hL).1
    have hCL : C ∈ L := by
      rw [hLeq, ← CollectMappableLoop_WriteBackAll kept s.Live AllContexts, ← hlive]
      exact (mem_CollectMappableLoop_iff s1.Live AllContexts C).mpr
        ⟨hC, m, List.getElem?_mem hi, hm⟩
    obtain ⟨n, hn, hany⟩ := hcov C hCL i m hi hm
    rw [Nat.zero_add] at hn
    obtain ⟨q, hq, hqn⟩ := List.any_eq_true.mp hany
    obtain ⟨h1, h2, h3, h4, h5⟩ := (operatorEq_iff q n).mp hqn
    obtain ⟨rfl, _, _, _, _⟩ := MakePackToAdd_spec C i m n hn
    exact ⟨q, hq, h1, h5, h2, h4, h3⟩
  · refine ⟨kept, N, hS1, ?_, ?_, hpw, hcross⟩
    · rw [hkept]
      cases bShipping with
      | true => exact List.filter_sublist _
      | false => simp
    · intro n hn
      obtain ⟨c, _, j, m, hj, _, hmk⟩ := hnew n hn
      obtain ⟨rfl, _, _, _, _⟩ := MakePackToAdd_spec c j m n hmk
      exact ⟨rfl, LiveKey_of_getElem? _ s1.Live c j m rfl rfl hj⟩

/-- Witness of C15: reconciliation of the "Jump" entry from the empty store. -/
theorem Discovery_complete_witness :
    RecalculatePlayerMappingSettings true [1] ⟨[], JumpWorld KeySpace⟩ =
      some ⟨[JumpPack KeySpace KeySpace], JumpWorld KeySpace⟩ ∧
    ∃ q ∈ [JumpPack KeySpace KeySpace], q.MappingContext = some 1 ∧
      q.MappingIndex = ((0 : Nat) : Int) ∧
      q.MappingAction = (JumpMapping KeySpace).Action ∧
      q.MappingDisplayName = FKeyMappingPack.GetMappingDisplayName (JumpMapping KeySpace) ∧
      q.CustomKey = (JumpMapping KeySpace).Key :=
  ⟨rfl, (Discovery_complete true [1] ⟨[], JumpWorld KeySpace⟩
    ⟨[JumpPack KeySpace KeySpace], JumpWorld KeySpace⟩ rfl).1 1 (by simp) 0
    (JumpMapping KeySpace) rfl rfl⟩

/-! ## The reorder scenario -/

theorem getElem?_WriteBack_other (q : FKeyMappingPack) (w : World) (C : UInputMappingContext)
    (j : Nat) (h : ¬ (q.MappingContext = some C ∧ q.MappingIndex.toNat = j)) :
    ((q.WriteBack w) C)[j]? = (w C)[j]? := by
  unfold FKeyMappingPack.WriteBack
  cases hq : q.MappingContext with
  | none => rfl
  | some c =>
    simp only [getElem?_SetKey]
    have hne : ¬ (C = c ∧ j = q.MappingIndex.toNat) := by
      rintro ⟨h1, h2⟩
      exact h ⟨by rw [hq, h1], h2.symm⟩
    simp only [hne, if_false]
    cases (w C)[j]? <;> rfl

theorem getElem?_WriteBackAll_other (qs : List FKeyMappingPack) (w : World)
    (C : UInputMappingContext) (j : Nat)
    (h : ∀ q ∈ qs, ¬ (q.MappingContext = some C ∧ q.MappingIndex.toNat = j)) :
    ((WriteBackAll qs w) C)[j]? = (w C)[j]? := by
  induction qs generalizing w with
  | nil => rfl
  | cons q qs ih =>
    rw [WriteBackAll_cons, ih _ (fun r hr => h r (List.mem_cons_of_mem _ hr)),
      getElem?_WriteBack_other q w C j (h q (List.mem_cons_self _ _))]

theorem ResolvesIn_fields (a b : FKeyMappingPack) (w : World) (c : UInputMappingContext)
    (h1 : a.MappingContext = b.MappingContext) (h2 : a.MappingAction = b.MappingAction)
    (h4 : a.MappingDisplayName = b.MappingDisplayName) (h5 : a.MappingIndex = b.MappingIndex) :
    a.ResolvesIn w c = b.ResolvesIn w c := by
  unfold FKeyMappingPack.ResolvesIn
  rw [h1, h2, h4, h5]

/-- C13 as amended (reorder scenario): the store holds a pack `p` for an action
at position 0 of context `C`; in the reloaded context the action, with the same
resolved display name and player mappable, is at position 2, position 0 no
longer holds an entry with that action and name, and the store that
reconciliation starts from (the stored packs in a shipping build, no pack in a
build that clears the store) holds no pack for that action and name at position
2.  After a successful reconciliation the store holds no pack for that action
and name at position 0, and holds a pack for it at position 2 whose default key
and custom key are both the key bound at position 2, which reconciliation
leaves as it was. -/
theorem Reorder_scenario (bShipping : Bool) (AllContexts : List UInputMappingContext)
    (s s1 : Controller) (p : FKeyMappingPack) (C : UInputMappingContext)
    (m2 : FEnhancedActionKeyMapping)
    (_hp : p ∈ s.StableKeyMappingPacks) (hpc : p.MappingContext = some C)
    (hpi : p.MappingIndex = 0) (hC : C ∈ AllContexts)
    (h2 : (s.Live C)[2]? = some m2) (hm2 : m2.bIsPlayerMappable = true)
    (ha : m2.Action = p.MappingAction)
    (hn : FKeyMappingPack.GetMappingDisplayName m2 = p.MappingDisplayName)
    (h0 : p.ResolvesIn s.Live C = false)
    (hnone : ∀ q ∈ (if bShipping then s.StableKeyMappingPacks else []),
      ¬ (q.MappingContext = some C ∧ q.MappingIndex = 2 ∧
        q.MappingAction = p.MappingAction ∧ q.MappingDisplayName = p.MappingDisplayName))
    (h : RecalculatePlayerMappingSettings bShipping AllContexts s = some s1) :
    (∀ q ∈ s1.StableKeyMappingPacks,
      ¬ (q.MappingContext = some C ∧ q.MappingIndex = 0 ∧
        q.MappingAction = p.MappingAction ∧ q.MappingDisplayName = p.MappingDisplayName)) ∧
    (s1.Live C)[2]? = some m2 ∧
    ∃ q ∈ s1.StableKeyMappingPacks, q.MappingContext = some C ∧ q.MappingIndex = 2 ∧
      q.MappingAction = p.MappingAction ∧ q.MappingDisplayName = p.MappingDisplayName ∧
      q.DefaultKey = m2.Key ∧ q.CustomKey = m2.Key := by
  obtain ⟨L, kept, N, hL, hkept, hS1, hlive, hcov, hnew, _, _⟩ :=
    Recalculate_decomp bShipping AllContexts s s1 h
  have hkept_mem : ∀ q ∈ kept, q ∈ (if bShipping then s.StableKeyMappingPacks else []) := by
    intro q hq
    rw [hkept] at hq
    exact (List.mem_filter.mp hq).1
  have hlive2 : (s1.Live C)[2]? = some m2 := by
    rw [hlive, getElem?_WriteBackAll_other kept s.Live C 2, h2]
    rintro q hq ⟨hqc, hqi⟩
    rw [hkept] at hq
    obtain ⟨c, _, hres⟩ := List.any_eq_true.mp (List.mem_filter.mp hq).2
    obtain ⟨hqc2, hq0, _, m, hm, _, hma, hmn⟩ := ResolvesIn_spec q s.Live c hres
    have hcC : c = C := by
      rw [hqc] at hqc2
      exact (Option.some.inj hqc2).symm
    subst hcC
    rw [hqi, h2] at hm
    have hmm : m2 = m := Option.some.inj hm
    subst hmm
    apply hnone q (hkept_mem q (by rw [hkept]; exact hq))
    exact ⟨hqc, by omega, hma.symm.trans ha, hmn.symm.trans hn⟩
  refine ⟨?_, hlive2, ?_⟩
  · rintro q hq ⟨hqc, hqi, hqa, hqn⟩
    obtain ⟨c, _, hres⟩ := Recalculate_packs_resolve bShipping AllContexts s s1 h q hq
    have hcC : c = C := by
      have := (ResolvesIn_spec q s.Live c hres).1
      rw [hqc] at this
      exact (Option.some.inj this).symm
    subst hcC
    rw [ResolvesIn_fields q p s.Live c (hqc.trans hpc.symm) hqa hqn (hqi.trans hpi.symm), h0]
      at hres
    cases hres
  · have hLeq := (CollectContexts_spec _ _ _ hL).1
    have hCL : C ∈ L := by
      rw [hLeq]
      exact (mem_CollectMappableLoop_iff s.Live AllContexts C).mpr
        ⟨hC, m2, List.getElem?_mem h2, hm2⟩
    obtain ⟨n, hmk, hany⟩ := hcov C hCL 2 m2 hlive2 hm2
    rw [Nat.zero_add] at hmk
    obtain ⟨q, hq, hqn⟩ := List.any_eq_true.mp hany
    obtain ⟨e1, e2, e3, e4, e5⟩ := (operatorEq_iff q n).mp hqn
    obtain ⟨rfl, _, _, _, _⟩ := MakePackToAdd_spec C 2 m2 n hmk
    simp only at e1 e2 e3 e4 e5
    have hidx : q.MappingIndex = 2 := by rw [e5]; rfl
    refine ⟨q, hq, e1, hidx, e2.trans ha, e4.trans hn, ?_, e3⟩
    rw [hS1] at hq
    rcases List.mem_append.mp hq with hq | hq
    · exact absurd ⟨e1, hidx, e2.trans ha, e4.trans hn⟩ (hnone q (hkept_mem q hq))
    · obtain ⟨c2, _, j2, m3, _, _, hmk2⟩ := hnew q hq
      obtain ⟨hqeq, _, _, _, _⟩ := MakePackToAdd_spec c2 j2 m3 q hmk2
      have hdc : q.DefaultKey = q.CustomKey := by rw [hqeq]
      rw [hdc, e3]

/-- Witness of C13 as amended: the stored "Jump" pack at position 0 has custom key `E`; after
the reload "Crouch" is at position 0 and "Jump", bound to `SpaceBar`, at position
2.  Reconciliation leaves the pack of "Crouch" and a new pack of "Jump" at
position 2 with default and custom key `SpaceBar`. -/
theorem Reorder_scenario_witness :
    RecalculatePlayerMappingSettings true [1] ⟨[JumpPack KeySpace KeyE], ReorderWorld⟩ =
      some ⟨[CrouchPack, MovedJumpPack], ReorderWorld⟩ ∧
    (∀ q ∈ [CrouchPack, MovedJumpPack],
      ¬ (q.MappingContext = some 1 ∧ q.MappingIndex = 0 ∧
        q.MappingAction = (JumpPack KeySpace KeyE).MappingAction ∧
        q.MappingDisplayName = (JumpPack KeySpace KeyE).MappingDisplayName)) ∧
    (ReorderWorld 1)[2]? = some (JumpMapping KeySpace) ∧
    ∃ q ∈ [CrouchPack, MovedJumpPack], q.MappingContext = some 1 ∧ q.MappingIndex = 2 ∧
      q.MappingAction = (JumpPack KeySpace KeyE).MappingAction ∧
      q.MappingDisplayName = (JumpPack KeySpace KeyE).MappingDisplayName ∧
      q.DefaultKey = (JumpMapping KeySpace).Key ∧ q.CustomKey = (JumpMapping KeySpace).Key :=
  ⟨rfl, Reorder_scenario true [1] ⟨[JumpPack KeySpace KeyE], ReorderWorld⟩
    ⟨[CrouchPack, MovedJumpPack], ReorderWorld⟩ (JumpPack KeySpace KeyE) 1
    (JumpMapping KeySpace) (by simp) rfl rfl (by simp) rfl rfl rfl rfl (by decide)
    (by decide) rfl⟩

/-- C13 as stated fails in a shipping build.  The store is reached from the empty
store: reconciliation of a context with "Jump" at positions 0 and 2, then a remap
of the pack at position 0 to `E` and of the pack at position 2 to `F`.  The
context is reloaded: "Jump", same name, bound to `SpaceBar`, is now at position
2 only, and position 0 holds "Crouch".  The store holds a pack for "Jump" at
position 0, which no longer resolves.  After reconciliation the only pack for
"Jump" at position 2 is the old one: its custom key `F` was written into the
entry, and its default key is `SpaceBar`, not the key `F` bound at position 2. -/
theorem Reorder_scenario_counterexample :
    Reachable true
      ⟨[JumpPack KeySpace KeyE, { MovedJumpPack with CustomKey := KeyF }], ReorderWorld⟩ ∧
    JumpPack KeySpace KeyE ∈
      [JumpPack KeySpace KeyE, { MovedJumpPack with CustomKey := KeyF }] ∧
    (JumpPack KeySpace KeyE).MappingContext = some 1 ∧
    (JumpPack KeySpace KeyE).MappingIndex = 0 ∧
    (ReorderWorld 1)[2]? = some (JumpMapping KeySpace) ∧
    (JumpMapping KeySpace).bIsPlayerMappable = true ∧
    (JumpMapping KeySpace).Action = (JumpPack KeySpace KeyE).MappingAction ∧
    FKeyMappingPack.GetMappingDisplayName (JumpMapping KeySpace) =
      (JumpPack KeySpace KeyE).MappingDisplayName ∧
    (JumpPack KeySpace KeyE).ResolvesIn ReorderWorld 1 = false ∧
    (RecalculatePlayerMappingSettings true [1]
        ⟨[JumpPack KeySpace KeyE, { MovedJumpPack with CustomKey := KeyF }], ReorderWorld⟩).map
        (fun r => (r.StableKeyMappingPacks, (r.Live 1)[2]?)) =
      some ([{ MovedJumpPack with CustomKey := KeyF }, CrouchPack], some (JumpMapping KeyF)) ∧
    FKeyMappingPack.DefaultKey { MovedJumpPack with CustomKey := KeyF } = KeySpace ∧
    KeySpace ≠ KeyF := by
  have hA : Reachable true ⟨[JumpPack KeySpace KeySpace, MovedJumpPack], DoubleJumpWorld⟩ :=
    Reachable.reconcile ⟨[], DoubleJumpWorld⟩ _ [1] (Reachable.start _) rfl
  have hB : Reachable true
      ⟨[JumpPack KeySpace KeyE, MovedJumpPack], DoubleJumpWorld.SetKey 1 0 KeyE⟩ :=
    Reachable.remap _ _ (JumpPack KeySpace KeySpace) (JumpPack KeySpace KeyE) KeyE hA rfl
  have hC : Reachable true
      ⟨[JumpPack KeySpace KeyE, { MovedJumpPack with CustomKey := KeyF }],
        (DoubleJumpWorld.SetKey 1 0 KeyE).SetKey 1 2 KeyF⟩ :=
    Reachable.remap _ _ MovedJumpPack { MovedJumpPack with CustomKey := KeyF } KeyF hB rfl
  exact ⟨Reachable.reload _ ReorderWorld hC, by simp, rfl, rfl, rfl, rfl, rfl, rfl,
    by decide, by decide, rfl, by decide⟩

/-! ## A remap whose store lookup misses -/

/-- C16 (store miss is tolerated by remap): for a handle whose position is within
its context, `RemapControlKey` does not fail, sets the custom key of the handle
to `K` and binds the live entry at its position to `K`; when no stored pack is
equal to the handle the store is unchanged, and when some are, exactly the first
of them gets custom key `K` and every other stored pack is unchanged. -/
theorem Remap_store_miss (s : Controller) (p : FKeyMappingPack) (c : UInputMappingContext)
    (K : FKey) (hc : p.MappingContext = some c) (h0 : 0 ≤ p.MappingIndex)
    (hlt : p.MappingIndex < ((s.Live c).length : Int)) :
    ∃ s2 p2, RemapControlKey s p K = some (s2, p2) ∧
      p2 = { p with CustomKey := K } ∧ p2.LiveKey s2.Live = some K ∧
      ((∀ q ∈ s.StableKeyMappingPacks, q.operatorEq p = false) →
        s2.StableKeyMappingPacks = s.StableKeyMappingPacks) ∧
      (∀ A q B, s.StableKeyMappingPacks = A ++ q :: B →
        (∀ a ∈ A, a.operatorEq p = false) → q.operatorEq p = true →
        s2.StableKeyMappingPacks = A ++ { q with CustomKey := K } :: B) := by
  refine ⟨_, _, RemapControlKey_some s p c K hc h0 hlt, rfl, ?_, ?_, ?_⟩
  · exact LiveKey_SetKey_self { p with CustomKey := K } s.Live c K hc h0 hlt
  · intro hnone
    exact UpdateFirstEqual_of_none p K _ hnone
  · intro A q B hdec hA hq
    show UpdateFirstEqual p K s.StableKeyMappingPacks = _
    rw [hdec]
    exact UpdateFirstEqual_first p K A B q hA hq

/-- Witness of C16: the store holds only the stale pack, which is not equal to the
handle; the remap to `E` succeeds and leaves the store as it was. -/
theorem Remap_store_miss_witness :
    ∃ s2 p2, RemapControlKey ⟨[StalePack], JumpWorld KeySpace⟩ (JumpPack KeySpace KeySpace) KeyE
        = some (s2, p2) ∧
      p2 = { JumpPack KeySpace KeySpace with CustomKey := KeyE } ∧
      p2.LiveKey s2.Live = some KeyE ∧
      ((∀ q ∈ [StalePack], q.operatorEq (JumpPack KeySpace KeySpace) = false) →
        s2.StableKeyMappingPacks = [StalePack]) ∧
      (∀ A q B, [StalePack] = A ++ q :: B →
        (∀ a ∈ A, a.operatorEq (JumpPack KeySpace KeySpace) = false) →
        q.operatorEq (JumpPack KeySpace KeySpace) = true →
        s2.StableKeyMappingPacks = A ++ { q with CustomKey := KeyE } :: B) :=
  Remap_store_miss ⟨[StalePack], JumpWorld KeySpace⟩ (JumpPack KeySpace KeySpace) 1 KeyE rfl
    (by decide) (by decide)

/-! ## Unpacking a pack -/

/-- C17 as amended (unpack): `UnpackRebindPack` raises exactly when the custom key
is not valid or the display name is empty or whitespace; otherwise it returns
the display name and the custom key.  The function only reads its argument, so
neither the pack, the store nor the live configuration changes. -/
theorem Unpack_contract (p : FKeyMappingPack) :
    (UnpackRebindPack p = none ↔
      p.CustomKey.IsValid = false ∨ p.MappingDisplayName.IsEmptyOrWhitespace = true) ∧
    (UnpackRebindPack p ≠ none →
      UnpackRebindPack p = some (p.MappingDisplayName, p.CustomKey)) := by
  unfold UnpackRebindPack
  cases hv : p.CustomKey.IsValid <;> cases hw : p.MappingDisplayName.IsEmptyOrWhitespace <;>
    simp

/-- C17 as stated fails: the display name of the pack is a single space, so it is
not empty, and its custom key is valid, yet `UnpackRebindPack` raises. -/
theorem Unpack_contract_counterexample :
    BlankPack.CustomKey.IsValid = true ∧ BlankPack.MappingDisplayName.IsEmpty = false ∧
    UnpackRebindPack BlankPack = none := by
  decide

/-! ## Resolution of the display name -/

theorem FirstCustomDisplayName_eq (mods : List UInputModifier) :
    FKeyMappingPack.FirstCustomDisplayName mods =
      (mods.filterMap (fun md =>
        match md with
        | UInputModifier.CustomData n => some n
        | UInputModifier.Other => none)).find? (fun n => !n.IsEmptyOrWhitespace) := by
  induction mods with
  | nil => rfl
  | cons md rest ih =>
    cases md with
    | Other => simpa [FKeyMappingPack.FirstCustomDisplayName] using ih
    | CustomData n =>
      cases hn : n.IsEmptyOrWhitespace with
      | true => simp [FKeyMappingPack.FirstCustomDisplayName, hn, ih, List.find?]
      | false => simp [FKeyMappingPack.FirstCustomDisplayName, hn, List.find?]

/-- C18 as amended (display-name resolution): for a player mappable entry
`GetMappingDisplayName` returns the name of the first display-name modifier
whose name is not empty or whitespace, and the mapping name of the entry when no
modifier has such a name; for an entry that is not player mappable it returns
the empty text. -/
theorem Display_name_resolution (m : FEnhancedActionKeyMapping) :
    FKeyMappingPack.GetMappingDisplayName m = ResolveDisplayName m := by
  unfold FKeyMappingPack.GetMappingDisplayName ResolveDisplayName
  rw [FirstCustomDisplayName_eq]
  cases m.bIsPlayerMappable <;> simp

/-- C18 as stated fails: the first modifier with a non-empty name supplies a single
space, but the resolved name is "Leap", the name of the second modifier; and
with the first modifier alone the resolved name is the mapping name "Jump". -/
theorem Display_name_resolution_counterexample :
    BlankModifierMapping.bIsPlayerMappable = true ∧
    BlankModifierMapping.Modifiers =
      [UInputModifier.CustomData ⟨" "⟩, UInputModifier.CustomData ⟨"Leap"⟩] ∧
    (⟨" "⟩ : FText).IsEmpty = false ∧
    FKeyMappingPack.GetMappingDisplayName BlankModifierMapping = ⟨"Leap"⟩ ∧
    FKeyMappingPack.GetMappingDisplayName
      { BlankModifierMapping with Modifiers := [UInputModifier.CustomData ⟨" "⟩] } = ⟨"Jump"⟩ := by
  decide

/-! ## One pack per live slot -/

theorem UpdateFirstEqual_slots (p : FKeyMappingPack) (K : FKey) (S : List FKeyMappingPack) :
    (UpdateFirstEqual p K S).map FKeyMappingPack.Slot = S.map FKeyMappingPack.Slot := by
  induction S with
  | nil => rfl
  | cons q rest ih =>
    unfold UpdateFirstEqual
    split
    · simp [ih]
    · simp [FKeyMappingPack.Slot]

theorem SlotsDistinct_remap (s s2 : Controller) (p p2 : FKeyMappingPack) (K : FKey)
    (hd : SlotsDistinct s.StableKeyMappingPacks)
    (h : RemapControlKey s p K = some (s2, p2)) : SlotsDistinct s2.StableKeyMappingPacks := by
  unfold SlotsDistinct
  rw [RemapControlKey_packs s s2 p p2 K h, UpdateFirstEqual_slots]
  exact hd

theorem SlotsDistinct_notEqual (S : List FKeyMappingPack) (hd : SlotsDistinct S) :
    S.Pairwise (fun a b => a.operatorEq b = false) := by
  unfold SlotsDistinct List.Nodup at hd
  rw [List.pairwise_map] at hd
  refine hd.imp ?_
  intro a b hne
  cases hab : a.operatorEq b with
  | false => rfl
  | true =>
    obtain ⟨h1, _, _, _, h5⟩ := (operatorEq_iff a b).mp hab
    exact absurd (by simp [FKeyMappingPack.Slot, h1, h5]) hne

/-- After the write-backs of packs with distinct slots that all resolve, every
one of them has its custom key bound in its live entry. -/
theorem LiveKey_WriteBackAll_distinct (kept : List FKeyMappingPack) (w : World)
    (hd : SlotsDistinct kept)
    (hres : ∀ q ∈ kept, ∃ c, q.ResolvesIn w c = true) :
    ∀ q ∈ kept, q.LiveKey (WriteBackAll kept w) = some q.CustomKey := by
  intro q hq
  obtain ⟨A, B, hAB⟩ := List.append_of_mem hq
  obtain ⟨c, hc⟩ := hres q hq
  obtain ⟨hctx, h0, hlt, _⟩ := ResolvesIn_spec q w c hc
  have hB : ∀ r ∈ B, ¬ r.SameSlot q := by
    intro r hr hsame
    unfold SlotsDistinct List.Nodup at hd
    rw [hAB, List.pairwise_map, List.pairwise_append] at hd
    have hqr := (List.pairwise_cons.mp hd.2.1).1 r hr
    obtain ⟨c2, hc2⟩ := hres r (by rw [hAB]; simp [hr])
    have hr0 := (ResolvesIn_spec r w c2 hc2).2.1
    apply hqr
    obtain ⟨e1, e2⟩ := hsame
    have : r.MappingIndex = q.MappingIndex := by omega
    simp [FKeyMappingPack.Slot, e1, this]
  rw [hAB, WriteBackAll_append, WriteBackAll_cons, LiveKey_WriteBackAll_other _ _ _ hB]
  apply LiveKey_WriteBack_self q _ c hctx h0
  rw [WriteBackAll_length]
  exact hlt

theorem LiveKey_eq_some (p : FKeyMappingPack) (w : World) (c : UInputMappingContext)
    (j : Nat) (m : FEnhancedActionKeyMapping) (k : FKey) (hc : p.MappingContext = some c)
    (hi : p.MappingIndex = (j : Int)) (hj : (w c)[j]? = some m) (h : p.LiveKey w = some k) :
    m.Key = k := by
  rw [LiveKey_of_getElem? p w c j m hc hi hj] at h
  exact Option.some.inj h

/-- Reconciliation keeps the slots of the store distinct. -/
theorem SlotsDistinct_reconcile (bShipping : Bool) (all : List UInputMappingContext)
    (s s1 : Controller) (hd : SlotsDistinct s.StableKeyMappingPacks)
    (h : RecalculatePlayerMappingSettings bShipping all s = some s1) :
    SlotsDistinct s1.StableKeyMappingPacks := by
  obtain ⟨L, kept, N, _, hkept, hS1, hlive, _, hnew, hpw, hcross⟩ :=
    Recalculate_decomp bShipping all s s1 h
  have hsub : kept.Sublist s.StableKeyMappingPacks := by
    rw [hkept]
    cases bShipping with
    | true => exact List.filter_sublist _
    | false => simp
  have hdk : SlotsDistinct kept := List.Nodup.sublist (List.Sublist.map _ hsub) hd
  have hresk : ∀ q ∈ kept, ∃ c, q.ResolvesIn s.Live c = true := by
    intro q hq
    rw [hkept] at hq
    obtain ⟨c, _, hres⟩ := List.any_eq_true.mp (List.mem_filter.mp hq).2
    exact ⟨c, hres⟩
  have hlk := LiveKey_WriteBackAll_distinct kept s.Live hdk hresk
  unfold SlotsDistinct
  rw [hS1, List.map_append, List.nodup_append]
  refine ⟨hdk, ?_, ?_⟩
  · -- the new packs
    have hN : N.Nodup := by
      refine hpw.imp ?_
      intro a b hab e
      rw [e, operatorEq_refl] at hab
      cases hab
    refine List.Nodup.map_on ?_ hN
    intro x hx y hy hxy
    obtain ⟨c1, _, j1, m1, hj1, _, hmk1⟩ := hnew x hx
    obtain ⟨c2, _, j2, m2, hj2, _, hmk2⟩ := hnew y hy
    obtain ⟨ex, _, _, _, _⟩ := MakePackToAdd_spec c1 j1 m1 x hmk1
    obtain ⟨ey, _, _, _, _⟩ := MakePackToAdd_spec c2 j2 m2 y hmk2
    have hc : c1 = c2 := by
      have := congrArg Prod.fst hxy
      simp only [FKeyMappingPack.Slot, ex, ey] at this
      exact Option.some.inj this
    have hjj : j1 = j2 := by
      have := congrArg Prod.snd hxy
      simp only [FKeyMappingPack.Slot, ex, ey] at this
      exact Int.ofNat.inj this
    subst hc
    subst hjj
    rw [hj1] at hj2
    have hm : m1 = m2 := Option.some.inj hj2
    subst hm
    rw [hmk1] at hmk2
    exact Option.some.inj hmk2
  · -- a kept pack and a new pack
    intro sl hk hn
    obtain ⟨q, hq, hqs⟩ := List.mem_map.mp hk
    obtain ⟨n, hnN, hns⟩ := List.mem_map.mp hn
    obtain ⟨c, _, j, m, hj, _, hmk⟩ := hnew n hnN
    obtain ⟨en, _, _, _, _⟩ := MakePackToAdd_spec c j m n hmk
    have hslot : q.Slot = n.Slot := hqs.trans hns.symm
    have hqc : q.MappingContext = some c := by
      have := congrArg Prod.fst hslot
      simpa [FKeyMappingPack.Slot, en] using this
    have hqi : q.MappingIndex = (j : Int) := by
      have := congrArg Prod.snd hslot
      simpa [FKeyMappingPack.Slot, en] using this
    -- the kept pack resolves to the entry the new pack was made from
    obtain ⟨c0, hres0⟩ := hresk q hq
    have hres1 : q.ResolvesIn s1.Live c0 = true := by
      rw [hlive, ResolvesIn_WriteBackAll]; exact hres0
    obtain ⟨hqc0, _, _, m0, hm0, _, hma, hmn⟩ := ResolvesIn_spec q s1.Live c0 hres1
    have hcc : c0 = c := by
      rw [hqc] at hqc0
      exact (Option.some.inj hqc0).symm
    subst hcc
    have hjn : q.MappingIndex.toNat = j := by omega
    rw [hjn, hj] at hm0
    have hmm : m = m0 := Option.some.inj hm0
    subst hmm
    have hkey : m.Key = q.CustomKey :=
      LiveKey_eq_some q s1.Live c0 j m q.CustomKey hqc hqi hj (by rw [hlive]; exact hlk q hq)
    have heq : q.operatorEq n = true := by
      rw [operatorEq_iff, en]
      exact ⟨hqc, hma.symm, hkey.symm, hmn.symm, hqi⟩
    rw [hcross q hq n hnN] at heq
    cases heq

/-- Starting from an empty store, no two stored packs share a slot. -/
theorem Reachable_slotsDistinct (bShipping : Bool) (s : Controller)
    (h : Reachable bShipping s) : SlotsDistinct s.StableKeyMappingPacks := by
  induction h with
  | start w => exact List.nodup_nil
  | reload s w _ ih => exact ih
  | reconcile s s2 all _ hr ih => exact SlotsDistinct_reconcile bShipping all s s2 ih hr
  | remap s s2 p p2 K _ hr ih => exact SlotsDistinct_remap s s2 p p2 K ih hr
  | restore s s2 p p2 _ hr ih => exact SlotsDistinct_remap s s2 p p2 p.DefaultKey ih hr

/-- After a successful reconciliation every player mappable entry of a supplied
context has a stored pack at its slot. -/
theorem Recalculate_covers (bShipping : Bool) (all : List UInputMappingContext)
    (s s1 : Controller) (h : RecalculatePlayerMappingSettings bShipping all s = some s1)
    (C : UInputMappingContext) (hC : C ∈ all) (i : Nat) (m : FEnhancedActionKeyMapping)
    (hi : (s1.Live C)[i]? = some m) (hm : m.bIsPlayerMappable = true) :
    ∃ q ∈ s1.StableKeyMappingPacks, q.Slot = (some C, (i : Int)) := by
  obtain ⟨L, kept, N, hL, _, _, hlive, hcov, _, _, _⟩ := Recalculate_decomp bShipping all s s1 h
  have hLeq := (CollectContexts_spec _ _ _ hL).1
  have hCL : C ∈ L := by
    rw [hLeq, ← CollectMappableLoop_WriteBackAll kept s.Live all, ← hlive]
    exact (mem_CollectMappableLoop_iff s1.Live all C).mpr ⟨hC, m, List.getElem?_mem hi, hm⟩
  obtain ⟨n, hn, hany⟩ := hcov C hCL i m hi hm
  rw [Nat.zero_add] at hn
  obtain ⟨q, hq, hqn⟩ := List.any_eq_true.mp hany
  obtain ⟨h1, _, _, _, h5⟩ := (operatorEq_iff q n).mp hqn
  obtain ⟨rfl, _, _, _, _⟩ := MakePackToAdd_spec C i m n hn
  exact ⟨q, hq, by simp [FKeyMappingPack.Slot, h1, h5]⟩

theorem Recalculate_packs_resolve_after (bShipping : Bool) (all : List UInputMappingContext)
    (s s1 : Controller) (h : RecalculatePlayerMappingSettings bShipping all s = some s1) :
    ∀ q ∈ s1.StableKeyMappingPacks, ∃ c ∈ all, q.ResolvesIn s1.Live c = true := by
  intro q hq
  obtain ⟨c, hc, hres⟩ := Recalculate_packs_resolve bShipping all s s1 h q hq
  obtain ⟨_, kept, _, _, _, _, hlive, _, _, _, _⟩ := Recalculate_decomp bShipping all s s1 h
  exact ⟨c, hc, by rw [hlive, ResolvesIn_WriteBackAll]; exact hres⟩

theorem countP_slot_eq_one (S : List FKeyMappingPack) (hd : SlotsDistinct S)
    (q : FKeyMappingPack) (hq : q ∈ S) :
    S.countP (fun r => decide (r.Slot = q.Slot)) = 1 := by
  induction S with
  | nil => cases hq
  | cons x rest ih =>
    unfold SlotsDistinct at hd
    rw [List.map_cons, List.nodup_cons] at hd
    obtain ⟨hx, hrest⟩ := hd
    rcases List.mem_cons.mp hq with rfl | hq
    · have hzero : rest.countP (fun r => decide (r.Slot = q.Slot)) = 0 := by
        rw [List.countP_eq_zero]
        intro r hr
        simp only [decide_eq_true_eq]
        intro e
        exact hx (by rw [← e]; exact List.mem_map_of_mem _ hr)
      rw [List.countP_cons, hzero]
      simp
    · have hne : x.Slot ≠ q.Slot := by
        intro e
        exact hx (by rw [e]; exact List.mem_map_of_mem _ hq)
      rw [List.countP_cons, ih hrest hq]
      simp [hne]

/-- C19 (one pack per live slot): when no two stored packs share a context and
position, the same holds after a successful reconciliation, remap or restore of
the default key; hence in every state reached from the empty store no two stored
packs share a slot and no two stored packs are equal, and after a successful
reconciliation of such a state every player mappable entry of a supplied context
has exactly one stored pack at its slot, and every stored pack resolves to a
player mappable entry of a supplied context. -/
theorem One_pack_per_slot (bShipping : Bool) (AllContexts : List UInputMappingContext)
    (s : Controller) :
    (SlotsDistinct s.StableKeyMappingPacks →
      (∀ s1, RecalculatePlayerMappingSettings bShipping AllContexts s = some s1 →
        SlotsDistinct s1.StableKeyMappingPacks) ∧
      (∀ p K s2 p2, RemapControlKey s p K = some (s2, p2) →
        SlotsDistinct s2.StableKeyMappingPacks) ∧
      (∀ p s2 p2, RestoreDefaultKey s p = some (s2, p2) →
        SlotsDistinct s2.StableKeyMappingPacks)) ∧
    (Reachable bShipping s →
      SlotsDistinct s.StableKeyMappingPacks ∧
      s.StableKeyMappingPacks.Pairwise (fun a b => a.operatorEq b = false) ∧
      ∀ s1, RecalculatePlayerMappingSettings bShipping AllContexts s = some s1 →
        (∀ C ∈ AllContexts, ∀ (i : Nat) (m : FEnhancedActionKeyMapping),
          (s1.Live C)[i]? = some m → m.bIsPlayerMappable = true →
          s1.StableKeyMappingPacks.countP
            (fun q => decide (q.Slot = (some C, (i : Int)))) = 1) ∧
        (∀ q ∈ s1.StableKeyMappingPacks, ∃ C ∈ AllContexts, q.ResolvesIn s1.Live C = true)) := by
  constructor
  · intro hd
    exact ⟨fun s1 h => SlotsDistinct_reconcile bShipping AllContexts s s1 hd h,
      fun p K s2 p2 h => SlotsDistinct_remap s s2 p p2 K hd h,
      fun p s2 p2 h => SlotsDistinct_remap s s2 p p2 p.DefaultKey hd h⟩
  · intro hr
    have hd := Reachable_slotsDistinct bShipping s hr
    refine ⟨hd, SlotsDistinct_notEqual _ hd, ?_⟩
    intro s1 h
    have hd1 := SlotsDistinct_reconcile bShipping AllContexts s s1 hd h
    refine ⟨?_, Recalculate_packs_resolve_after bShipping AllContexts s s1 h⟩
    intro C hC i m hi hm
    obtain ⟨q, hq, hqs⟩ := Recalculate_covers bShipping AllContexts s s1 h C hC i m hi hm
    rw [← hqs]
    exact countP_slot_eq_one _ hd1 q hq

/-- Witness of C19: the store reached from the empty store by one reconciliation
of the "Jump" entry is reconciled again; the slot of the entry has exactly one
pack. -/
theorem One_pack_per_slot_witness :
    Reachable true ⟨[JumpPack KeySpace KeySpace], JumpWorld KeySpace⟩ ∧
    RecalculatePlayerMappingSettings true [1]
        ⟨[JumpPack KeySpace KeySpace], JumpWorld KeySpace⟩ =
      some ⟨[JumpPack KeySpace KeySpace], (JumpWorld KeySpace).SetKey 1 0 KeySpace⟩ ∧
    [JumpPack KeySpace KeySpace].countP
      (fun q => decide (q.Slot = (some 1, ((0 : Nat) : Int)))) = 1 :=
  have hr : Reachable true ⟨[JumpPack KeySpace KeySpace], JumpWorld KeySpace⟩ :=
    Reachable.reconcile ⟨[], JumpWorld KeySpace⟩ _ [1] (Reachable.start _) rfl
  ⟨hr, rfl,
    (((One_pack_per_slot true [1] ⟨[JumpPack KeySpace KeySpace], JumpWorld KeySpace⟩).2 hr).2.2
      ⟨[JumpPack KeySpace KeySpace], (JumpWorld KeySpace).SetKey 1 0 KeySpace⟩ rfl).1
      1 (by simp) 0 (JumpMapping KeySpace) (by decide) rfl⟩

/-! ## Reconciliation and remap write keys only -/

theorem WriteBack_shape (q : FKeyMappingPack) (w : World) (C : UInputMappingContext) (j : Nat)
    (m : FEnhancedActionKeyMapping) (k0 : FKey)
    (h : (w C)[j]? = some { m with Key := k0 }) :
    ∃ k, ((q.WriteBack w) C)[j]? = some { m with Key := k } := by
  unfold FKeyMappingPack.WriteBack
  cases hq : q.MappingContext with
  | none => exact ⟨k0, h⟩
  | some c =>
    simp only [getElem?_SetKey, h, Option.map_some']
    by_cases hc : C = c ∧ j = q.MappingIndex.toNat
    · exact ⟨q.CustomKey, by simp [hc]⟩
    · exact ⟨k0, by simp [hc]⟩

theorem WriteBackAll_shape (qs : List FKeyMappingPack) (w : World) (C : UInputMappingContext)
    (j : Nat) (m : FEnhancedActionKeyMapping) (k0 : FKey)
    (h : (w C)[j]? = some { m with Key := k0 }) :
    ∃ k, ((WriteBackAll qs w) C)[j]? = some { m with Key := k } := by
  induction qs generalizing w k0 with
  | nil => exact ⟨k0, h⟩
  | cons q qs ih =>
    obtain ⟨k1, h1⟩ := WriteBack_shape q w C j m k0 h
    rw [WriteBackAll_cons]
    exact ih (q.WriteBack w) k1 h1

theorem RemapControlKey_live (s s2 : Controller) (p p2 : FKeyMappingPack) (K : FKey)
    (h : RemapControlKey s p K = some (s2, p2)) :
    ∃ c, p.MappingContext = some c ∧ 0 ≤ p.MappingIndex ∧
      p.MappingIndex < ((s.Live c).length : Int) ∧
      ∀ (c2 : UInputMappingContext) (j : Nat),
        (s2.Live c2)[j]? = ((s.Live c2)[j]?).map
          (fun m => if c2 = c ∧ j = p.MappingIndex.toNat then { m with Key := K } else m) := by
  unfold RemapControlKey at h
  cases hu : UpdateKeyInContextByIndex s.Live p.MappingContext p.MappingIndex K with
  | none => simp [hu] at h
  | some w =>
    simp only [hu, UpdateCustomKeyInPackAndSettings, Option.some.injEq, Prod.mk.injEq] at h
    obtain ⟨c, hc, h0, hlt, hw⟩ := UpdateKeyInContextByIndex_inv _ _ _ _ _ hu
    refine ⟨c, hc, h0, hlt, ?_⟩
    intro c2 j
    rw [← h.1, hw]
    exact getElem?_SetKey s.Live c c2 p.MappingIndex.toNat j K

/-- A pack resolves in a valid context exactly when it resolves in a supplied
context: a context in which a pack resolves has a player mappable entry. -/
theorem any_valid_eq_any_supplied (q : FKeyMappingPack) (w : World)
    (all L : List UInputMappingContext) (hL : CollectContextsWithMappableKeys w all = some L) :
    L.any (fun c => q.ResolvesIn w c) = all.any (fun c => q.ResolvesIn w c) := by
  have hLeq := (CollectContexts_spec w all L hL).1
  rw [Bool.eq_iff_iff, List.any_eq_true, List.any_eq_true]
  constructor
  · rintro ⟨c, hc, hr⟩
    rw [hLeq] at hc
    exact ⟨c, mem_CollectMappableLoop w all c hc, hr⟩
  · rintro ⟨c, hc, hr⟩
    obtain ⟨_, _, _, m, hm, hmm, _, _⟩ := ResolvesIn_spec q w c hr
    refine ⟨c, ?_, hr⟩
    rw [hLeq]
    exact (mem_CollectMappableLoop_iff w all c).mpr ⟨hc, m, List.getElem?_mem hm, hmm⟩

/-- C20 (reconciliation and remap write keys only): a successful reconciliation
keeps the entry count of every context and, at every position, the entry with
all its fields but the bound key (action, modifiers and names, hence the
resolved display name, and the player mappable flag); the surviving packs are
the packs of the store it starts from that resolve in a supplied context, they
come first in the new store, and an entry of any context keeps its key unless a
surviving pack has its context and position; in a build that is not a shipping
build the live configuration is unchanged; a successful remap or restore of the
key rewrites the bound key of the single entry at the position of the handle in
its context and nothing else in any context. -/
theorem Writes_keys_only (bShipping : Bool) (AllContexts : List UInputMappingContext)
    (s : Controller) :
    (∀ s1, RecalculatePlayerMappingSettings bShipping AllContexts s = some s1 →
      (∀ C, (s1.Live C).length = (s.Live C).length) ∧
      (∀ C (j : Nat) m, (s.Live C)[j]? = some m →
        ∃ k, (s1.Live C)[j]? = some { m with Key := k }) ∧
      (∃ N, s1.StableKeyMappingPacks =
        (if bShipping then s.StableKeyMappingPacks else []).filter
          (fun q => AllContexts.any (fun c => q.ResolvesIn s.Live c)) ++ N) ∧
      (∀ C (j : Nat),
        (∀ q ∈ (if bShipping then s.StableKeyMappingPacks else []).filter
            (fun q => AllContexts.any (fun c => q.ResolvesIn s.Live c)),
          ¬ (q.MappingContext = some C ∧ q.MappingIndex = (j : Int))) →
        (s1.Live C)[j]? = (s.Live C)[j]?) ∧
      (bShipping = false → s1.Live = s.Live)) ∧
    (∀ p K s2 p2, RemapControlKey s p K = some (s2, p2) →
      ∃ c, p.MappingContext = some c ∧ 0 ≤ p.MappingIndex ∧
        p.MappingIndex < ((s.Live c).length : Int) ∧
        ∀ (c2 : UInputMappingContext) (j : Nat),
          (s2.Live c2)[j]? = ((s.Live c2)[j]?).map
            (fun m => if c2 = c ∧ j = p.MappingIndex.toNat then { m with Key := K } else m)) ∧
    (∀ p s2 p2, RestoreDefaultKey s p = some (s2, p2) →
      ∃ c, p.MappingContext = some c ∧ 0 ≤ p.MappingIndex ∧
        p.MappingIndex < ((s.Live c).length : Int) ∧
        ∀ (c2 : UInputMappingContext) (j : Nat),
          (s2.Live c2)[j]? = ((s.Live c2)[j]?).map
            (fun m => if c2 = c ∧ j = p.MappingIndex.toNat
              then { m with Key := p.DefaultKey } else m)) := by
  refine ⟨?_, fun p K s2 p2 h => RemapControlKey_live s s2 p p2 K h,
    fun p s2 p2 h => RemapControlKey_live s s2 p p2 p.DefaultKey h⟩
  intro s1 h
  obtain ⟨L, kept, N, hL, hkept, hS1, hlive, _, _, _, _⟩ :=
    Recalculate_decomp bShipping AllContexts s s1 h
  have hkept2 : kept = (if bShipping then s.StableKeyMappingPacks else []).filter
      (fun q => AllContexts.any (fun c => q.ResolvesIn s.Live c)) := by
    rw [hkept]
    apply List.filter_congr
    intro q _
    exact any_valid_eq_any_supplied q s.Live AllContexts L hL
  refine ⟨?_, ?_, ⟨N, by rw [hS1, hkept2]⟩, ?_, ?_⟩
  · intro C
    rw [hlive, WriteBackAll_length]
  · intro C j m hm
    rw [hlive]
    exact WriteBackAll_shape kept s.Live C j m m.Key hm
  · intro C j hno
    rw [hlive]
    apply getElem?_WriteBackAll_other
    rintro q hq ⟨hqc, hqi⟩
    have hq2 := hq
    rw [hkept2] at hq2
    obtain ⟨c, _, hres⟩ := List.any_eq_true.mp (List.mem_filter.mp hq2).2
    obtain ⟨_, hq0, _, _⟩ := ResolvesIn_spec q s.Live c hres
    exact hno q hq2 ⟨hqc, by omega⟩
  · intro hb
    subst hb
    rw [hlive, hkept]
    rfl

/-- Witness of C20: reconciliation restores `E` into the "Jump" entry and changes
nothing but that key; and when only context 2 is supplied, the stored pack of
the "Jump" entry of context 1 does not survive and that entry keeps its key. -/
theorem Writes_keys_only_witness :
    (RecalculatePlayerMappingSettings true [1] ⟨[JumpPack KeySpace KeyE], JumpWorld KeySpace⟩ =
      some ⟨[JumpPack KeySpace KeyE], (JumpWorld KeySpace).SetKey 1 0 KeyE⟩ ∧
    (∀ C, (((JumpWorld KeySpace).SetKey 1 0 KeyE) C).length = ((JumpWorld KeySpace) C).length) ∧
    (∃ k, (((JumpWorld KeySpace).SetKey 1 0 KeyE) 1)[0]? =
      some { JumpMapping KeySpace with Key := k })) ∧
    (RecalculatePlayerMappingSettings true [2] ⟨[JumpPack KeySpace KeyE], TwoContextWorld⟩ =
      some ⟨[OtherCrouchPack], TwoContextWorld⟩ ∧
    (JumpPack KeySpace KeyE).ResolvesIn TwoContextWorld 1 = true ∧
    (TwoContextWorld 1)[0]? = some (JumpMapping KeySpace)) :=
  have h := (Writes_keys_only true [1] ⟨[JumpPack KeySpace KeyE], JumpWorld KeySpace⟩).1
    ⟨[JumpPack KeySpace KeyE], (JumpWorld KeySpace).SetKey 1 0 KeyE⟩ rfl
  have h2 := (Writes_keys_only true [2] ⟨[JumpPack KeySpace KeyE], TwoContextWorld⟩).1
    ⟨[OtherCrouchPack], TwoContextWorld⟩ rfl
  ⟨⟨rfl, h.1, h.2.1 1 0 (JumpMapping KeySpace) rfl⟩,
    ⟨rfl, by decide, (h2.2.2.2.1 1 0 (by decide)).trans rfl⟩⟩

/-! ## Repeated contexts in the valid-context list -/

theorem countP_EmplaceMappable (c0 c : UInputMappingContext)
    (ms : List FEnhancedActionKeyMapping) :
    (EmplaceMappable c0 ms).countP (fun x => decide (x = c)) =
      if c0 = c then ms.countP (fun m => m.bIsPlayerMappable) else 0 := by
  induction ms with
  | nil => simp [EmplaceMappable]
  | cons m ms ih =>
    unfold EmplaceMappable
    cases hm : m.bIsPlayerMappable with
    | false =>
      simp only [Bool.not_false, if_true, ih, List.countP_cons, hm, Bool.false_eq_true, if_false,
        Nat.add_zero]
    | true =>
      simp only [Bool.not_true, Bool.false_eq_true, if_false, List.countP_cons, ih, hm, if_true]
      by_cases h : c0 = c <;> simp [h]

/-- The valid-context list holds a context once per player mappable entry, for
every time the context was discovered. -/
theorem countP_CollectMappableLoop (w : World) (all : List UInputMappingContext)
    (c : UInputMappingContext) :
    (CollectMappableLoop w all).countP (fun x => decide (x = c)) =
      all.countP (fun x => decide (x = c)) * (w c).countP (fun m => m.bIsPlayerMappable) := by
  induction all with
  | nil => simp [CollectMappableLoop]
  | cons c0 rest ih =>
    unfold CollectMappableLoop
    rw [List.countP_append, countP_EmplaceMappable, ih, List.countP_cons]
    by_cases h : c0 = c
    · subst h
      simp [Nat.add_mul, Nat.add_comm]
    · simp [h]

theorem countP_eq_one_of_nodup (all : List UInputMappingContext) (c : UInputMappingContext)
    (hd : all.Nodup) (hc : c ∈ all) : all.countP (fun x => decide (x = c)) = 1 := by
  induction all with
  | nil => cases hc
  | cons x rest ih =>
    rw [List.nodup_cons] at hd
    rw [List.countP_cons]
    rcases List.mem_cons.mp hc with rfl | hc
    · have hz : rest.countP (fun x => decide (x = c)) = 0 := by
        rw [List.countP_eq_zero]
        intro y hy
        simp only [decide_eq_true_eq]
        intro e
        exact hd.1 (e ▸ hy)
      simp [hz]
    · have hne : x ≠ c := fun e => hd.1 (e ▸ hc)
      simp [ih hd.2 hc, hne]

theorem mem_RemoveRepeatedAux (seen L : List UInputMappingContext) (c : UInputMappingContext) :
    c ∈ RemoveRepeatedAux seen L ↔ c ∈ L ∧ c ∉ seen := by
  induction L generalizing seen with
  | nil => simp [RemoveRepeatedAux]
  | cons x rest ih =>
    unfold RemoveRepeatedAux
    by_cases hx : x ∈ seen
    · simp only [hx, if_true, ih, List.mem_cons]
      constructor
      · rintro ⟨h1, h2⟩
        exact ⟨Or.inr h1, h2⟩
      · rintro ⟨h1 | h1, h2⟩
        · subst h1; exact absurd hx h2
        · exact ⟨h1, h2⟩
    · simp only [hx, if_false, List.mem_cons, ih, not_or]
      constructor
      · rintro (h | ⟨h1, h2, h3⟩)
        · subst h; exact ⟨Or.inl rfl, hx⟩
        · exact ⟨Or.inr h1, h3⟩
      · rintro ⟨h1 | h1, h2⟩
        · exact Or.inl h1
        · by_cases hcx : c = x
          · exact Or.inl hcx
          · exact Or.inr ⟨h1, hcx, h2⟩

theorem RemoveRepeatedAux_nodup (seen L : List UInputMappingContext) :
    (RemoveRepeatedAux seen L).Nodup := by
  induction L generalizing seen with
  | nil => exact List.nodup_nil
  | cons x rest ih =>
    unfold RemoveRepeatedAux
    by_cases hx : x ∈ seen
    · simp only [hx, if_true]; exact ih seen
    · simp only [hx, if_false, List.nodup_cons]
      refine ⟨?_, ih _⟩
      intro hmem
      have := ((mem_RemoveRepeatedAux (x :: seen) rest x).mp hmem).2
      exact this (List.mem_cons_self _ _)

theorem RemoveRepeatedAux_sublist (seen L : List UInputMappingContext) :
    (RemoveRepeatedAux seen L).Sublist L := by
  induction L generalizing seen with
  | nil => exact List.Sublist.refl _
  | cons x rest ih =>
    unfold RemoveRepeatedAux
    by_cases hx : x ∈ seen
    · simp only [hx, if_true]; exact List.Sublist.cons _ (ih seen)
    · simp only [hx, if_false]; exact List.Sublist.cons₂ _ (ih _)

theorem KeepVerdict_congr (p : FKeyMappingPack) (w : World) (L L2 : List UInputMappingContext)
    (h : ∀ c, c ∈ L ↔ c ∈ L2) : KeepVerdict p w L = KeepVerdict p w L2 := by
  have hnone : KeepVerdict p w L = none ↔ KeepVerdict p w L2 = none := by
    rw [KeepVerdict_none_iff, KeepVerdict_none_iff]
    constructor
    · rintro ⟨h1, c, hc, h2⟩
      exact ⟨h1, c, (h c).mp hc, h2⟩
    · rintro ⟨h1, c, hc, h2⟩
      exact ⟨h1, c, (h c).mpr hc, h2⟩
  have hany : L.any (fun c => p.ResolvesIn w c) = L2.any (fun c => p.ResolvesIn w c) := by
    rw [Bool.eq_iff_iff, List.any_eq_true, List.any_eq_true]
    constructor
    · rintro ⟨c, hc, hr⟩
      exact ⟨c, (h c).mp hc, hr⟩
    · rintro ⟨c, hc, hr⟩
      exact ⟨c, (h c).mpr hc, hr⟩
  cases h1 : KeepVerdict p w L with
  | none => exact (hnone.mp h1).symm
  | some b =>
    cases h2 : KeepVerdict p w L2 with
    | none => rw [hnone.mpr h2] at h1; cases h1
    | some b2 =>
      rw [KeepVerdict_some p w L b h1, KeepVerdict_some p w L2 b2 h2, hany]

theorem FilterByPredicate_congr (L L2 : List UInputMappingContext) (S : List FKeyMappingPack)
    (w : World) (h : ∀ c, c ∈ L ↔ c ∈ L2) :
    FilterByPredicate L S w = FilterByPredicate L2 S w := by
  induction S generalizing w with
  | nil => rfl
  | cons p rest ih =>
    unfold FilterByPredicate
    rw [RemoveObsolete_eq, RemoveObsolete_eq, KeepVerdict_congr p w L L2 h]
    cases KeepVerdict p w L2 with
    | none => rfl
    | some b => simp only [Option.map_some', ih]

theorem Restore_congr (L L2 : List UInputMappingContext) (s : Controller)
    (h : ∀ c, c ∈ L ↔ c ∈ L2) :
    RestoreStoredKeysAndRemoveObsoleteMappings L s =
      RestoreStoredKeysAndRemoveObsoleteMappings L2 s := by
  have he : L.isEmpty = L2.isEmpty := by
    cases L with
    | nil =>
      cases L2 with
      | nil => rfl
      | cons x xs => exact absurd ((h x).mpr (List.mem_cons_self _ _)) (by simp)
    | cons x xs =>
      cases L2 with
      | nil => exact absurd ((h x).mp (List.mem_cons_self _ _)) (by simp)
      | cons y ys => rfl
  unfold RestoreStoredKeysAndRemoveObsoleteMappings
  rw [he, FilterByPredicate_congr L L2 _ _ h]

/-- Discovery skips a context it has already covered. -/
theorem CollectNewControlSettings_RemoveRepeatedAux (w : World)
    (L seen : List UInputMappingContext) (S : List FKeyMappingPack)
    (hseen : ∀ c ∈ seen, Covered c (w c) 0 S) :
    CollectNewControlSettings w L S =
      CollectNewControlSettings w (RemoveRepeatedAux seen L) S := by
  induction L generalizing seen S with
  | nil => rfl
  | cons c rest ih =>
    by_cases hc : c ∈ seen
    · have e : RemoveRepeatedAux seen (c :: rest) = RemoveRepeatedAux seen rest := by
        simp [RemoveRepeatedAux, hc]
      rw [e, ← ih seen S hseen]
      conv_lhs => unfold CollectNewControlSettings
      rw [CollectNewInContext_fix c (w c) 0 S (hseen c hc)]
    · have e : RemoveRepeatedAux seen (c :: rest) = c :: RemoveRepeatedAux (c :: seen) rest := by
        simp [RemoveRepeatedAux, hc]
      rw [e]
      unfold CollectNewControlSettings
      cases h1 : CollectNewInContext c (w c) 0 S with
      | none => rfl
      | some S1 =>
        simp only []
        obtain ⟨hcov, N, hN, _⟩ := CollectNewInContext_post c (w c) 0 S S1 h1
        apply ih (c :: seen) S1
        intro c2 hc2
        rcases List.mem_cons.mp hc2 with rfl | hc2
        · exact hcov
        · rw [hN]
          exact Covered_append _ _ _ _ _ (hseen c2 hc2)

theorem Recalculate_eq_phases (bShipping : Bool) (all : List UInputMappingContext)
    (s : Controller) :
    RecalculatePlayerMappingSettings bShipping all s =
      match CollectContextsWithMappableKeys s.Live all with
      | none => none
      | some L =>
          ReconcilePhases L (if bShipping then s else { s with StableKeyMappingPacks := [] }) := by
  unfold RecalculatePlayerMappingSettings ReconcilePhases
  cases bShipping <;> rfl

/-- C21 (repeated contexts are harmless): the valid-context list holds a context
once per player mappable entry for every time the context was discovered, so a
context that was discovered once and has `n` such entries occurs `n` times;
removing the repeated contexts (first occurrences kept) gives a list without
repetitions, in the same order and with the same contexts; and for every store
and live configuration the prune-and-restore and discover-new phases give the
same result (the same store and live configuration, or both raise) on a list of
contexts and on that list with the repeated contexts removed, so reconciliation
may run its two phases on the list without repetitions. -/
theorem Repeated_contexts_harmless (bShipping : Bool) (w : World)
    (AllContexts L : List UInputMappingContext) (s : Controller) :
    (∀ c, (CollectMappableLoop w AllContexts).countP (fun x => decide (x = c)) =
      AllContexts.countP (fun x => decide (x = c)) *
        (w c).countP (fun m => m.bIsPlayerMappable)) ∧
    (AllContexts.Nodup → ∀ c ∈ AllContexts,
      (CollectMappableLoop w AllContexts).countP (fun x => decide (x = c)) =
        (w c).countP (fun m => m.bIsPlayerMappable)) ∧
    ((RemoveRepeated L).Nodup ∧ (RemoveRepeated L).Sublist L ∧
      ∀ c, c ∈ RemoveRepeated L ↔ c ∈ L) ∧
    ReconcilePhases L s = ReconcilePhases (RemoveRepeated L) s ∧
    RecalculatePlayerMappingSettings bShipping AllContexts s =
      (match CollectContextsWithMappableKeys s.Live AllContexts with
      | none => none
      | some CurrentContexts =>
          ReconcilePhases (RemoveRepeated CurrentContexts)
            (if bShipping then s else { s with StableKeyMappingPacks := [] })) := by
  have hmem : ∀ (M : List UInputMappingContext) (c : UInputMappingContext),
      c ∈ M ↔ c ∈ RemoveRepeated M := by
    intro M c
    unfold RemoveRepeated
    rw [mem_RemoveRepeatedAux]
    simp
  have hphases : ∀ (M : List UInputMappingContext) (t : Controller),
      ReconcilePhases M t = ReconcilePhases (RemoveRepeated M) t := by
    intro M t
    unfold ReconcilePhases
    rw [Restore_congr M (RemoveRepeated M) t (hmem M)]
    cases RestoreStoredKeysAndRemoveObsoleteMappings (RemoveRepeated M) t with
    | none => rfl
    | some s1 =>
      simp only []
      have e : CollectNewControlSettings s1.Live M s1.StableKeyMappingPacks =
          CollectNewControlSettings s1.Live (RemoveRepeated M) s1.StableKeyMappingPacks :=
        CollectNewControlSettings_RemoveRepeatedAux s1.Live M [] s1.StableKeyMappingPacks
          (fun c hc => by cases hc)
      rw [e]
  refine ⟨countP_CollectMappableLoop w AllContexts, ?_, ?_, hphases L s, ?_⟩
  · intro hd c hc
    rw [countP_CollectMappableLoop, countP_eq_one_of_nodup AllContexts c hd hc, Nat.one_mul]
  · exact ⟨RemoveRepeatedAux_nodup [] L, RemoveRepeatedAux_sublist [] L,
      fun c => (hmem L c).symm⟩
  · rw [Recalculate_eq_phases]
    cases CollectContextsWithMappableKeys s.Live AllContexts with
    | none => rfl
    | some M => exact hphases M _

/-- Witness of C21: context 1 has two player mappable entries, so the valid-context
list is `[1, 1]`; the two phases give the same store and live configuration on
`[1, 1]` and on `[1]`. -/
theorem Repeated_contexts_harmless_witness :
    CollectContextsWithMappableKeys TwoEntryWorld [1] = some [1, 1] ∧
    RemoveRepeated [1, 1] = [1] ∧ RemoveRepeated [1, 2, 1, 3, 2] = [1, 2, 3] ∧
    ReconcilePhases [1, 1] ⟨[JumpPack KeySpace KeyE], TwoEntryWorld⟩ =
      some ⟨[JumpPack KeySpace KeyE, SecondCrouchPack], TwoEntryWorld.SetKey 1 0 KeyE⟩ ∧
    ReconcilePhases [1, 1] ⟨[JumpPack KeySpace KeyE], TwoEntryWorld⟩ =
      ReconcilePhases (RemoveRepeated [1, 1]) ⟨[JumpPack KeySpace KeyE], TwoEntryWorld⟩ :=
  ⟨by decide, by decide, by decide, rfl,
    (Repeated_contexts_harmless true TwoEntryWorld [1] [1, 1]
      ⟨[JumpPack KeySpace KeyE], TwoEntryWorld⟩).2.2.2.1⟩

/-! ## Restore propagation on the stores the controller can hold -/

theorem Restore_LiveKey_of_distinct (L : List UInputMappingContext) (s sR : Controller)
    (hd : SlotsDistinct s.StableKeyMappingPacks) (hL : L ≠ [])
    (h : RestoreStoredKeysAndRemoveObsoleteMappings L s = some sR) :
    ∀ p ∈ sR.StableKeyMappingPacks, p.LiveKey sR.Live = some p.CustomKey := by
  obtain ⟨_, hkept, hlive⟩ := Restore_post L s sR hL h
  have hsub : sR.StableKeyMappingPacks.Sublist s.StableKeyMappingPacks := by
    rw [hkept]; exact List.filter_sublist _
  have hd2 : SlotsDistinct sR.StableKeyMappingPacks :=
    List.Nodup.sublist (List.Sublist.map _ hsub) hd
  have hres : ∀ q ∈ sR.StableKeyMappingPacks, ∃ c, q.ResolvesIn s.Live c = true := by
    intro q hq
    rw [hkept] at hq
    have hv := (List.mem_filter.mp hq).2
    obtain ⟨c, _, hr⟩ := KeepVerdict_true_iff q _ L (by simpa using hv)
    exact ⟨c, hr⟩
  intro p hp
  rw [hlive]
  exact LiveKey_WriteBackAll_distinct sR.StableKeyMappingPacks s.Live hd2 hres p hp

/-- C3 (restore propagation): for every store the controller can hold (a store
reached from the empty store by reconciliations, remaps and restores, with any
reloads of the live configuration in between) and every non-empty list of
contexts (the valid-context list is never empty), after the prune-and-restore
phase every pack that survives has its custom key bound in the live entry at
its position in its context. -/
theorem Restore_propagation (bShipping : Bool) (CurrentContexts : List UInputMappingContext)
    (s sR : Controller) (hs : Reachable bShipping s) (hL : CurrentContexts ≠ [])
    (h : RestoreStoredKeysAndRemoveObsoleteMappings CurrentContexts s = some sR) :
    ∀ p ∈ sR.StableKeyMappingPacks, p.LiveKey sR.Live = some p.CustomKey :=
  Restore_LiveKey_of_distinct CurrentContexts s sR (Reachable_slotsDistinct bShipping s hs) hL h

/-- Witness of C3: the "Jump" pack was created by reconciliation and remapped to
`E`; the live configuration is then reloaded with the entry bound to `SpaceBar`
again, and the prune-and-restore phase binds the entry to `E`. -/
theorem Restore_propagation_witness :
    Reachable true ⟨[JumpPack KeySpace KeyE], JumpWorld KeySpace⟩ ∧
    RestoreStoredKeysAndRemoveObsoleteMappings [1]
        ⟨[JumpPack KeySpace KeyE], JumpWorld KeySpace⟩ =
      some ⟨[JumpPack KeySpace KeyE], (JumpWorld KeySpace).SetKey 1 0 KeyE⟩ ∧
    ∀ p ∈ [JumpPack KeySpace KeyE],
      p.LiveKey ((JumpWorld KeySpace).SetKey 1 0 KeyE) = some p.CustomKey :=
  have hA : Reachable true ⟨[JumpPack KeySpace KeySpace], JumpWorld KeySpace⟩ :=
    Reachable.reconcile ⟨[], JumpWorld KeySpace⟩ _ [1] (Reachable.start _) rfl
  have hB : Reachable true ⟨[JumpPack KeySpace KeyE], (JumpWorld KeySpace).SetKey 1 0 KeyE⟩ :=
    Reachable.remap _ _ (JumpPack KeySpace KeySpace) (JumpPack KeySpace KeyE) KeyE hA rfl
  have hC : Reachable true ⟨[JumpPack KeySpace KeyE], JumpWorld KeySpace⟩ :=
    Reachable.reload _ (JumpWorld KeySpace) hB
  ⟨hC, rfl, Restore_propagation true [1] ⟨[JumpPack KeySpace KeyE], JumpWorld KeySpace⟩
    ⟨[JumpPack KeySpace KeyE], (JumpWorld KeySpace).SetKey 1 0 KeyE⟩ hC (by simp) rfl⟩

end Rebind
